import Mathlib

/-!
# BIGNUM storage core (`crypto/fipsmodule/bn/bn.c`)

A shallow embedding of the representation, capacity, canonicalisation and
word/bit accessor routines of `bn.c`, followed by theorems about them.

Conventions of the embedding

* A machine word (`BN_ULONG`) is a natural number; `BN_BITS2` (32 or 64) is an
  explicit argument of every routine whose text depends on it, and unsigned
  arithmetic that can wrap is written with an explicit `% 2 ^ BN_BITS2`.
* The word buffer `d` is a list of words, least significant first; the null
  pointer is the empty list.  Reading `d[i]` is `d.getD i 0`.
* `top`, `dmax` are the non-negative `int` fields of the struct; `neg` and
  `flags` are kept as integers/bit sets as in C.
* A routine that returns `int` 1/0 and mutates `*bn` becomes a function to
  `Status × BIGNUM`; the reason pushed by `OPENSSL_PUT_ERROR` is carried by
  `Status.failure`.
* `OPENSSL_malloc` is external.  Its outcome is an argument `heap`: `none` is
  the failing allocation, `some g` is a fresh block whose (indeterminate)
  initial content at index `i` is `g i`.
-/

namespace BN

/-! ## Constants and the data model -/

/-- Largest value of a C `int` (32 bits). -/
def INT_MAX : Nat := 2147483647

/-- Modelled from the spec: `BN_FLG_MALLOCED` is declared in `bn.h`, which is
not part of the sources; the spec calls it the handle-owns-storage bit, one of
two independent bits. -/
def BN_FLG_MALLOCED : Nat := 0x01

/-- Modelled from the spec: `BN_FLG_STATIC_DATA` is declared in `bn.h`, which is
not part of the sources; the spec calls it the static-data bit, independent of
the handle-owns-storage bit. -/
def BN_FLG_STATIC_DATA : Nat := 0x02

/-- The `struct bignum_st` fields used by `bn.c`. -/
structure BIGNUM where
  d : List Nat
  top : Nat
  dmax : Nat
  neg : Int
  flags : Nat
deriving DecidableEq, Repr

/-- Reasons handed to `OPENSSL_PUT_ERROR` in `bn.c`.  The spec calls them
`AllocationFailure`, `TooLarge`, `ImmutableStorage` and `NegativeValue`. -/
inductive BnError where
  | ERR_R_MALLOC_FAILURE
  | BN_R_BIGNUM_TOO_LONG
  | BN_R_EXPAND_ON_STATIC_BIGNUM_DATA
  | BN_R_NEGATIVE_NUMBER
deriving DecidableEq, Repr

/-- The `int` result of a fallible routine: `success` is `return 1`,
`failure e` is `return 0` after `OPENSSL_PUT_ERROR(BN, e)`. -/
inductive Status where
  | success
  | failure (e : BnError)
deriving DecidableEq, Repr

/-! ## Memory primitives -/

/-- The external allocator applied to a request of `n` words. -/
def OPENSSL_malloc (heap : Option (Nat → Nat)) (n : Nat) : Option (List Nat) :=
  heap.map (fun g => (List.range n).map g)

/-- The call `OPENSSL_memcpy(dst, src, n * sizeof(BN_ULONG))`. -/
def OPENSSL_memcpy (dst src : List Nat) (n : Nat) : List Nat :=
  src.take n ++ dst.drop n

/-- The call `OPENSSL_memmove(dst, src, n * sizeof(BN_ULONG))`; the source is a
value here, so it behaves as a copy. -/
def OPENSSL_memmove (dst src : List Nat) (n : Nat) : List Nat :=
  src.take n ++ dst.drop n

/-- The call `OPENSSL_memset(dst + off, c, n * sizeof(BN_ULONG))` with `c = 0`
the only use in `bn.c`. -/
def OPENSSL_memset (dst : List Nat) (off c n : Nat) : List Nat :=
  dst.take off ++ List.replicate n c ++ dst.drop (off + n)

/-! ## Construction -/

/-- The state written by `BN_new` when the handle allocation succeeds. -/
def BN_new : BIGNUM :=
  { d := [], top := 0, dmax := 0, neg := 0, flags := BN_FLG_MALLOCED }

/-- The state written by `BN_init`. -/
def BN_init : BIGNUM :=
  { d := [], top := 0, dmax := 0, neg := 0, flags := 0 }

/-- The shared constant built by `BN_value_one`.  Its `d` points at the
`static const` array `kOneLimbs`: the words can be read, and a store through
`d` is not defined in the program. -/
def BN_value_one : BIGNUM :=
  { d := [1], top := 1, dmax := 1, neg := 0, flags := BN_FLG_STATIC_DATA }

/-! ## Bit length of a word -/

/-- The expression `0u - x` in `BN_ULONG` arithmetic. -/
def word_neg (BN_BITS2 x : Nat) : Nat :=
  (2 ^ BN_BITS2 - x % 2 ^ BN_BITS2) % 2 ^ BN_BITS2

/-- The two mask assignments of one block of `BN_num_bits_word`:
`mask = 0u - x; mask = (0u - (mask >> (BN_BITS2 - 1)));`. -/
def halving_mask (BN_BITS2 x : Nat) : Nat :=
  let mask := word_neg BN_BITS2 x
  word_neg BN_BITS2 (mask >>> (BN_BITS2 - 1))

/-- One full block of `BN_num_bits_word` for the shift amount `k`:
`x = l >> k; mask = ...; bits += k & mask; l ^= (x ^ l) & mask;`. -/
def halving_step (BN_BITS2 k : Nat) (s : Nat × Nat) : Nat × Nat :=
  let bits := s.1
  let l := s.2
  let x := l >>> k
  let mask := halving_mask BN_BITS2 x
  (bits + (k &&& mask), l ^^^ ((x ^^^ l) &&& mask))

/-- The routine `BN_num_bits_word`. -/
def BN_num_bits_word (BN_BITS2 : Nat) (l : Nat) : Nat :=
  let bits : Nat := if l ≠ 0 then 1 else 0
  let s : Nat × Nat := (bits, l)
  let s := if BN_BITS2 > 32 then halving_step BN_BITS2 32 s else s
  let s := halving_step BN_BITS2 16 s
  let s := halving_step BN_BITS2 8 s
  let s := halving_step BN_BITS2 4 s
  let s := halving_step BN_BITS2 2 s
  let bits := s.1
  let l := s.2
  let x := l >>> 1
  let mask := halving_mask BN_BITS2 x
  bits + (1 &&& mask)

/-! ## Width queries and canonicalisation -/

/-- The loop of `bn_minimal_width`, started at `ret`:
`while (ret > 0 && bn->d[ret - 1] == 0) ret--;`. -/
def bn_minimal_width_loop (d : List Nat) : Nat → Nat
  | 0 => 0
  | ret + 1 => if d.getD ret 0 = 0 then bn_minimal_width_loop d ret else ret + 1

/-- The routine `bn_minimal_width`. -/
def bn_minimal_width (bn : BIGNUM) : Nat :=
  bn_minimal_width_loop bn.d bn.top

/-- The routine `bn_correct_top`. -/
def bn_correct_top (bn : BIGNUM) : BIGNUM :=
  let bn := { bn with top := bn_minimal_width bn }
  if bn.top = 0 then { bn with neg := 0 } else bn

/-- The routine `BN_num_bits` for a non-null argument; the result is an
`unsigned`. -/
def BN_num_bits (BN_BITS2 : Nat) (bn : BIGNUM) : Nat :=
  let width := bn_minimal_width bn
  if width = 0 then 0
  else ((width - 1) * BN_BITS2 + BN_num_bits_word BN_BITS2 (bn.d.getD (width - 1) 0)) % 2 ^ 32

/-- The routine `BN_num_bytes`. -/
def BN_num_bytes (BN_BITS2 : Nat) (bn : BIGNUM) : Nat :=
  ((BN_num_bits BN_BITS2 bn + 7) % 2 ^ 32) / 8

/-- The routine `bn_fits_in_words`: the words at `num .. top - 1` are or-ed
into `mask`, without an early exit. -/
def bn_fits_in_words (bn : BIGNUM) (num : Nat) : Bool :=
  let mask := (List.range' num (bn.top - num)).foldl (fun m i => m ||| bn.d.getD i 0) 0
  decide (mask = 0)

/-- Modelled from the spec: `BN_is_zero` is defined outside `bn.c` and is not
part of the sources.  The spec speaks of the BigInt that "represents zero",
the value whose magnitude is zero: every used word is zero. -/
def BN_is_zero (bn : BIGNUM) : Bool :=
  bn_fits_in_words bn 0

/-! ## Capacity -/

/-- The routine `bn_wexpand`. -/
def bn_wexpand (BN_BITS2 : Nat) (heap : Option (Nat → Nat)) (bn : BIGNUM) (words : Nat) :
    Status × BIGNUM :=
  if words ≤ bn.dmax then (Status.success, bn)
  else if words > INT_MAX / (4 * BN_BITS2) then
    (Status.failure BnError.BN_R_BIGNUM_TOO_LONG, bn)
  else if bn.flags &&& BN_FLG_STATIC_DATA ≠ 0 then
    (Status.failure BnError.BN_R_EXPAND_ON_STATIC_BIGNUM_DATA, bn)
  else
    match OPENSSL_malloc heap words with
    | none => (Status.failure BnError.ERR_R_MALLOC_FAILURE, bn)
    | some a =>
      let a := OPENSSL_memcpy a bn.d bn.top
      (Status.success, { bn with d := a, dmax := words })

/-- The routine `bn_expand`; `size_bits` is the width of `size_t`, in which
`bits + BN_BITS2 - 1` is computed. -/
def bn_expand (BN_BITS2 size_bits : Nat) (heap : Option (Nat → Nat)) (bn : BIGNUM)
    (bits : Nat) : Status × BIGNUM :=
  if (bits + BN_BITS2 - 1) % 2 ^ size_bits < bits then
    (Status.failure BnError.BN_R_BIGNUM_TOO_LONG, bn)
  else bn_wexpand BN_BITS2 heap bn (((bits + BN_BITS2 - 1) % 2 ^ size_bits) / BN_BITS2)

/-- The routine `bn_resize_words`. -/
def bn_resize_words (BN_BITS2 : Nat) (heap : Option (Nat → Nat)) (bn : BIGNUM)
    (words : Nat) : Status × BIGNUM :=
  if bn.top ≤ words then
    match bn_wexpand BN_BITS2 heap bn words with
    | (Status.failure e, bn) => (Status.failure e, bn)
    | (Status.success, bn) =>
      (Status.success,
        { bn with d := OPENSSL_memset bn.d bn.top 0 (words - bn.top), top := words })
  else if !bn_fits_in_words bn words then
    (Status.failure BnError.BN_R_BIGNUM_TOO_LONG, bn)
  else (Status.success, { bn with top := words })

/-! ## Value and sign accessors -/

/-- The routine `BN_zero`. -/
def BN_zero (bn : BIGNUM) : BIGNUM :=
  { bn with top := 0, neg := 0 }

/-- The routine `BN_clear`. -/
def BN_clear (bn : BIGNUM) : BIGNUM :=
  let d := if bn.d ≠ [] then OPENSSL_memset bn.d 0 0 bn.dmax else bn.d
  { bn with d := d, top := 0, neg := 0 }

/-- The routine `BN_set_word`. -/
def BN_set_word (BN_BITS2 : Nat) (heap : Option (Nat → Nat)) (bn : BIGNUM) (value : Nat) :
    Status × BIGNUM :=
  if value = 0 then (Status.success, BN_zero bn)
  else
    match bn_wexpand BN_BITS2 heap bn 1 with
    | (Status.failure e, bn) => (Status.failure e, bn)
    | (Status.success, bn) =>
      (Status.success, { bn with neg := 0, d := bn.d.set 0 value, top := 1 })

/-- The routine `BN_one`. -/
def BN_one (BN_BITS2 : Nat) (heap : Option (Nat → Nat)) (bn : BIGNUM) : Status × BIGNUM :=
  BN_set_word BN_BITS2 heap bn 1

/-- The routine `BN_set_u64`; `value` is a `uint64_t` and `BN_MASK2` is the
all-ones word `2 ^ 32 - 1` of the 32-bit build. -/
def BN_set_u64 (BN_BITS2 : Nat) (heap : Option (Nat → Nat)) (bn : BIGNUM) (value : Nat) :
    Status × BIGNUM :=
  if BN_BITS2 = 64 then BN_set_word BN_BITS2 heap bn value
  else if value ≤ 2 ^ 32 - 1 then BN_set_word BN_BITS2 heap bn (value % 2 ^ 32)
  else
    match bn_wexpand BN_BITS2 heap bn 2 with
    | (Status.failure e, bn) => (Status.failure e, bn)
    | (Status.success, bn) =>
      (Status.success,
        { bn with neg := 0,
                  d := (bn.d.set 0 (value % 2 ^ 32)).set 1 ((value >>> 32) % 2 ^ 32),
                  top := 2 })

/-- The routine `bn_set_words`. -/
def bn_set_words (BN_BITS2 : Nat) (heap : Option (Nat → Nat)) (bn : BIGNUM)
    (words : List Nat) (num : Nat) : Status × BIGNUM :=
  match bn_wexpand BN_BITS2 heap bn num with
  | (Status.failure e, bn) => (Status.failure e, bn)
  | (Status.success, bn) =>
    let bn := { bn with d := OPENSSL_memmove bn.d words num }
    let bn := { bn with top := num }
    let bn := bn_correct_top bn
    (Status.success, { bn with neg := 0 })

/-- The routine `bn_copy_words`; the second component is the buffer `out`
after the call. -/
def bn_copy_words (out : List Nat) (num : Nat) (bn : BIGNUM) : Status × List Nat :=
  if bn.neg ≠ 0 then (Status.failure BnError.BN_R_NEGATIVE_NUMBER, out)
  else
    let width := bn.top
    if width > num then
      if !bn_fits_in_words bn num then (Status.failure BnError.BN_R_BIGNUM_TOO_LONG, out)
      else
        let width := num
        let out := OPENSSL_memset out 0 0 num
        (Status.success, OPENSSL_memcpy out bn.d width)
    else
      let out := OPENSSL_memset out 0 0 num
      (Status.success, OPENSSL_memcpy out bn.d width)

/-- The routine `BN_is_negative`. -/
def BN_is_negative (bn : BIGNUM) : Bool :=
  decide (bn.neg ≠ 0)

/-- The routine `BN_set_negative`. -/
def BN_set_negative (bn : BIGNUM) (sign : Int) : BIGNUM :=
  if sign ≠ 0 ∧ !BN_is_zero bn then { bn with neg := 1 } else { bn with neg := 0 }

/-- The routine `BN_copy`; `same` is the outcome of the pointer test
`src == dest`. -/
def BN_copy (BN_BITS2 : Nat) (heap : Option (Nat → Nat)) (dest src : BIGNUM) (same : Bool) :
    Status × BIGNUM :=
  if same then (Status.success, dest)
  else
    match bn_wexpand BN_BITS2 heap dest src.top with
    | (Status.failure e, dest) => (Status.failure e, dest)
    | (Status.success, dest) =>
      (Status.success,
        { dest with d := OPENSSL_memcpy dest.d src.d src.top, top := src.top, neg := src.neg })

/-- The routine `BN_dup` for a non-null `src`.  `handle` is the outcome of the
allocation of the struct made by `BN_new`, `heap` that of the word buffer; the
result `none` is the `NULL` return. -/
def BN_dup (BN_BITS2 : Nat) (handle : Bool) (heap : Option (Nat → Nat)) (src : BIGNUM) :
    Option BIGNUM :=
  if !handle then none
  else
    match BN_copy BN_BITS2 heap BN_new src false with
    | (Status.failure _, _) => none
    | (Status.success, copy) => some copy

/-! ## Specification-side notions -/

/-- The magnitude of a word sequence: `sum_i word[i] * 2 ^ (BN_BITS2 * i)`. -/
def words_value (BN_BITS2 : Nat) : List Nat → Nat
  | [] => 0
  | w :: ws => w + 2 ^ BN_BITS2 * words_value BN_BITS2 ws

/-- The magnitude of a BigInt: the value of its first `top` words. -/
def magnitude (BN_BITS2 : Nat) (bn : BIGNUM) : Nat :=
  words_value BN_BITS2 ((List.range bn.top).map (fun i => bn.d.getD i 0))

/-- Canonical form: `top == 0` with a non-negative sign, or a non-zero top
word. -/
def canonical (bn : BIGNUM) : Prop :=
  (bn.top = 0 ∧ bn.neg = 0) ∨ (bn.top ≠ 0 ∧ bn.d.getD (bn.top - 1) 0 ≠ 0)

instance (bn : BIGNUM) : Decidable (canonical bn) := by
  unfold canonical; infer_instance

/-- The loop invariant of the halving blocks for a non-zero input `w`: the
remainder is non-zero, fits in `n` bits, and the count so far plus the bit
length of the remainder is one more than the bit length of `w`. -/
def halving_inv (w n : Nat) (s : Nat × Nat) : Prop :=
  s.2 ≠ 0 ∧ s.2 < 2 ^ n ∧ s.1 + Nat.size s.2 = Nat.size w + 1

/-! ## The operations executed by `BN_num_bits_word` -/

/-- What one executed operation shows to an observer of the instruction
stream: its kind, together with the shift count, the branch outcome or the
table index where it has one.  Operand values are not shown. -/
inductive Event where
  | compare_zero
  | shift_right (count : Nat)
  | subtract_from_zero
  | bit_and
  | bit_xor
  | add
  | branch (taken : Bool)
  | table_index (index : Nat)
deriving DecidableEq, Repr

/-- A value together with the operations executed to compute it. -/
structure Traced (α : Type) where
  val : α
  trace : List Event

instance : Monad Traced where
  pure a := { val := a, trace := [] }
  bind m f := { val := (f m.val).val, trace := m.trace ++ (f m.val).trace }

/-- The comparison `x != 0`, an `int` 0 or 1. -/
def op_ne_zero (x : Nat) : Traced Nat :=
  { val := if x ≠ 0 then 1 else 0, trace := [Event.compare_zero] }

/-- The shift `x >> count`. -/
def op_shr (x count : Nat) : Traced Nat :=
  { val := x >>> count, trace := [Event.shift_right count] }

/-- The subtraction `0u - x` in `BN_ULONG` arithmetic. -/
def op_neg (BN_BITS2 x : Nat) : Traced Nat :=
  { val := word_neg BN_BITS2 x, trace := [Event.subtract_from_zero] }

/-- The operation `x & y`. -/
def op_and (x y : Nat) : Traced Nat :=
  { val := x &&& y, trace := [Event.bit_and] }

/-- The operation `x ^ y`. -/
def op_xor (x y : Nat) : Traced Nat :=
  { val := x ^^^ y, trace := [Event.bit_xor] }

/-- The operation `x + y`. -/
def op_add (x y : Nat) : Traced Nat :=
  { val := x + y, trace := [Event.add] }

/-- One full block of `BN_num_bits_word`, operation by operation:
`x = l >> k; mask = 0u - x; mask = (0u - (mask >> (BN_BITS2 - 1)));
bits += k & mask; l ^= (x ^ l) & mask;`. -/
def halving_step_traced (BN_BITS2 k : Nat) (s : Nat × Nat) : Traced (Nat × Nat) := do
  let bits := s.1
  let l := s.2
  let x ← op_shr l k
  let mask ← op_neg BN_BITS2 x
  let t ← op_shr mask (BN_BITS2 - 1)
  let mask ← op_neg BN_BITS2 t
  let a ← op_and k mask
  let bits ← op_add bits a
  let y ← op_xor x l
  let z ← op_and y mask
  let l ← op_xor l z
  pure (bits, l)

/-- The routine `BN_num_bits_word`, operation by operation.  The test
`BN_BITS2 > 32` is the preprocessor conditional of the source, decided when the
code is compiled. -/
def BN_num_bits_word_traced (BN_BITS2 : Nat) (l : Nat) : Traced Nat := do
  let bits ← op_ne_zero l
  let s ← if BN_BITS2 > 32 then halving_step_traced BN_BITS2 32 (bits, l) else pure (bits, l)
  let s ← halving_step_traced BN_BITS2 16 s
  let s ← halving_step_traced BN_BITS2 8 s
  let s ← halving_step_traced BN_BITS2 4 s
  let s ← halving_step_traced BN_BITS2 2 s
  let bits := s.1
  let l := s.2
  let x ← op_shr l 1
  let mask ← op_neg BN_BITS2 x
  let t ← op_shr mask (BN_BITS2 - 1)
  let mask ← op_neg BN_BITS2 t
  let a ← op_and 1 mask
  op_add bits a

/-- The operations whose occurrence or argument would depend on the data: a
conditional branch and an indexed table access. -/
def Event.data_dependent : Event → Bool
  | Event.branch _ => true
  | Event.table_index _ => true
  | _ => false

/-- The operations that form a mask for the shift `k`: shift, subtract from
zero, shift the sign bit down, subtract from zero again. -/
def mask_events (BN_BITS2 k : Nat) : List Event :=
  [Event.shift_right k, Event.subtract_from_zero, Event.shift_right (BN_BITS2 - 1),
    Event.subtract_from_zero]

/-- The operations of one full block for the shift `k`: the mask, the update
of the count, the fold of the tested half into the remainder. -/
def block_events (BN_BITS2 k : Nat) : List Event :=
  mask_events BN_BITS2 k ++
    [Event.bit_and, Event.add, Event.bit_xor, Event.bit_and, Event.bit_xor]

/-! ## Sequences of mutating calls -/

/-- One call of a mutating operation of the core, with its arguments; `heap`
is the outcome of the allocation the call may make. -/
inductive Op where
  | set_zero
  | set_one (heap : Option (Nat → Nat))
  | set_word (heap : Option (Nat → Nat)) (w : Nat)
  | set_u64 (heap : Option (Nat → Nat)) (v : Nat)
  | set_words (heap : Option (Nat → Nat)) (buffer : List Nat) (n : Nat)
  | set_sign (s : Int)
  | copy (heap : Option (Nat → Nat)) (src : BIGNUM) (same : Bool)
  | clear
  | trim
  | ensure_capacity (heap : Option (Nat → Nat)) (words : Nat)
  | ensure_capacity_bits (heap : Option (Nat → Nat)) (bits : Nat)
  | resize_to (heap : Option (Nat → Nat)) (words : Nat)

/-- The state of the receiving BigInt after one call, successful or failed. -/
def apply_op (BN_BITS2 size_bits : Nat) (bn : BIGNUM) : Op → BIGNUM
  | Op.set_zero => BN_zero bn
  | Op.set_one heap => (BN_one BN_BITS2 heap bn).2
  | Op.set_word heap w => (BN_set_word BN_BITS2 heap bn w).2
  | Op.set_u64 heap v => (BN_set_u64 BN_BITS2 heap bn v).2
  | Op.set_words heap buffer n => (bn_set_words BN_BITS2 heap bn buffer n).2
  | Op.set_sign s => BN_set_negative bn s
  | Op.copy heap src same => (BN_copy BN_BITS2 heap bn src same).2
  | Op.clear => BN_clear bn
  | Op.trim => bn_correct_top bn
  | Op.ensure_capacity heap words => (bn_wexpand BN_BITS2 heap bn words).2
  | Op.ensure_capacity_bits heap bits => (bn_expand BN_BITS2 size_bits heap bn bits).2
  | Op.resize_to heap words => (bn_resize_words BN_BITS2 heap bn words).2

/-- The state after a sequence of calls. -/
def run_ops (BN_BITS2 size_bits : Nat) (bn : BIGNUM) (ops : List Op) : BIGNUM :=
  ops.foldl (apply_op BN_BITS2 size_bits) bn

/-- The calls under which canonical form is kept.  The arguments are what
their C types say (a `uint64_t` value, a buffer that holds the `n` words that
are read, a canonical source BigInt), and a `resize_to` does not raise the used
length: it asks for at most `top` words, or it fails. -/
def op_allowed (BN_BITS2 : Nat) (bn : BIGNUM) : Op → Prop
  | Op.set_u64 _ v => v < 2 ^ 64
  | Op.set_words _ buffer n => n ≤ buffer.length
  | Op.copy _ src _ => canonical src
  | Op.resize_to heap words =>
    words ≤ bn.top ∨ (bn_resize_words BN_BITS2 heap bn words).1 ≠ Status.success
  | _ => True

/-- Every call of the sequence is allowed in the state it is made in. -/
def ops_allowed (BN_BITS2 size_bits : Nat) : BIGNUM → List Op → Prop
  | _, [] => True
  | bn, op :: ops =>
    op_allowed BN_BITS2 bn op ∧
      ops_allowed BN_BITS2 size_bits (apply_op BN_BITS2 size_bits bn op) ops

/-- The representation invariant carried along a sequence of calls: canonical
form, and a buffer of exactly `dmax` words. -/
def core_inv (bn : BIGNUM) : Prop :=
  canonical bn ∧ bn.d.length = bn.dmax

/-- What every call keeps, between the state `bn` before and the state `r`
after it: the used length is within the capacity, the capacity has not
decreased, and it is the old one or one within the ceiling of `bn_wexpand`. -/
def keeps_bounds (BN_BITS2 : Nat) (bn r : BIGNUM) : Prop :=
  r.top ≤ r.dmax ∧ bn.dmax ≤ r.dmax ∧
    (r.dmax = bn.dmax ∨ r.dmax ≤ INT_MAX / (4 * BN_BITS2))

/-! ## Example states -/

/-- A non-canonical three-word BigInt with value `5 * 2^64`. -/
def bn_padded : BIGNUM :=
  { d := [0, 5, 0], top := 3, dmax := 3, neg := 0, flags := 0 }

/-- The canonical BigInt of value `-7`. -/
def bn_minus_seven : BIGNUM :=
  { d := [7], top := 1, dmax := 1, neg := 1, flags := 0 }

/-- A sequence of calls that keeps the used length: load 5, set the sign,
trim, resize to the current width. -/
def ops_example : List Op :=
  [Op.set_word (some (fun _ => 0)) 5, Op.set_sign 1, Op.trim, Op.resize_to none 1]

/-- A sequence of calls that grows the buffer: widen to four words, load two
words, ask for room for 1000 bits, clear. -/
def ops_growth : List Op :=
  [Op.resize_to (some (fun _ => 7)) 4, Op.set_words none [1, 2] 2,
    Op.ensure_capacity_bits (some (fun _ => 7)) 1000, Op.clear]

/-! # Theorems -/

/-! ## The bit length of a word -/

theorem word_neg_zero (W : Nat) : word_neg W 0 = 0 := by
  simp [word_neg]

theorem word_neg_of_pos {W x : Nat} (hx : 0 < x) (hlt : x < 2 ^ W) :
    word_neg W x = 2 ^ W - x := by
  unfold word_neg
  rw [Nat.mod_eq_of_lt hlt, Nat.mod_eq_of_lt (by omega)]

theorem halving_mask_zero (W : Nat) : halving_mask W 0 = 0 := by
  simp [halving_mask, word_neg_zero]

theorem halving_mask_of_pos {W x : Nat} (hW : 1 ≤ W) (hx : 0 < x) (hle : x ≤ 2 ^ (W - 1)) :
    halving_mask W x = 2 ^ W - 1 := by
  have hpow : 2 ^ W = 2 * 2 ^ (W - 1) := by
    rw [← pow_succ']
    congr 1
    omega
  have hpos : 0 < 2 ^ (W - 1) := Nat.pow_pos (by decide)
  have hlt : x < 2 ^ W := by omega
  have h1 : (2 ^ W - x) >>> (W - 1) = 1 := by
    rw [Nat.shiftRight_eq_div_pow]
    apply Nat.div_eq_of_lt_le
    · omega
    · omega
  have h2 : (1 : Nat) < 2 ^ W := by omega
  unfold halving_mask
  simp only []
  rw [word_neg_of_pos hx hlt, h1, word_neg_of_pos (by decide) h2]

/-- One block of `BN_num_bits_word` either leaves the state alone (when the
tested upper part `l >> k` is zero) or adds `k` and keeps the upper part. -/
theorem halving_step_eq {W k bits l : Nat} (hk : 1 ≤ k) (hkW : k < W) (hl : l < 2 ^ W) :
    halving_step W k (bits, l) = if l < 2 ^ k then (bits, l) else (bits + k, l / 2 ^ k) := by
  have hkpos : 0 < 2 ^ k := Nat.pow_pos (by decide)
  unfold halving_step
  simp only [Nat.shiftRight_eq_div_pow]
  by_cases h : l < 2 ^ k
  · rw [Nat.div_eq_of_lt h, halving_mask_zero, if_pos h]
    simp
  · rw [if_neg h]
    have hx : 0 < l / 2 ^ k := Nat.div_pos (by omega) hkpos
    have hxle : l / 2 ^ k ≤ 2 ^ (W - 1) := by
      have h1 : l / 2 ^ k < 2 ^ (W - k) := by
        rw [Nat.div_lt_iff_lt_mul hkpos, ← pow_add]
        have : W - k + k = W := by omega
        rw [this]; exact hl
      have h2 : 2 ^ (W - k) ≤ 2 ^ (W - 1) := Nat.pow_le_pow_right (by decide) (by omega)
      omega
    have hxlt : l / 2 ^ k < 2 ^ W :=
      lt_of_le_of_lt (Nat.div_le_self _ _) hl
    have hkltW : k < 2 ^ W := lt_trans hkW (Nat.lt_two_pow W)
    rw [halving_mask_of_pos (by omega) hx hxle, Nat.and_pow_two_sub_one_eq_mod,
      Nat.and_pow_two_sub_one_eq_mod, Nat.mod_eq_of_lt hkltW,
      Nat.mod_eq_of_lt (Nat.xor_lt_two_pow hxlt hl)]
    congr 1
    rw [Nat.xor_comm (l / 2 ^ k) l, ← Nat.xor_assoc, Nat.xor_self, Nat.zero_xor]

theorem size_div_two_pow {l k : Nat} (h : 2 ^ k ≤ l) :
    Nat.size (l / 2 ^ k) + k = Nat.size l := by
  have hkpos : 0 < 2 ^ k := Nat.pow_pos (by decide)
  apply le_antisymm
  · have hx : 0 < l / 2 ^ k := Nat.div_pos h hkpos
    have hs : 0 < Nat.size (l / 2 ^ k) := Nat.size_pos.mpr hx
    have h1 : 2 ^ (Nat.size (l / 2 ^ k) - 1) ≤ l / 2 ^ k := Nat.lt_size.mp (by omega)
    have h2 : 2 ^ (Nat.size (l / 2 ^ k) - 1 + k) ≤ l := by
      rw [pow_add]
      exact (Nat.le_div_iff_mul_le hkpos).mp h1
    have h3 : Nat.size (l / 2 ^ k) - 1 + k < Nat.size l := Nat.lt_size.mpr h2
    omega
  · rw [Nat.size_le, pow_add, ← Nat.div_lt_iff_lt_mul hkpos]
    exact Nat.lt_size_self _

theorem halving_inv_step {W w k : Nat} {s : Nat × Nat} (hk : 1 ≤ k) (hkW : 2 * k ≤ W)
    (h : halving_inv w (2 * k) s) : halving_inv w k (halving_step W k s) := by
  obtain ⟨bits, l⟩ := s
  obtain ⟨h0, hlt, hsz⟩ := h
  simp only at h0 hlt hsz
  have hkpos : 0 < 2 ^ k := Nat.pow_pos (by decide)
  have hl : l < 2 ^ W := lt_of_lt_of_le hlt (Nat.pow_le_pow_right (by decide) hkW)
  rw [halving_step_eq hk (by omega) hl]
  by_cases hc : l < 2 ^ k
  · rw [if_pos hc]
    exact ⟨h0, hc, hsz⟩
  · rw [if_neg hc]
    have hge : 2 ^ k ≤ l := not_lt.mp hc
    refine ⟨?_, ?_, ?_⟩
    · exact Nat.pos_iff_ne_zero.mp (Nat.div_pos hge hkpos)
    · show l / 2 ^ k < 2 ^ k
      rw [Nat.div_lt_iff_lt_mul hkpos, ← pow_add]
      have : k + k = 2 * k := by omega
      rw [this]; exact hlt
    · show bits + k + Nat.size (l / 2 ^ k) = Nat.size w + 1
      have := size_div_two_pow hge
      omega

theorem halving_last {W w : Nat} {s : Nat × Nat} (hW : 2 ≤ W) (h : halving_inv w 2 s) :
    s.1 + (1 &&& halving_mask W (s.2 >>> 1)) = Nat.size w := by
  obtain ⟨bits, l⟩ := s
  obtain ⟨h0, hlt, hsz⟩ := h
  simp only at h0 hlt hsz
  have hl : l < 2 ^ W := lt_of_lt_of_le hlt (Nat.pow_le_pow_right (by decide) hW)
  have hstep := congrArg Prod.fst (@halving_step_eq W 1 bits l (le_refl 1) (by omega) hl)
  simp only [halving_step] at hstep
  show bits + (1 &&& halving_mask W (l >>> 1)) = Nat.size w
  rw [hstep]
  have hle : Nat.size l ≤ 2 := Nat.size_le.mpr hlt
  by_cases hc : l < 2 ^ 1
  · rw [if_pos hc]
    have h1 : Nat.size l ≤ 1 := Nat.size_le.mpr hc
    have h2 : 0 < Nat.size l := Nat.size_pos.mpr (Nat.pos_of_ne_zero h0)
    show bits = Nat.size w
    omega
  · rw [if_neg hc]
    have h1 : 1 < Nat.size l := Nat.lt_size.mpr (not_lt.mp hc)
    show bits + 1 = Nat.size w
    omega

/-- On both supported word widths the routine computes the bit length
`Nat.size` of every word. -/
theorem BN_num_bits_word_eq_size {W w : Nat} (hW : W = 32 ∨ W = 64) (hw : w < 2 ^ W) :
    BN_num_bits_word W w = Nat.size w := by
  by_cases h0 : w = 0
  · subst h0
    rcases hW with rfl | rfl <;> simp [BN_num_bits_word, halving_step, halving_mask_zero]
  · have hstart : ∀ n, w < 2 ^ n → halving_inv w n (1, w) := fun n hn => ⟨h0, hn, by simp; omega⟩
    unfold BN_num_bits_word
    simp only [if_pos h0]
    rcases hW with rfl | rfl
    · simp only [gt_iff_lt, lt_irrefl, if_false]
      have h16 := halving_inv_step (W := 32) (k := 16) (by decide) (by decide) (hstart 32 hw)
      have h8 := halving_inv_step (W := 32) (k := 8) (by decide) (by decide) h16
      have h4 := halving_inv_step (W := 32) (k := 4) (by decide) (by decide) h8
      have h2 := halving_inv_step (W := 32) (k := 2) (by decide) (by decide) h4
      exact halving_last (by decide) h2
    · have hgt : (64 : Nat) > 32 := by decide
      simp only [if_pos hgt]
      have h32 := halving_inv_step (W := 64) (k := 32) (by decide) (by decide) (hstart 64 hw)
      have h16 := halving_inv_step (W := 64) (k := 16) (by decide) (by decide) h32
      have h8 := halving_inv_step (W := 64) (k := 8) (by decide) (by decide) h16
      have h4 := halving_inv_step (W := 64) (k := 4) (by decide) (by decide) h8
      have h2 := halving_inv_step (W := 64) (k := 2) (by decide) (by decide) h4
      exact halving_last (by decide) h2

theorem testBit_of_bounds {w i : Nat} (h1 : 2 ^ i ≤ w) (h2 : w < 2 ^ (i + 1)) :
    w.testBit i = true := by
  obtain ⟨r, rfl⟩ := Nat.exists_eq_add_of_le h1
  have hr : r < 2 ^ i := by
    rw [pow_succ] at h2
    omega
  rw [Nat.testBit_two_pow_add_eq, Nat.testBit_lt_two_pow hr]
  rfl

/-- C1: for a word `w` of either supported width, `BN_num_bits_word` is 0 at
`w = 0`; for `w ≠ 0` it is the unique `k` with `2^(k-1) ≤ w < 2^k`, that is the
index of the highest set bit plus one (bit `k-1` is set and no bit at or above
`k` is); it is 1 at 1, the word width at the all-ones word and the width minus
one at the all-ones word shifted right once. -/
theorem BN_num_bits_word_correct (W w : Nat) (hW : W = 32 ∨ W = 64) (hw : w < 2 ^ W) :
    (w = 0 → BN_num_bits_word W w = 0) ∧
    (w ≠ 0 →
      2 ^ (BN_num_bits_word W w - 1) ≤ w ∧ w < 2 ^ BN_num_bits_word W w ∧
      (∀ k, 2 ^ (k - 1) ≤ w → w < 2 ^ k → k = BN_num_bits_word W w) ∧
      w.testBit (BN_num_bits_word W w - 1) = true ∧
      (∀ i, BN_num_bits_word W w ≤ i → w.testBit i = false)) ∧
    BN_num_bits_word W 1 = 1 ∧
    BN_num_bits_word W (2 ^ W - 1) = W ∧
    BN_num_bits_word W ((2 ^ W - 1) >>> 1) = W - 1 := by
  have hWpos : 1 ≤ W := by rcases hW with rfl | rfl <;> decide
  have hone : (1 : Nat) < 2 ^ W := Nat.one_lt_two_pow (by omega)
  have hmax : 2 ^ W - 1 < 2 ^ W := by omega
  refine ⟨?_, ?_, ?_, ?_, ?_⟩
  · intro h0
    rw [BN_num_bits_word_eq_size hW hw, h0, Nat.size_zero]
  · intro h0
    rw [BN_num_bits_word_eq_size hW hw]
    have hpos : 0 < Nat.size w := Nat.size_pos.mpr (Nat.pos_of_ne_zero h0)
    have hlo : 2 ^ (Nat.size w - 1) ≤ w := Nat.lt_size.mp (by omega)
    have hhi : w < 2 ^ Nat.size w := Nat.lt_size_self w
    refine ⟨hlo, hhi, ?_, ?_, ?_⟩
    · intro k hk1 hk2
      have hk0 : k ≠ 0 := by
        rintro rfl
        simp at hk2
        exact h0 hk2
      have h1 : Nat.size w ≤ k := Nat.size_le.mpr hk2
      have h2 : k - 1 < Nat.size w := Nat.lt_size.mpr hk1
      omega
    · apply testBit_of_bounds hlo
      have : Nat.size w - 1 + 1 = Nat.size w := by omega
      rw [this]; exact hhi
    · intro i hi
      exact Nat.testBit_lt_two_pow (lt_of_lt_of_le hhi (Nat.pow_le_pow_right (by decide) hi))
  · rw [BN_num_bits_word_eq_size hW hone, Nat.size_one]
  · rw [BN_num_bits_word_eq_size hW hmax]
    apply le_antisymm
    · exact Nat.size_le.mpr hmax
    · have h2 : 2 ^ (W - 1) ≤ 2 ^ W - 1 := by
        have : 2 ^ W = 2 * 2 ^ (W - 1) := by
          rw [← pow_succ']; congr 1; omega
        have : 0 < 2 ^ (W - 1) := Nat.pow_pos (by decide)
        omega
      have := Nat.lt_size.mpr h2
      omega
  · have hpw : 2 ^ W = 2 * 2 ^ (W - 1) := by
      rw [← pow_succ']; congr 1; omega
    have hp1 : 0 < 2 ^ (W - 1) := Nat.pow_pos (by decide)
    have hval : (2 ^ W - 1) >>> 1 = 2 ^ (W - 1) - 1 := by
      rw [Nat.shiftRight_eq_div_pow, pow_one]
      omega
    have hlt : (2 ^ W - 1) >>> 1 < 2 ^ W := by omega
    rw [BN_num_bits_word_eq_size hW hlt, hval]
    apply le_antisymm
    · exact Nat.size_le.mpr (by omega)
    · have hW2 : 2 ≤ W := by rcases hW with rfl | rfl <;> decide
      have hpw2 : 2 ^ (W - 1) = 2 * 2 ^ (W - 2) := by
        rw [← pow_succ']; congr 1; omega
      have hp2 : 0 < 2 ^ (W - 2) := Nat.pow_pos (by decide)
      have h2 : 2 ^ (W - 2) ≤ 2 ^ (W - 1) - 1 := by omega
      have := Nat.lt_size.mpr h2
      omega

theorem BN_num_bits_word_correct_witness :
    (64 = 32 ∨ 64 = 64) ∧ 5 < 2 ^ 64 ∧
    2 ^ (BN_num_bits_word 64 5 - 1) ≤ 5 ∧ 5 < 2 ^ BN_num_bits_word 64 5 ∧
    BN_num_bits_word 64 1 = 1 ∧
    BN_num_bits_word 64 (2 ^ 64 - 1) = 64 ∧
    BN_num_bits_word 64 ((2 ^ 64 - 1) >>> 1) = 64 - 1 :=
  have h := BN_num_bits_word_correct 64 5 (by decide) (by decide)
  ⟨by decide, by decide, (h.2.1 (by decide)).1, (h.2.1 (by decide)).2.1, h.2.2⟩

/-! ## Minimal width and trimming -/

theorem bn_minimal_width_loop_le (d : List Nat) (n : Nat) : bn_minimal_width_loop d n ≤ n := by
  induction n with
  | zero => simp [bn_minimal_width_loop]
  | succ n ih =>
    unfold bn_minimal_width_loop
    split
    · omega
    · exact le_refl _

theorem bn_minimal_width_loop_zero_above (d : List Nat) (n i : Nat)
    (h1 : bn_minimal_width_loop d n ≤ i) (h2 : i < n) : d.getD i 0 = 0 := by
  induction n with
  | zero => omega
  | succ n ih =>
    unfold bn_minimal_width_loop at h1
    split at h1
    · rename_i hz
      by_cases hi : i = n
      · rw [hi]; exact hz
      · exact ih h1 (by omega)
    · omega

theorem bn_minimal_width_loop_top (d : List Nat) (n : Nat)
    (h : bn_minimal_width_loop d n ≠ 0) : d.getD (bn_minimal_width_loop d n - 1) 0 ≠ 0 := by
  induction n with
  | zero => simp [bn_minimal_width_loop] at h
  | succ n ih =>
    unfold bn_minimal_width_loop at h ⊢
    split
    · rename_i hz
      rw [if_pos hz] at h
      exact ih h
    · rename_i hz
      simpa using hz

theorem bn_minimal_width_loop_least (d : List Nat) (n k : Nat) (hk : k ≤ n)
    (hz : ∀ i, k ≤ i → i < n → d.getD i 0 = 0) : bn_minimal_width_loop d n ≤ k := by
  induction n with
  | zero => simp [bn_minimal_width_loop]
  | succ n ih =>
    unfold bn_minimal_width_loop
    by_cases hkn : k = n + 1
    · rw [hkn]
      split
      · have := bn_minimal_width_loop_le d n
        omega
      · exact le_refl _
    · have hlast : d.getD n 0 = 0 := hz n (by omega) (by omega)
      rw [if_pos hlast]
      exact ih (by omega) (fun i h1 h2 => hz i h1 (by omega))

theorem bn_minimal_width_loop_fix (d : List Nat) (n : Nat)
    (h : n = 0 ∨ d.getD (n - 1) 0 ≠ 0) : bn_minimal_width_loop d n = n := by
  cases n with
  | zero => rfl
  | succ n =>
    rcases h with h | h
    · omega
    · unfold bn_minimal_width_loop
      rw [if_neg (by simpa using h)]

theorem bn_minimal_width_loop_idem (d : List Nat) (n : Nat) :
    bn_minimal_width_loop d (bn_minimal_width_loop d n) = bn_minimal_width_loop d n := by
  apply bn_minimal_width_loop_fix
  by_cases h : bn_minimal_width_loop d n = 0
  · exact Or.inl h
  · exact Or.inr (bn_minimal_width_loop_top d n h)

theorem words_value_append_single (W : Nat) (l : List Nat) (x : Nat) :
    words_value W (l ++ [x]) = words_value W l + 2 ^ (W * l.length) * x := by
  induction l with
  | nil => simp [words_value]
  | cons a l ih =>
    show a + 2 ^ W * words_value W (l ++ [x]) =
      a + 2 ^ W * words_value W l + 2 ^ (W * (l.length + 1)) * x
    rw [ih, Nat.mul_succ, pow_add]
    ring

theorem magnitude_prefix_succ (W : Nat) (d : List Nat) (n : Nat) :
    words_value W ((List.range (n + 1)).map (fun i => d.getD i 0)) =
      words_value W ((List.range n).map (fun i => d.getD i 0)) + 2 ^ (W * n) * d.getD n 0 := by
  rw [List.range_succ, List.map_append, List.map_singleton, words_value_append_single]
  simp

theorem magnitude_prefix_minimal (W : Nat) (d : List Nat) (n : Nat) :
    words_value W ((List.range (bn_minimal_width_loop d n)).map (fun i => d.getD i 0)) =
      words_value W ((List.range n).map (fun i => d.getD i 0)) := by
  induction n with
  | zero => rfl
  | succ n ih =>
    unfold bn_minimal_width_loop
    split
    · rename_i hz
      rw [magnitude_prefix_succ, hz, ih]
      simp
    · rfl

theorem bn_correct_top_top (bn : BIGNUM) :
    (bn_correct_top bn).top = bn_minimal_width bn := by
  unfold bn_correct_top; simp only []; split <;> rfl

theorem bn_correct_top_d (bn : BIGNUM) : (bn_correct_top bn).d = bn.d := by
  unfold bn_correct_top; simp only []; split <;> rfl

theorem bn_correct_top_dmax (bn : BIGNUM) : (bn_correct_top bn).dmax = bn.dmax := by
  unfold bn_correct_top; simp only []; split <;> rfl

theorem bn_correct_top_neg_of_zero (bn : BIGNUM) (h : (bn_correct_top bn).top = 0) :
    (bn_correct_top bn).neg = 0 := by
  rw [bn_correct_top_top] at h
  unfold bn_correct_top; simp only []
  rw [if_pos h]

theorem bn_correct_top_top_word (bn : BIGNUM) (h : (bn_correct_top bn).top ≠ 0) :
    (bn_correct_top bn).d.getD ((bn_correct_top bn).top - 1) 0 ≠ 0 := by
  rw [bn_correct_top_top] at h ⊢
  rw [bn_correct_top_d]
  exact bn_minimal_width_loop_top _ _ h

/-- C7: `bn_correct_top` sets `top` to `bn_minimal_width`, the least `k ≤ top`
above which every used word is zero; afterwards `top` is 0 or the top word is
non-zero, the sign is cleared when the new `top` is 0 and kept otherwise, and
the buffer, the capacity, the flags and the magnitude are unchanged.  The
query `bn_minimal_width` is a function of the state and returns no state. -/
theorem bn_correct_top_correct (bn : BIGNUM) :
    (bn_correct_top bn).top = bn_minimal_width bn ∧
    bn_minimal_width bn ≤ bn.top ∧
    (∀ i, bn_minimal_width bn ≤ i → i < bn.top → bn.d.getD i 0 = 0) ∧
    (∀ k, k ≤ bn.top → (∀ i, k ≤ i → i < bn.top → bn.d.getD i 0 = 0) →
      bn_minimal_width bn ≤ k) ∧
    ((bn_correct_top bn).top = 0 ∨
      (bn_correct_top bn).d.getD ((bn_correct_top bn).top - 1) 0 ≠ 0) ∧
    ((bn_correct_top bn).top = 0 → (bn_correct_top bn).neg = 0) ∧
    ((bn_correct_top bn).top ≠ 0 → (bn_correct_top bn).neg = bn.neg) ∧
    (bn_correct_top bn).d = bn.d ∧
    (bn_correct_top bn).dmax = bn.dmax ∧
    (bn_correct_top bn).flags = bn.flags ∧
    (∀ W, magnitude W (bn_correct_top bn) = magnitude W bn) := by
  have htop := bn_correct_top_top bn
  have hd := bn_correct_top_d bn
  refine ⟨htop, bn_minimal_width_loop_le _ _, bn_minimal_width_loop_zero_above _ _,
    fun k => bn_minimal_width_loop_least _ _ k, ?_, ?_, ?_, hd, ?_, ?_, ?_⟩
  · rw [htop, hd]
    by_cases h : bn_minimal_width bn = 0
    · exact Or.inl h
    · exact Or.inr (bn_minimal_width_loop_top _ _ h)
  · intro h0
    rw [htop] at h0
    unfold bn_correct_top; simp only []
    rw [if_pos h0]
  · intro h0
    rw [htop] at h0
    unfold bn_correct_top; simp only []
    rw [if_neg h0]
  · unfold bn_correct_top; simp only []; split <;> rfl
  · unfold bn_correct_top; simp only []; split <;> rfl
  · intro W
    unfold magnitude
    rw [htop, hd]
    exact magnitude_prefix_minimal W bn.d bn.top

/-- C8: trimming is idempotent: a second `bn_correct_top` changes nothing, in
particular neither `top` nor the sign. -/
theorem bn_correct_top_idempotent (bn : BIGNUM) :
    bn_correct_top (bn_correct_top bn) = bn_correct_top bn ∧
    (bn_correct_top (bn_correct_top bn)).top = (bn_correct_top bn).top ∧
    (bn_correct_top (bn_correct_top bn)).neg = (bn_correct_top bn).neg := by
  have h : bn_correct_top (bn_correct_top bn) = bn_correct_top bn := by
    unfold bn_correct_top bn_minimal_width
    simp only []
    by_cases h0 : bn_minimal_width_loop bn.d bn.top = 0
    · simp [h0, bn_minimal_width_loop]
    · simp [h0, bn_minimal_width_loop_idem]
  exact ⟨h, by rw [h], by rw [h]⟩

/-! ## Bit and byte length of a BigInt -/

theorem magnitude_prefix_lt (W : Nat) (d : List Nat) (n : Nat)
    (hw : ∀ i, i < n → d.getD i 0 < 2 ^ W) :
    words_value W ((List.range n).map (fun i => d.getD i 0)) < 2 ^ (W * n) := by
  induction n with
  | zero => simp [words_value]
  | succ n ih =>
    rw [magnitude_prefix_succ, Nat.mul_succ, pow_add]
    have h1 := ih (fun i hi => hw i (by omega))
    have h2 : d.getD n 0 + 1 ≤ 2 ^ W := hw n (by omega)
    have h3 : 2 ^ (W * n) * (d.getD n 0 + 1) ≤ 2 ^ (W * n) * 2 ^ W :=
      Nat.mul_le_mul_left _ h2
    rw [Nat.mul_add, Nat.mul_one] at h3
    omega

theorem size_add_shifted {s L t : Nat} (hL : L < 2 ^ s) (ht : t ≠ 0) :
    Nat.size (L + 2 ^ s * t) = s + Nat.size t := by
  have hpos : 0 < Nat.size t := Nat.size_pos.mpr (Nat.pos_of_ne_zero ht)
  apply le_antisymm
  · rw [Nat.size_le, pow_add]
    have h1 : t + 1 ≤ 2 ^ Nat.size t := Nat.lt_size_self t
    have h2 : 2 ^ s * (t + 1) ≤ 2 ^ s * 2 ^ Nat.size t := Nat.mul_le_mul_left _ h1
    rw [Nat.mul_add, Nat.mul_one] at h2
    omega
  · have h1 : 2 ^ (Nat.size t - 1) ≤ t := Nat.lt_size.mp (by omega)
    have h2 : 2 ^ (s + (Nat.size t - 1)) ≤ L + 2 ^ s * t := by
      rw [pow_add]
      have := Nat.mul_le_mul_left (2 ^ s) h1
      omega
    have h3 := Nat.lt_size.mpr h2
    omega

theorem BN_num_bits_word_le (W w : Nat) (hW : W = 32 ∨ W = 64) (hw : w < 2 ^ W) :
    BN_num_bits_word W w ≤ W := by
  rw [BN_num_bits_word_eq_size hW hw]
  exact Nat.size_le.mpr hw

/-- C2: for a BigInt whose used length is within its capacity, itself within
the ceiling of `bn_wexpand`, and whose used words are machine words,
`BN_num_bits` is 0 when the minimal width is 0 and otherwise
`(minimal_width - 1) * BN_BITS2 + BN_num_bits_word(top non-zero word)`; it is
the bit length of the magnitude (0 for magnitude 0), canonical or not; and
`BN_num_bytes` is the ceiling of that count divided by 8. -/
theorem BN_num_bits_correct (W : Nat) (bn : BIGNUM) (hW : W = 32 ∨ W = 64)
    (htop : bn.top ≤ bn.dmax) (hcap : bn.dmax ≤ INT_MAX / (4 * W))
    (hwords : ∀ i, i < bn.top → bn.d.getD i 0 < 2 ^ W) :
    (bn_minimal_width bn = 0 → BN_num_bits W bn = 0) ∧
    (bn_minimal_width bn ≠ 0 →
      bn.d.getD (bn_minimal_width bn - 1) 0 ≠ 0 ∧
      BN_num_bits W bn = (bn_minimal_width bn - 1) * W +
        BN_num_bits_word W (bn.d.getD (bn_minimal_width bn - 1) 0)) ∧
    BN_num_bits W bn = Nat.size (magnitude W bn) ∧
    (magnitude W bn = 0 → BN_num_bits W bn = 0) ∧
    BN_num_bytes W bn = (BN_num_bits W bn + 7) / 8 ∧
    BN_num_bits W bn ≤ 8 * BN_num_bytes W bn ∧
    8 * BN_num_bytes W bn < BN_num_bits W bn + 8 := by
  have hmle : bn_minimal_width bn ≤ bn.top := bn_minimal_width_loop_le _ _
  have hcap2 : bn.top * W ≤ 2147483647 / 4 := by
    have h1 : bn.top ≤ INT_MAX / (4 * W) := le_trans htop hcap
    have h2 : bn.top * (4 * W) ≤ INT_MAX := by
      have hpos : 0 < 4 * W := by rcases hW with rfl | rfl <;> decide
      exact (Nat.le_div_iff_mul_le hpos).mp h1
    unfold INT_MAX at h2
    have hpos4 : 0 < 4 := by decide
    rw [Nat.le_div_iff_mul_le hpos4]
    have : bn.top * (4 * W) = bn.top * W * 4 := by ring
    omega
  have hmag : magnitude W bn =
      words_value W ((List.range (bn_minimal_width bn)).map (fun i => bn.d.getD i 0)) := by
    unfold magnitude bn_minimal_width
    exact (magnitude_prefix_minimal W bn.d bn.top).symm
  have hzero : bn_minimal_width bn = 0 → BN_num_bits W bn = 0 := by
    intro h; unfold BN_num_bits; simp only []; rw [if_pos h]
  have hnz : bn_minimal_width bn ≠ 0 →
      bn.d.getD (bn_minimal_width bn - 1) 0 ≠ 0 ∧
      BN_num_bits W bn = (bn_minimal_width bn - 1) * W +
        BN_num_bits_word W (bn.d.getD (bn_minimal_width bn - 1) 0) ∧
      BN_num_bits W bn = Nat.size (magnitude W bn) := by
    intro h
    have htopw : bn.d.getD (bn_minimal_width bn - 1) 0 ≠ 0 :=
      bn_minimal_width_loop_top bn.d bn.top h
    have hwlt : bn.d.getD (bn_minimal_width bn - 1) 0 < 2 ^ W := hwords _ (by omega)
    have hle := BN_num_bits_word_le W _ hW hwlt
    have hmul : (bn_minimal_width bn - 1) * W + W ≤ bn.top * W := by
      have h1 : (bn_minimal_width bn - 1 + 1) * W ≤ bn.top * W :=
        Nat.mul_le_mul_right W (by omega)
      rw [Nat.add_mul, Nat.one_mul] at h1
      exact h1
    have hval : BN_num_bits W bn = (bn_minimal_width bn - 1) * W +
        BN_num_bits_word W (bn.d.getD (bn_minimal_width bn - 1) 0) := by
      unfold BN_num_bits; simp only []; rw [if_neg h]
      apply Nat.mod_eq_of_lt
      have : (2147483647 : Nat) / 4 < 2 ^ 32 := by decide
      omega
    refine ⟨htopw, hval, ?_⟩
    rw [hval, hmag]
    obtain ⟨m, hm⟩ := Nat.exists_eq_succ_of_ne_zero h
    rw [hm] at hwlt htopw ⊢
    simp only [Nat.succ_eq_add_one, Nat.add_sub_cancel] at hwlt htopw ⊢
    rw [magnitude_prefix_succ, BN_num_bits_word_eq_size hW hwlt]
    have hL := magnitude_prefix_lt W bn.d m (fun i hi => hwords i (by omega))
    rw [size_add_shifted hL htopw, Nat.mul_comm]
  have hsize : BN_num_bits W bn = Nat.size (magnitude W bn) := by
    by_cases h : bn_minimal_width bn = 0
    · rw [hzero h, hmag, h]
      simp [words_value]
    · exact (hnz h).2.2
  have hbytes : BN_num_bytes W bn = (BN_num_bits W bn + 7) / 8 := by
    unfold BN_num_bytes
    congr 1
    apply Nat.mod_eq_of_lt
    by_cases h : bn_minimal_width bn = 0
    · rw [hzero h]; decide
    · rw [(hnz h).2.1]
      have htopw : bn.d.getD (bn_minimal_width bn - 1) 0 ≠ 0 :=
      bn_minimal_width_loop_top bn.d bn.top h
      have hwlt : bn.d.getD (bn_minimal_width bn - 1) 0 < 2 ^ W := hwords _ (by omega)
      have hle := BN_num_bits_word_le W _ hW hwlt
      have h1 : (bn_minimal_width bn - 1 + 1) * W ≤ bn.top * W :=
        Nat.mul_le_mul_right W (by omega)
      rw [Nat.add_mul, Nat.one_mul] at h1
      have : (2147483647 : Nat) / 4 < 2 ^ 32 - 7 := by decide
      omega
  refine ⟨hzero, fun h => ⟨(hnz h).1, (hnz h).2.1⟩, hsize, ?_, hbytes, ?_, ?_⟩
  · intro h0
    rw [hsize, h0, Nat.size_zero]
  · rw [hbytes]; omega
  · rw [hbytes]; omega

theorem BN_num_bits_correct_witness :
    (64 = 32 ∨ 64 = 64) ∧ bn_padded.top ≤ bn_padded.dmax ∧
    bn_padded.dmax ≤ INT_MAX / (4 * 64) ∧
    BN_num_bits 64 bn_padded = Nat.size (magnitude 64 bn_padded) ∧
    BN_num_bytes 64 bn_padded = (BN_num_bits 64 bn_padded + 7) / 8 :=
  have h := BN_num_bits_correct 64 bn_padded (by decide) (by decide) (by decide) (by decide)
  ⟨by decide, by decide, by decide, h.2.2.1, h.2.2.2.2.1⟩

/-! ## Memory primitives and the truncation test -/

theorem lor_eq_zero {x y : Nat} : x ||| y = 0 ↔ x = 0 ∧ y = 0 := by
  constructor
  · intro h
    have hb : ∀ i, (x.testBit i || y.testBit i) = false := by
      intro i
      rw [← Nat.testBit_or, h, Nat.zero_testBit]
    constructor
    · apply Nat.eq_of_testBit_eq
      intro i
      have := hb i
      rw [Nat.zero_testBit]
      cases hx : x.testBit i <;> simp_all
    · apply Nat.eq_of_testBit_eq
      intro i
      have := hb i
      rw [Nat.zero_testBit]
      cases hy : y.testBit i <;> simp_all
  · rintro ⟨rfl, rfl⟩
    rfl

theorem memcpy_length (dst src : List Nat) (n : Nat) (h1 : n ≤ src.length) (h2 : n ≤ dst.length) :
    (OPENSSL_memcpy dst src n).length = dst.length := by
  unfold OPENSSL_memcpy
  rw [List.length_append, List.length_take, List.length_drop]
  omega

theorem memcpy_getD (dst src : List Nat) (n i : Nat) (h1 : n ≤ src.length) :
    (OPENSSL_memcpy dst src n).getD i 0 = if i < n then src.getD i 0 else dst.getD i 0 := by
  unfold OPENSSL_memcpy
  simp only [List.getD_eq_getElem?_getD]
  have hlen : (src.take n).length = n := by rw [List.length_take]; omega
  by_cases h : i < n
  · rw [if_pos h, List.getElem?_append_left (by omega), List.getElem?_take_of_lt h]
  · rw [if_neg h, List.getElem?_append_right (by omega), List.getElem?_drop, hlen]
    congr 2
    omega

theorem memset_length (dst : List Nat) (off c n : Nat) (h : off + n ≤ dst.length) :
    (OPENSSL_memset dst off c n).length = dst.length := by
  unfold OPENSSL_memset
  simp only [List.length_append, List.length_take, List.length_drop, List.length_replicate]
  omega

theorem memset_getD (dst : List Nat) (off n i : Nat) (h : off ≤ dst.length) :
    (OPENSSL_memset dst off 0 n).getD i 0 =
      if off ≤ i ∧ i < off + n then 0 else dst.getD i 0 := by
  unfold OPENSSL_memset
  simp only [List.getD_eq_getElem?_getD]
  have hlen : (dst.take off).length = off := by rw [List.length_take]; omega
  by_cases h1 : i < off
  · rw [if_neg (by omega), List.append_assoc, List.getElem?_append_left (by omega),
      List.getElem?_take_of_lt h1]
  · by_cases h2 : i < off + n
    · rw [if_pos ⟨by omega, h2⟩, List.append_assoc, List.getElem?_append_right (by omega),
        List.getElem?_append_left (by rw [List.length_replicate]; omega),
        List.getElem?_replicate]
      rw [if_pos (by omega)]
      rfl
    · rw [if_neg (by omega), List.getElem?_append_right
        (by simp only [List.length_append, List.length_replicate]; omega),
        List.getElem?_drop]
      simp only [List.length_append, List.length_replicate, hlen]
      congr 2
      omega

theorem foldl_lor_eq_zero (f : Nat → Nat) (l : List Nat) (a : Nat) :
    l.foldl (fun m i => m ||| f i) a = 0 ↔ a = 0 ∧ ∀ i ∈ l, f i = 0 := by
  induction l generalizing a with
  | nil => simp
  | cons x l ih =>
    rw [List.foldl_cons, ih, lor_eq_zero]
    simp only [List.mem_cons, forall_eq_or_imp]
    tauto

theorem bn_fits_in_words_iff (bn : BIGNUM) (num : Nat) :
    bn_fits_in_words bn num = true ↔ ∀ i, num ≤ i → i < bn.top → bn.d.getD i 0 = 0 := by
  unfold bn_fits_in_words
  simp only [decide_eq_true_eq, foldl_lor_eq_zero, List.mem_range'_1, true_and]
  constructor
  · intro h i h1 h2
    exact h i ⟨h1, by omega⟩
  · intro h i hi
    exact h i hi.1 (by omega)

theorem bn_fits_in_words_of_le (bn : BIGNUM) (num : Nat) (h : bn.top ≤ num) :
    bn_fits_in_words bn num = true :=
  (bn_fits_in_words_iff bn num).mpr (fun i h1 h2 => by omega)

/-! ## Fixed-width export -/

theorem bn_copy_words_eq (out : List Nat) (num : Nat) (bn : BIGNUM) :
    bn_copy_words out num bn =
      if bn.neg ≠ 0 then (Status.failure BnError.BN_R_NEGATIVE_NUMBER, out)
      else if bn_fits_in_words bn num = true then
        (Status.success, OPENSSL_memcpy (OPENSSL_memset out 0 0 num) bn.d (min bn.top num))
      else (Status.failure BnError.BN_R_BIGNUM_TOO_LONG, out) := by
  unfold bn_copy_words
  by_cases hneg : bn.neg ≠ 0
  · rw [if_pos hneg, if_pos hneg]
  · rw [if_neg hneg, if_neg hneg]
    simp only []
    by_cases hw : bn.top > num
    · rw [if_pos hw]
      have hmin : min bn.top num = num := by omega
      by_cases hf : bn_fits_in_words bn num = true
      · simp [hf, hmin]
      · simp [hf]
    · rw [if_neg hw, if_pos (bn_fits_in_words_of_le bn num (by omega))]
      have hmin : min bn.top num = bn.top := by omega
      rw [hmin]

theorem copy_out_length (out : List Nat) (num : Nat) (bn : BIGNUM)
    (hout : num ≤ out.length) (hbn : bn.top ≤ bn.d.length) :
    (OPENSSL_memcpy (OPENSSL_memset out 0 0 num) bn.d (min bn.top num)).length =
      out.length := by
  have hms : (OPENSSL_memset out 0 0 num).length = out.length :=
    memset_length out 0 0 num (by omega)
  rw [memcpy_length _ _ _ (by omega) (by omega), hms]

theorem copy_out_getD (out : List Nat) (num : Nat) (bn : BIGNUM)
    (hbn : bn.top ≤ bn.d.length) (i : Nat) :
    (OPENSSL_memcpy (OPENSSL_memset out 0 0 num) bn.d (min bn.top num)).getD i 0 =
      if i < min bn.top num then bn.d.getD i 0
      else if i < num then 0 else out.getD i 0 := by
  rw [memcpy_getD _ _ _ _ (by omega), memset_getD _ _ _ _ (by omega)]
  by_cases h1 : i < min bn.top num
  · rw [if_pos h1, if_pos h1]
  · rw [if_neg h1, if_neg h1]
    by_cases h2 : i < num
    · rw [if_pos ⟨by omega, by omega⟩, if_pos h2]
    · rw [if_neg (by omega), if_neg h2]

theorem bn_copy_words_of_fits (out : List Nat) (num : Nat) (bn : BIGNUM)
    (hneg : bn.neg = 0) (hfit : bn_fits_in_words bn num = true) :
    bn_copy_words out num bn =
      (Status.success, OPENSSL_memcpy (OPENSSL_memset out 0 0 num) bn.d (min bn.top num)) := by
  rw [bn_copy_words_eq, if_neg (by simp [hneg]), if_pos hfit]

/-- C3: the outcome of `bn_copy_words(out, n, bn)`: `BN_R_NEGATIVE_NUMBER` when
the sign flag is set; otherwise `BN_R_BIGNUM_TOO_LONG` when some word at an
index in `[n, top)` is non-zero, and success otherwise, that is exactly when
`bn_fits_in_words(bn, n)` holds, which includes every `n ≥ top`. -/
theorem bn_copy_words_outcome (out : List Nat) (num : Nat) (bn : BIGNUM) :
    (bn_copy_words out num bn).1 =
      (if bn.neg ≠ 0 then Status.failure BnError.BN_R_NEGATIVE_NUMBER
       else if bn_fits_in_words bn num = true then Status.success
       else Status.failure BnError.BN_R_BIGNUM_TOO_LONG) ∧
    (bn_fits_in_words bn num = true ↔ ∀ i, num ≤ i → i < bn.top → bn.d.getD i 0 = 0) ∧
    (bn_fits_in_words bn num = false ↔ ∃ i, num ≤ i ∧ i < bn.top ∧ bn.d.getD i 0 ≠ 0) ∧
    (bn.top ≤ num → bn_fits_in_words bn num = true) := by
  refine ⟨?_, bn_fits_in_words_iff bn num, ?_, bn_fits_in_words_of_le bn num⟩
  · rw [bn_copy_words_eq]
    by_cases hneg : bn.neg ≠ 0
    · rw [if_pos hneg, if_pos hneg]
    · rw [if_neg hneg, if_neg hneg]
      by_cases hf : bn_fits_in_words bn num = true
      · rw [if_pos hf, if_pos hf]
      · rw [if_neg hf, if_neg hf]
  · rw [← Bool.not_eq_true, bn_fits_in_words_iff]
    push_neg
    rfl

/-- C5: `bn_copy_words` writes to the destination only on success.  On
success all `n` destination words are overwritten: word `i` of the BigInt for
`i < min(top, n)` and zero for `min(top, n) ≤ i < n` (words of the buffer past
`n` are not touched); for `top == 3`, `word[2] == 0`, `n == 2` the result is
`[word0, word1]`.  On failure the destination is what it was before. -/
theorem bn_copy_words_frame (out : List Nat) (num : Nat) (bn : BIGNUM)
    (hout : num ≤ out.length) (hbn : bn.top ≤ bn.d.length) :
    ((bn_copy_words out num bn).1 = Status.success →
      (bn_copy_words out num bn).2.length = out.length ∧
      (∀ i, i < min bn.top num → (bn_copy_words out num bn).2.getD i 0 = bn.d.getD i 0) ∧
      (∀ i, min bn.top num ≤ i → i < num → (bn_copy_words out num bn).2.getD i 0 = 0) ∧
      (∀ i, num ≤ i → (bn_copy_words out num bn).2.getD i 0 = out.getD i 0)) ∧
    (∀ e, (bn_copy_words out num bn).1 = Status.failure e →
      (bn_copy_words out num bn).2 = out) ∧
    (∀ w0 w1 o0 o1 dmax flags,
      bn_copy_words [o0, o1] 2
        { d := [w0, w1, 0], top := 3, dmax := dmax, neg := 0, flags := flags } =
        (Status.success, [w0, w1])) := by
  refine ⟨?_, ?_, ?_⟩
  · rw [bn_copy_words_eq]
    by_cases hneg : bn.neg ≠ 0
    · rw [if_pos hneg]; intro h; cases h
    · rw [if_neg hneg]
      by_cases hf : bn_fits_in_words bn num = true
      · rw [if_pos hf]
        intro _
        have hget := copy_out_getD out num bn hbn
        refine ⟨?_, ?_, ?_, ?_⟩
        · exact copy_out_length out num bn hout hbn
        · intro i hi
          show (OPENSSL_memcpy _ _ _).getD i 0 = _
          rw [hget, if_pos hi]
        · intro i h1 h2
          show (OPENSSL_memcpy _ _ _).getD i 0 = _
          rw [hget, if_neg (by omega), if_pos h2]
        · intro i h1
          show (OPENSSL_memcpy _ _ _).getD i 0 = _
          rw [hget, if_neg (by omega), if_neg (by omega)]
      · rw [if_neg hf]; intro h; cases h
  · intro e
    rw [bn_copy_words_eq]
    by_cases hneg : bn.neg ≠ 0
    · rw [if_pos hneg]; intro _; rfl
    · rw [if_neg hneg]
      by_cases hf : bn_fits_in_words bn num = true
      · rw [if_pos hf]; intro h; cases h
      · rw [if_neg hf]; intro _; rfl
  · intro w0 w1 o0 o1 dmax flags
    simp [bn_copy_words, bn_fits_in_words, OPENSSL_memcpy, OPENSSL_memset, List.range']

theorem bn_copy_words_frame_witness :
    2 ≤ [9, 9].length ∧ bn_padded.top ≤ bn_padded.d.length ∧
    (bn_copy_words [9, 9] 2 bn_padded).2.length = [9, 9].length ∧
    (bn_copy_words [9, 9] 2 bn_minus_seven).2 = [9, 9] :=
  ⟨by decide, by decide,
    ((bn_copy_words_frame [9, 9] 2 bn_padded (by decide) (by decide)).1 (by decide)).1,
    (bn_copy_words_frame [9, 9] 2 bn_minus_seven (by decide) (by decide)).2.1
      BnError.BN_R_NEGATIVE_NUMBER (by decide)⟩

/-! ## Growing the buffer -/

/-- The three ways `bn_wexpand` can end: nothing to do, a failure that leaves
the state alone, or a fresh block holding the old used words. -/
theorem bn_wexpand_cases (W : Nat) (heap : Option (Nat → Nat)) (bn : BIGNUM) (words : Nat) :
    (words ≤ bn.dmax ∧ bn_wexpand W heap bn words = (Status.success, bn)) ∨
    (bn.dmax < words ∧ ∃ e, bn_wexpand W heap bn words = (Status.failure e, bn)) ∨
    (bn.dmax < words ∧ words ≤ INT_MAX / (4 * W) ∧ bn.flags &&& BN_FLG_STATIC_DATA = 0 ∧
      ∃ g, heap = some g ∧
        bn_wexpand W heap bn words =
          (Status.success,
            { bn with d := OPENSSL_memcpy ((List.range words).map g) bn.d bn.top,
                      dmax := words })) := by
  unfold bn_wexpand
  by_cases h1 : words ≤ bn.dmax
  · left
    exact ⟨h1, by rw [if_pos h1]⟩
  · right
    rw [if_neg h1]
    by_cases h2 : words > INT_MAX / (4 * W)
    · left
      exact ⟨by omega, _, by rw [if_pos h2]⟩
    · rw [if_neg h2]
      by_cases h3 : bn.flags &&& BN_FLG_STATIC_DATA ≠ 0
      · left
        exact ⟨by omega, _, by rw [if_pos h3]⟩
      · rw [if_neg h3]
        cases heap with
        | none =>
          left
          exact ⟨by omega, _, rfl⟩
        | some g =>
          right
          exact ⟨by omega, by omega, by simpa using h3, g, rfl, rfl⟩

/-- What a successful `bn_wexpand` guarantees on a BigInt whose buffer holds
`dmax` words, `top` of them used. -/
theorem bn_wexpand_success (W : Nat) (heap : Option (Nat → Nat)) (bn : BIGNUM) (words : Nat)
    (hlen : bn.d.length = bn.dmax) (htop : bn.top ≤ bn.dmax)
    (hok : (bn_wexpand W heap bn words).1 = Status.success) :
    (bn_wexpand W heap bn words).2.d.length = (bn_wexpand W heap bn words).2.dmax ∧
    words ≤ (bn_wexpand W heap bn words).2.dmax ∧
    bn.dmax ≤ (bn_wexpand W heap bn words).2.dmax ∧
    (bn_wexpand W heap bn words).2.top = bn.top ∧
    (bn_wexpand W heap bn words).2.neg = bn.neg ∧
    (bn_wexpand W heap bn words).2.flags = bn.flags ∧
    (∀ i, i < bn.top → (bn_wexpand W heap bn words).2.d.getD i 0 = bn.d.getD i 0) := by
  rcases bn_wexpand_cases W heap bn words with ⟨h1, h⟩ | ⟨_, e, h⟩ | ⟨h1, _, _, g, _, h⟩
  · rw [h]
    exact ⟨hlen, h1, le_refl _, rfl, rfl, rfl, fun _ _ => rfl⟩
  · rw [h] at hok
    cases hok
  · rw [h]
    refine ⟨?_, le_refl _, by show bn.dmax ≤ words; omega, rfl, rfl, rfl, ?_⟩
    · show (OPENSSL_memcpy _ _ _).length = words
      rw [memcpy_length _ _ _ (by omega) (by simp; omega)]
      simp
    · intro i hi
      show (OPENSSL_memcpy _ _ _).getD i 0 = _
      rw [memcpy_getD _ _ _ _ (by omega), if_pos hi]

theorem bn_minimal_width_loop_congr (d e : List Nat) (n : Nat)
    (h : ∀ i, i < n → d.getD i 0 = e.getD i 0) :
    bn_minimal_width_loop d n = bn_minimal_width_loop e n := by
  induction n with
  | zero => rfl
  | succ n ih =>
    unfold bn_minimal_width_loop
    rw [h n (by omega), ih (fun i hi => h i (by omega))]

/-! ## Loading words -/

/-- The state left by a successful `bn_set_words`, in terms of the state
left by its `bn_wexpand`. -/
theorem bn_set_words_success (W : Nat) (heap : Option (Nat → Nat)) (bn : BIGNUM)
    (v : List Nat) (n : Nat)
    (hok : (bn_set_words W heap bn v n).1 = Status.success) :
    (bn_wexpand W heap bn n).1 = Status.success ∧
    (bn_set_words W heap bn v n).2 =
      { (bn_correct_top
          { (bn_wexpand W heap bn n).2 with
            d := OPENSSL_memmove (bn_wexpand W heap bn n).2.d v n, top := n }) with
        neg := 0 } := by
  unfold bn_set_words at hok ⊢
  rcases hr : bn_wexpand W heap bn n with ⟨st, b⟩
  rw [hr] at hok
  cases st with
  | success => exact ⟨rfl, rfl⟩
  | failure e => cases hok

theorem memmove_eq_memcpy (dst src : List Nat) (n : Nat) :
    OPENSSL_memmove dst src n = OPENSSL_memcpy dst src n := rfl

/-- The shape of a BigInt right after a successful `bn_set_words` of the
`n`-word buffer `v`. -/
theorem bn_set_words_state (W : Nat) (heap : Option (Nat → Nat)) (bn : BIGNUM)
    (v : List Nat) (n : Nat)
    (hv : v.length = n) (hlen : bn.d.length = bn.dmax) (htop : bn.top ≤ bn.dmax)
    (hok : (bn_set_words W heap bn v n).1 = Status.success) :
    (bn_set_words W heap bn v n).2.neg = 0 ∧
    (bn_set_words W heap bn v n).2.top = bn_minimal_width_loop v n ∧
    (bn_set_words W heap bn v n).2.d.length = (bn_set_words W heap bn v n).2.dmax ∧
    n ≤ (bn_set_words W heap bn v n).2.d.length ∧
    (∀ i, i < n → (bn_set_words W heap bn v n).2.d.getD i 0 = v.getD i 0) := by
  obtain ⟨hw, hst⟩ := bn_set_words_success W heap bn v n hok
  obtain ⟨h1, h2, _, _, _, _, _⟩ := bn_wexpand_success W heap bn n hlen htop hw
  have ht := bn_correct_top_top
    { (bn_wexpand W heap bn n).2 with
      d := OPENSSL_memmove (bn_wexpand W heap bn n).2.d v n, top := n }
  have hd := bn_correct_top_d
    { (bn_wexpand W heap bn n).2 with
      d := OPENSSL_memmove (bn_wexpand W heap bn n).2.d v n, top := n }
  have hdm := bn_correct_top_dmax
    { (bn_wexpand W heap bn n).2 with
      d := OPENSSL_memmove (bn_wexpand W heap bn n).2.d v n, top := n }
  have hget : ∀ i, i < n →
      (OPENSSL_memmove (bn_wexpand W heap bn n).2.d v n).getD i 0 = v.getD i 0 := by
    intro i hi
    rw [memmove_eq_memcpy, memcpy_getD _ _ _ _ (by omega), if_pos hi]
  have hl : (OPENSSL_memmove (bn_wexpand W heap bn n).2.d v n).length =
      (bn_wexpand W heap bn n).2.dmax := by
    rw [memmove_eq_memcpy, memcpy_length _ _ _ (by omega) (by omega), h1]
  rw [hst]
  refine ⟨rfl, ?_, ?_, ?_, ?_⟩
  · show (bn_correct_top _).top = _
    rw [ht]
    exact bn_minimal_width_loop_congr _ _ _ hget
  · show (bn_correct_top _).d.length = (bn_correct_top _).dmax
    rw [hd, hdm]
    exact hl
  · show n ≤ (bn_correct_top _).d.length
    rw [hd]
    show n ≤ (OPENSSL_memmove _ _ _).length
    omega
  · intro i hi
    show (bn_correct_top _).d.getD i 0 = _
    rw [hd]
    exact hget i hi

/-- C4: round trip of import and export.  If `bn_set_words(bn, v, n)` succeeds
on the `n`-word buffer `v`, then for every `m` that is at least the minimal
width of `v`, `bn_copy_words(dst, m, bn)` succeeds, `dst[i] == v[i]` for
`i < min(n, m)` and `dst[i] == 0` for the other `i < m`; with `m == n` the
first `n` words of the destination are `v` itself. -/
theorem bn_set_words_copy_words_roundtrip (W : Nat) (heap : Option (Nat → Nat))
    (bn : BIGNUM) (v : List Nat) (n m : Nat) (dst : List Nat)
    (hv : v.length = n) (hlen : bn.d.length = bn.dmax) (htop : bn.top ≤ bn.dmax)
    (hdst : m ≤ dst.length)
    (hok : (bn_set_words W heap bn v n).1 = Status.success)
    (hm : bn_minimal_width_loop v n ≤ m) :
    (bn_copy_words dst m (bn_set_words W heap bn v n).2).1 = Status.success ∧
    (∀ i, i < min n m →
      (bn_copy_words dst m (bn_set_words W heap bn v n).2).2.getD i 0 = v.getD i 0) ∧
    (∀ i, min n m ≤ i → i < m →
      (bn_copy_words dst m (bn_set_words W heap bn v n).2).2.getD i 0 = 0) ∧
    (m = n → (bn_copy_words dst m (bn_set_words W heap bn v n).2).2.take n = v) := by
  obtain ⟨hneg, ht, _, hn, hget⟩ := bn_set_words_state W heap bn v n hv hlen htop hok
  have hmle : bn_minimal_width_loop v n ≤ n := bn_minimal_width_loop_le v n
  have hfit : bn_fits_in_words (bn_set_words W heap bn v n).2 m = true :=
    bn_fits_in_words_of_le _ _ (by rw [ht]; exact hm)
  have hcw := bn_copy_words_of_fits dst m (bn_set_words W heap bn v n).2 hneg hfit
  have htl : (bn_set_words W heap bn v n).2.top ≤ (bn_set_words W heap bn v n).2.d.length := by
    rw [ht]; omega
  have hsucc : (bn_copy_words dst m (bn_set_words W heap bn v n).2).1 = Status.success := by
    rw [hcw]
  have hmin : min (bn_minimal_width_loop v n) m = bn_minimal_width_loop v n := by omega
  have hrl : (bn_copy_words dst m (bn_set_words W heap bn v n).2).2.length = dst.length := by
    rw [hcw]
    exact copy_out_length dst m _ hdst htl
  have hlo : ∀ i, i < bn_minimal_width_loop v n →
      (bn_copy_words dst m (bn_set_words W heap bn v n).2).2.getD i 0 =
        (bn_set_words W heap bn v n).2.d.getD i 0 := by
    intro i hi
    rw [hcw]
    show (OPENSSL_memcpy _ _ _).getD i 0 = _
    rw [copy_out_getD dst m _ htl, ht, hmin, if_pos hi]
  have hhi : ∀ i, bn_minimal_width_loop v n ≤ i → i < m →
      (bn_copy_words dst m (bn_set_words W heap bn v n).2).2.getD i 0 = 0 := by
    intro i h1 h2
    rw [hcw]
    show (OPENSSL_memcpy _ _ _).getD i 0 = _
    rw [copy_out_getD dst m _ htl, ht, hmin, if_neg (by omega), if_pos h2]
  have hA : ∀ i, i < min n m →
      (bn_copy_words dst m (bn_set_words W heap bn v n).2).2.getD i 0 = v.getD i 0 := by
    intro i hi
    by_cases h : i < bn_minimal_width_loop v n
    · rw [hlo i h, hget i (by omega)]
    · rw [hhi i (by omega) (by omega),
        bn_minimal_width_loop_zero_above v n i (by omega) (by omega)]
  refine ⟨hsucc, hA, ?_, ?_⟩
  · intro i h1 h2
    exact hhi i (by omega) h2
  · intro hmn
    subst hmn
    apply List.ext_getElem?
    intro i
    by_cases hi : i < m
    · have h1 := hA i (by omega)
      rw [List.getD_eq_getElem?_getD, List.getD_eq_getElem?_getD] at h1
      rw [List.getElem?_take_of_lt hi]
      have h2 : i < (bn_copy_words dst m (bn_set_words W heap bn v m).2).2.length := by
        rw [hrl]; omega
      have h3 : i < v.length := by omega
      rw [List.getElem?_eq_getElem h2] at h1 ⊢
      rw [List.getElem?_eq_getElem h3] at h1 ⊢
      simpa using h1
    · rw [List.getElem?_eq_none (by rw [List.length_take]; omega),
        List.getElem?_eq_none (by omega)]

theorem bn_set_words_copy_words_roundtrip_witness :
    (bn_set_words 64 (some (fun _ => 0)) BN_new [0, 0, 5] 3).1 = Status.success ∧
    bn_minimal_width_loop [0, 0, 5] 3 ≤ 3 ∧
    (bn_copy_words [9, 9, 9] 3
      (bn_set_words 64 (some (fun _ => 0)) BN_new [0, 0, 5] 3).2).1 = Status.success ∧
    (bn_copy_words [9, 9, 9] 3
      (bn_set_words 64 (some (fun _ => 0)) BN_new [0, 0, 5] 3).2).2.take 3 = [0, 0, 5] :=
  have h := bn_set_words_copy_words_roundtrip 64 (some (fun _ => 0)) BN_new [0, 0, 5] 3 3
    [9, 9, 9] rfl rfl (by decide) (by decide) (by decide) (by decide)
  ⟨by decide, by decide, h.1, h.2.2.2 rfl⟩

/-! ## Sign -/

theorem words_value_eq_zero (W : Nat) (l : List Nat) :
    words_value W l = 0 ↔ ∀ x ∈ l, x = 0 := by
  induction l with
  | nil => simp [words_value]
  | cons a l ih =>
    have hpos : 0 < 2 ^ W := Nat.pow_pos (by decide)
    simp only [words_value, List.mem_cons, forall_eq_or_imp, Nat.add_eq_zero_iff,
      Nat.mul_eq_zero, ← ih]
    constructor
    · rintro ⟨h1, h2⟩
      exact ⟨h1, h2.resolve_left (by omega)⟩
    · rintro ⟨h1, h2⟩
      exact ⟨h1, Or.inr h2⟩

theorem BN_is_zero_iff (W : Nat) (bn : BIGNUM) :
    BN_is_zero bn = true ↔ magnitude W bn = 0 := by
  unfold BN_is_zero magnitude
  rw [bn_fits_in_words_iff, words_value_eq_zero]
  simp only [List.mem_map, List.mem_range]
  constructor
  · rintro h x ⟨i, hi, rfl⟩
    exact h i (Nat.zero_le _) hi
  · intro h i _ hi
    exact h _ ⟨i, hi, rfl⟩

/-- C9: after `BN_set_negative(bn, s)` the flag read by `BN_is_negative` is
set exactly when `s` is non-zero and `bn` is not the zero value; a BigInt that
represents zero (magnitude 0, canonical or not; on a canonical BigInt that is
`top == 0`) is non-negative after `BN_set_negative(bn, 1)`; nothing but the
sign flag changes. -/
theorem BN_set_negative_correct (bn : BIGNUM) (sign : Int) :
    (BN_is_negative (BN_set_negative bn sign) = true ↔ (sign ≠ 0 ∧ BN_is_zero bn = false)) ∧
    (∀ W, BN_is_zero bn = true ↔ magnitude W bn = 0) ∧
    (canonical bn → (BN_is_zero bn = true ↔ bn.top = 0)) ∧
    (∀ W, magnitude W bn = 0 → BN_is_negative (BN_set_negative bn 1) = false) ∧
    (BN_set_negative bn sign).d = bn.d ∧
    (BN_set_negative bn sign).top = bn.top ∧
    (BN_set_negative bn sign).dmax = bn.dmax ∧
    (BN_set_negative bn sign).flags = bn.flags := by
  have key : ∀ s : Int,
      (BN_is_negative (BN_set_negative bn s) = true ↔ (s ≠ 0 ∧ BN_is_zero bn = false)) := by
    intro s
    unfold BN_set_negative BN_is_negative
    by_cases h : s ≠ 0 ∧ (!BN_is_zero bn) = true
    · rw [if_pos h]
      simpa using h
    · rw [if_neg h]
      simpa using h
  refine ⟨key sign, fun W => BN_is_zero_iff W bn, ?_, ?_, ?_, ?_, ?_, ?_⟩
  · intro hc
    constructor
    · intro hz
      rcases hc with ⟨h0, _⟩ | ⟨h0, h1⟩
      · exact h0
      · exact absurd ((bn_fits_in_words_iff bn 0).mp hz (bn.top - 1) (Nat.zero_le _)
          (by omega)) h1
    · intro h0
      exact bn_fits_in_words_of_le bn 0 (by omega)
  · intro W h0
    have hz := (BN_is_zero_iff W bn).mpr h0
    have := key 1
    rw [hz] at this
    simpa using this
  all_goals
    unfold BN_set_negative
    split <;> rfl

/-! ## The result of `bn_wexpand` -/

/-- C10: `bn_wexpand(bn, words)` decides in this order: success with `bn`
untouched when `dmax ≥ words`; else `BN_R_BIGNUM_TOO_LONG` when
`words > INT_MAX / (4 * BN_BITS2)`; else `BN_R_EXPAND_ON_STATIC_BIGNUM_DATA`
when the static-data flag is set; else `ERR_R_MALLOC_FAILURE` when the
allocator fails; else success with `dmax == words` exactly (and a buffer of
`words` words when the old buffer held `dmax` words, `top` of them used). -/
theorem bn_wexpand_outcome (W : Nat) (heap : Option (Nat → Nat)) (bn : BIGNUM) (words : Nat) :
    (words ≤ bn.dmax → bn_wexpand W heap bn words = (Status.success, bn)) ∧
    (bn.dmax < words → words > INT_MAX / (4 * W) →
      bn_wexpand W heap bn words = (Status.failure BnError.BN_R_BIGNUM_TOO_LONG, bn)) ∧
    (bn.dmax < words → words ≤ INT_MAX / (4 * W) → bn.flags &&& BN_FLG_STATIC_DATA ≠ 0 →
      bn_wexpand W heap bn words =
        (Status.failure BnError.BN_R_EXPAND_ON_STATIC_BIGNUM_DATA, bn)) ∧
    (bn.dmax < words → words ≤ INT_MAX / (4 * W) → bn.flags &&& BN_FLG_STATIC_DATA = 0 →
      heap = none →
      bn_wexpand W heap bn words = (Status.failure BnError.ERR_R_MALLOC_FAILURE, bn)) ∧
    (bn.dmax < words → words ≤ INT_MAX / (4 * W) → bn.flags &&& BN_FLG_STATIC_DATA = 0 →
      heap ≠ none →
      (bn_wexpand W heap bn words).1 = Status.success ∧
      (bn_wexpand W heap bn words).2.dmax = words ∧
      (bn.d.length = bn.dmax → bn.top ≤ bn.dmax →
        (bn_wexpand W heap bn words).2.d.length = words)) := by
  refine ⟨?_, ?_, ?_, ?_, ?_⟩
  · intro h1
    unfold bn_wexpand
    rw [if_pos h1]
  · intro h1 h2
    unfold bn_wexpand
    rw [if_neg (by omega), if_pos h2]
  · intro h1 h2 h3
    unfold bn_wexpand
    rw [if_neg (by omega), if_neg (by omega), if_pos h3]
  · intro h1 h2 h3 h4
    unfold bn_wexpand
    rw [if_neg (by omega), if_neg (by omega), if_neg (by simp [h3]), h4]
    rfl
  · intro h1 h2 h3 h4
    unfold bn_wexpand
    rw [if_neg (by omega), if_neg (by omega), if_neg (by simp [h3])]
    cases heap with
    | none => exact absurd rfl h4
    | some g =>
      refine ⟨rfl, rfl, ?_⟩
      intro hlen htop
      show (OPENSSL_memcpy _ _ _).length = words
      rw [memcpy_length _ _ _ (by omega) (by simp; omega)]
      simp

/-! ## Canonical form along sequences of calls -/

theorem getD_ne_zero_lt (l : List Nat) (i : Nat) (h : l.getD i 0 ≠ 0) : i < l.length := by
  by_contra hc
  apply h
  rw [List.getD_eq_getElem?_getD, List.getElem?_eq_none (by omega)]
  rfl

theorem core_inv_top_le (bn : BIGNUM) (h : core_inv bn) : bn.top ≤ bn.dmax := by
  obtain ⟨hc, hl⟩ := h
  rcases hc with ⟨h0, _⟩ | ⟨_, h1⟩
  · omega
  · have := getD_ne_zero_lt _ _ h1
    omega

theorem core_inv_wexpand (W : Nat) (heap : Option (Nat → Nat)) (bn : BIGNUM) (words : Nat)
    (h : core_inv bn) :
    core_inv (bn_wexpand W heap bn words).2 ∧
    (bn_wexpand W heap bn words).2.top = bn.top ∧
    (bn_wexpand W heap bn words).2.neg = bn.neg ∧
    ((bn_wexpand W heap bn words).1 = Status.success →
      words ≤ (bn_wexpand W heap bn words).2.d.length) := by
  have htop := core_inv_top_le bn h
  obtain ⟨hc, hl⟩ := h
  rcases bn_wexpand_cases W heap bn words with ⟨h1, hr⟩ | ⟨_, e, hr⟩ | ⟨h1, _, _, g, _, hr⟩
  · rw [hr]
    exact ⟨⟨hc, hl⟩, rfl, rfl, fun _ => by show words ≤ bn.d.length; omega⟩
  · rw [hr]
    exact ⟨⟨hc, hl⟩, rfl, rfl, fun hs => by cases hs⟩
  · rw [hr]
    have hlen : (OPENSSL_memcpy ((List.range words).map g) bn.d bn.top).length = words := by
      rw [memcpy_length _ _ _ (by omega) (by simp; omega)]
      simp
    refine ⟨⟨?_, hlen⟩, rfl, rfl, fun _ => by show words ≤ (OPENSSL_memcpy _ _ _).length; omega⟩
    rcases hc with ⟨h0, hn⟩ | ⟨h0, hn⟩
    · exact Or.inl ⟨h0, hn⟩
    · right
      refine ⟨h0, ?_⟩
      show (OPENSSL_memcpy _ _ _).getD (bn.top - 1) 0 ≠ 0
      rw [memcpy_getD _ _ _ _ (by omega), if_pos (by omega)]
      exact hn

theorem getD_set_self (l : List Nat) (i x : Nat) (h : i < l.length) :
    (l.set i x).getD i 0 = x := by
  simp [List.getD_eq_getElem?_getD, h]

theorem core_inv_zero (bn : BIGNUM) (h : core_inv bn) : core_inv (BN_zero bn) :=
  ⟨Or.inl ⟨rfl, rfl⟩, h.2⟩

theorem core_inv_set_word (W : Nat) (heap : Option (Nat → Nat)) (bn : BIGNUM) (w : Nat)
    (h : core_inv bn) : core_inv (BN_set_word W heap bn w).2 := by
  unfold BN_set_word
  by_cases hw : w = 0
  · rw [if_pos hw]
    exact core_inv_zero bn h
  · rw [if_neg hw]
    have hx := core_inv_wexpand W heap bn 1 h
    rcases hr : bn_wexpand W heap bn 1 with ⟨st, b⟩
    rw [hr] at hx
    obtain ⟨hb, _, _, hcap⟩ := hx
    have hl := hb.2
    cases st with
    | failure e => exact hb
    | success =>
      have h1 : 1 ≤ b.d.length := hcap rfl
      show core_inv { b with neg := 0, d := b.d.set 0 w, top := 1 }
      refine ⟨Or.inr ⟨Nat.one_ne_zero, ?_⟩, ?_⟩
      · show (b.d.set 0 w).getD 0 0 ≠ 0
        rw [getD_set_self _ _ _ (by omega)]
        exact hw
      · show (b.d.set 0 w).length = b.dmax
        rw [List.length_set]
        exact hl

theorem core_inv_set_u64 (W : Nat) (heap : Option (Nat → Nat)) (bn : BIGNUM) (v : Nat)
    (hv : v < 2 ^ 64) (h : core_inv bn) : core_inv (BN_set_u64 W heap bn v).2 := by
  unfold BN_set_u64
  by_cases h64 : W = 64
  · rw [if_pos h64]
    exact core_inv_set_word W heap bn v h
  · rw [if_neg h64]
    by_cases hsmall : v ≤ 2 ^ 32 - 1
    · rw [if_pos hsmall]
      exact core_inv_set_word W heap bn _ h
    · rw [if_neg hsmall]
      have hx := core_inv_wexpand W heap bn 2 h
      rcases hr : bn_wexpand W heap bn 2 with ⟨st, b⟩
      rw [hr] at hx
      obtain ⟨hb, _, _, hcap⟩ := hx
      have hl := hb.2
      cases st with
      | failure e => exact hb
      | success =>
        have h2 : 2 ≤ b.d.length := hcap rfl
        have hhi : (v >>> 32) % 2 ^ 32 ≠ 0 := by
          rw [Nat.shiftRight_eq_div_pow]
          omega
        show core_inv
          { b with d := (b.d.set 0 (v % 2 ^ 32)).set 1 ((v >>> 32) % 2 ^ 32), top := 2, neg := 0 }
        refine ⟨Or.inr ⟨Nat.succ_ne_zero 1, ?_⟩, ?_⟩
        · show ((b.d.set 0 (v % 2 ^ 32)).set 1 ((v >>> 32) % 2 ^ 32)).getD 1 0 ≠ 0
          rw [getD_set_self _ _ _ (by rw [List.length_set]; omega)]
          exact hhi
        · show ((b.d.set 0 (v % 2 ^ 32)).set 1 ((v >>> 32) % 2 ^ 32)).length = b.dmax
          rw [List.length_set, List.length_set]
          exact hl

theorem core_inv_correct_top (bn : BIGNUM) (hl : bn.d.length = bn.dmax) :
    core_inv (bn_correct_top bn) := by
  refine ⟨?_, by rw [bn_correct_top_d, bn_correct_top_dmax]; exact hl⟩
  by_cases h0 : (bn_correct_top bn).top = 0
  · exact Or.inl ⟨h0, bn_correct_top_neg_of_zero bn h0⟩
  · exact Or.inr ⟨h0, bn_correct_top_top_word bn h0⟩

theorem core_inv_set_words (W : Nat) (heap : Option (Nat → Nat)) (bn : BIGNUM)
    (v : List Nat) (n : Nat) (hv : n ≤ v.length) (h : core_inv bn) :
    core_inv (bn_set_words W heap bn v n).2 := by
  unfold bn_set_words
  have hx := core_inv_wexpand W heap bn n h
  rcases hr : bn_wexpand W heap bn n with ⟨st, b⟩
  rw [hr] at hx
  obtain ⟨hb, _, _, hcap⟩ := hx
  have hl := hb.2
  cases st with
  | failure e => exact hb
  | success =>
    have hn : n ≤ b.d.length := hcap rfl
    have hl2 : (OPENSSL_memmove b.d v n).length = b.dmax := by
      rw [memmove_eq_memcpy, memcpy_length _ _ _ hv hn]
      exact hl
    have hct := core_inv_correct_top
      { b with d := OPENSSL_memmove b.d v n, top := n } hl2
    obtain ⟨hc, hlen⟩ := hct
    refine ⟨?_, hlen⟩
    rcases hc with ⟨h0, _⟩ | ⟨h0, h1⟩
    · exact Or.inl ⟨h0, rfl⟩
    · exact Or.inr ⟨h0, h1⟩

theorem core_inv_set_negative (bn : BIGNUM) (s : Int) (h : core_inv bn) :
    core_inv (BN_set_negative bn s) := by
  obtain ⟨hc, hl⟩ := h
  have hd : (BN_set_negative bn s).d = bn.d := by
    unfold BN_set_negative; split <;> rfl
  have ht : (BN_set_negative bn s).top = bn.top := by
    unfold BN_set_negative; split <;> rfl
  have hdm : (BN_set_negative bn s).dmax = bn.dmax := by
    unfold BN_set_negative; split <;> rfl
  refine ⟨?_, by rw [hd, hdm]; exact hl⟩
  rcases hc with ⟨h0, _⟩ | ⟨h0, h1⟩
  · left
    refine ⟨by rw [ht]; exact h0, ?_⟩
    have hz : BN_is_zero bn = true := bn_fits_in_words_of_le bn 0 (by omega)
    unfold BN_set_negative
    rw [if_neg (by simp [hz])]
  · right
    rw [ht, hd]
    exact ⟨h0, h1⟩

theorem core_inv_copy (W : Nat) (heap : Option (Nat → Nat)) (dest src : BIGNUM) (same : Bool)
    (hsrc : canonical src) (h : core_inv dest) :
    core_inv (BN_copy W heap dest src same).2 := by
  unfold BN_copy
  cases same with
  | true => exact h
  | false =>
    simp only [Bool.false_eq_true, if_false]
    have hx := core_inv_wexpand W heap dest src.top h
    rcases hr : bn_wexpand W heap dest src.top with ⟨st, b⟩
    rw [hr] at hx
    obtain ⟨hb, _, _, hcap⟩ := hx
    have hl := hb.2
    cases st with
    | failure e => exact hb
    | success =>
      have hn : src.top ≤ b.d.length := hcap rfl
      have hsl : src.top ≤ src.d.length := by
        rcases hsrc with ⟨h0, _⟩ | ⟨_, h1⟩
        · omega
        · have := getD_ne_zero_lt _ _ h1
          omega
      refine ⟨?_, ?_⟩
      · rcases hsrc with ⟨h0, h1⟩ | ⟨h0, h1⟩
        · exact Or.inl ⟨h0, h1⟩
        · right
          refine ⟨h0, ?_⟩
          show (OPENSSL_memcpy b.d src.d src.top).getD (src.top - 1) 0 ≠ 0
          rw [memcpy_getD _ _ _ _ hsl, if_pos (by omega)]
          exact h1
      · show (OPENSSL_memcpy b.d src.d src.top).length = b.dmax
        rw [memcpy_length _ _ _ hsl hn]
        exact hl

theorem core_inv_clear (bn : BIGNUM) (h : core_inv bn) : core_inv (BN_clear bn) := by
  obtain ⟨_, hl⟩ := h
  refine ⟨Or.inl ⟨rfl, rfl⟩, ?_⟩
  show (if bn.d ≠ [] then OPENSSL_memset bn.d 0 0 bn.dmax else bn.d).length = bn.dmax
  split
  · rw [memset_length _ _ _ _ (by omega)]
    exact hl
  · exact hl

theorem core_inv_expand (W sb : Nat) (heap : Option (Nat → Nat)) (bn : BIGNUM) (bits : Nat)
    (h : core_inv bn) : core_inv (bn_expand W sb heap bn bits).2 := by
  unfold bn_expand
  split
  · exact h
  · exact (core_inv_wexpand W heap bn _ h).1

theorem memset_nothing (d : List Nat) (off : Nat) : OPENSSL_memset d off 0 0 = d := by
  simp [OPENSSL_memset]

theorem core_inv_resize (W : Nat) (heap : Option (Nat → Nat)) (bn : BIGNUM) (words : Nat)
    (hallow : words ≤ bn.top ∨ (bn_resize_words W heap bn words).1 ≠ Status.success)
    (h : core_inv bn) : core_inv (bn_resize_words W heap bn words).2 := by
  unfold bn_resize_words at hallow ⊢
  by_cases hle : bn.top ≤ words
  · rw [if_pos hle] at hallow ⊢
    have hx := core_inv_wexpand W heap bn words h
    rcases hr : bn_wexpand W heap bn words with ⟨st, b⟩
    rw [hr] at hx hallow
    obtain ⟨hb, ht, _, _⟩ := hx
    cases st with
    | failure e => exact hb
    | success =>
      have hw : words = b.top := by
        rcases hallow with h1 | h1
        · simp only at ht
          omega
        · exact absurd rfl h1
      show core_inv { b with d := OPENSSL_memset b.d b.top 0 (words - b.top), top := words }
      rw [hw, Nat.sub_self, memset_nothing]
      exact hb
  · rw [if_neg hle]
    by_cases hf : bn_fits_in_words bn words = true
    · exfalso
      obtain ⟨hc, _⟩ := h
      rcases hc with ⟨h0, _⟩ | ⟨_, h1⟩
      · omega
      · exact h1 ((bn_fits_in_words_iff bn words).mp hf (bn.top - 1) (by omega) (by omega))
    · simp only [hf, Bool.not_false, if_true]
      exact h

theorem core_inv_apply_op (W sb : Nat) (bn : BIGNUM) (op : Op)
    (h : core_inv bn) (hop : op_allowed W bn op) : core_inv (apply_op W sb bn op) := by
  cases op with
  | set_zero => exact core_inv_zero bn h
  | set_one heap => exact core_inv_set_word W heap bn 1 h
  | set_word heap w => exact core_inv_set_word W heap bn w h
  | set_u64 heap v => exact core_inv_set_u64 W heap bn v hop h
  | set_words heap buffer n => exact core_inv_set_words W heap bn buffer n hop h
  | set_sign s => exact core_inv_set_negative bn s h
  | copy heap src same => exact core_inv_copy W heap bn src same hop h
  | clear => exact core_inv_clear bn h
  | trim => exact core_inv_correct_top bn h.2
  | ensure_capacity heap words => exact (core_inv_wexpand W heap bn words h).1
  | ensure_capacity_bits heap bits => exact core_inv_expand W sb heap bn bits h
  | resize_to heap words => exact core_inv_resize W heap bn words hop h

theorem core_inv_run_ops (W sb : Nat) (ops : List Op) (bn : BIGNUM)
    (h : core_inv bn) (hops : ops_allowed W sb bn ops) : core_inv (run_ops W sb bn ops) := by
  induction ops generalizing bn with
  | nil => exact h
  | cons op ops ih =>
    obtain ⟨h1, h2⟩ := hops
    exact ih _ (core_inv_apply_op W sb bn op h h1) h2

theorem bn_resize_words_grow (W : Nat) (heap : Option (Nat → Nat)) (bn : BIGNUM) (words : Nat)
    (h : core_inv bn) (hgrow : bn.top < words)
    (hok : (bn_resize_words W heap bn words).1 = Status.success) :
    (bn_resize_words W heap bn words).2.top = words ∧
    (bn_resize_words W heap bn words).2.d.getD (words - 1) 0 = 0 := by
  unfold bn_resize_words at hok ⊢
  rw [if_pos (by omega)] at hok ⊢
  have hx := core_inv_wexpand W heap bn words h
  rcases hr : bn_wexpand W heap bn words with ⟨st, b⟩
  rw [hr] at hx hok
  obtain ⟨hb, ht, _, _⟩ := hx
  cases st with
  | failure e => cases hok
  | success =>
    have htl : b.top ≤ b.d.length := by
      have h1 : b.top ≤ b.dmax := core_inv_top_le b hb
      have h2 : b.d.length = b.dmax := hb.2
      omega
    have ht2 : b.top = bn.top := ht
    refine ⟨rfl, ?_⟩
    show (OPENSSL_memset b.d b.top 0 (words - b.top)).getD (words - 1) 0 = 0
    rw [memset_getD _ _ _ _ htl, if_pos ⟨by omega, by omega⟩]

/-- C6, the claim as stated fails: on the canonical zero written by `BN_new`,
`bn_resize_words(bn, 1)` succeeds and leaves `top == 1` over a zero word; and
`BN_copy` from a source that such a resize left non-canonical hands the zero
top word on to the destination. -/
theorem canonical_broken_by_resize :
    canonical BN_new ∧
    (bn_resize_words 64 (some (fun _ => 7)) BN_new 1).1 = Status.success ∧
    (run_ops 64 64 BN_new [Op.resize_to (some (fun _ => 7)) 1]).top = 1 ∧
    (run_ops 64 64 BN_new [Op.resize_to (some (fun _ => 7)) 1]).d = [0] ∧
    ¬ canonical (run_ops 64 64 BN_new [Op.resize_to (some (fun _ => 7)) 1]) ∧
    ¬ canonical (run_ops 64 64 BN_new [Op.copy (some (fun _ => 7)) bn_padded false]) := by
  decide

/-- C6, amended: starting from a canonical BigInt whose buffer holds `dmax`
words, canonical form holds again after every sequence of calls to set_zero,
set_one, set_word, set_u64, set_words, set_sign, copy (from a canonical
source), clear, trim, ensure_capacity, ensure_capacity_bits and resize_to,
successful or failed, in which no resize_to succeeds in raising the used
length.  A resize_to that does succeed with `words > top` sets `top` to `words`
over a zero-filled top word. -/
theorem canonical_preserved (W sb : Nat) (bn : BIGNUM) (ops : List Op)
    (hcan : canonical bn) (hlen : bn.d.length = bn.dmax)
    (hops : ops_allowed W sb bn ops) :
    canonical (run_ops W sb bn ops) ∧
    (∀ heap words, (run_ops W sb bn ops).top < words →
      (bn_resize_words W heap (run_ops W sb bn ops) words).1 = Status.success →
      (bn_resize_words W heap (run_ops W sb bn ops) words).2.top = words ∧
      (bn_resize_words W heap (run_ops W sb bn ops) words).2.d.getD (words - 1) 0 = 0) := by
  have h := core_inv_run_ops W sb ops bn ⟨hcan, hlen⟩ hops
  exact ⟨h.1, fun heap words hg hok => bn_resize_words_grow W heap _ words h hg hok⟩

theorem canonical_preserved_witness :
    canonical BN_new ∧ BN_new.d.length = BN_new.dmax ∧
    canonical (run_ops 64 64 BN_new ops_example) :=
  ⟨by decide, rfl,
    (canonical_preserved 64 64 BN_new ops_example (by decide) rfl
      ⟨trivial, trivial, trivial, Or.inl (by decide), trivial⟩).1⟩

/-! ## What depends only on the used words -/

theorem bn_minimal_width_loop_zero_ext (d : List Nat) (n k : Nat)
    (hz : ∀ i, n ≤ i → i < n + k → d.getD i 0 = 0) :
    bn_minimal_width_loop d (n + k) = bn_minimal_width_loop d n := by
  induction k with
  | zero => rfl
  | succ k ih =>
    have hstep : bn_minimal_width_loop d (n + (k + 1)) =
        if d.getD (n + k) 0 = 0 then bn_minimal_width_loop d (n + k) else n + k + 1 := rfl
    rw [hstep, if_pos (hz (n + k) (by omega) (by omega))]
    exact ih (fun i h1 h2 => hz i h1 (by omega))

theorem words_prefix_congr (W : Nat) (d e : List Nat) (n : Nat)
    (h : ∀ i, i < n → d.getD i 0 = e.getD i 0) :
    words_value W ((List.range n).map (fun i => d.getD i 0)) =
      words_value W ((List.range n).map (fun i => e.getD i 0)) := by
  congr 1
  apply List.map_congr_left
  intro i hi
  exact h i (List.mem_range.mp hi)

/-- Two BigInts with the same minimal width and the same words below it have
the same magnitude, bit length and byte length. -/
theorem same_width_same_value (W : Nat) (a b : BIGNUM)
    (hm : bn_minimal_width a = bn_minimal_width b)
    (hd : ∀ i, i < bn_minimal_width b → a.d.getD i 0 = b.d.getD i 0) :
    magnitude W a = magnitude W b ∧ BN_num_bits W a = BN_num_bits W b ∧
    BN_num_bytes W a = BN_num_bytes W b := by
  have hbits : BN_num_bits W a = BN_num_bits W b := by
    unfold BN_num_bits
    simp only []
    rw [hm]
    by_cases h0 : bn_minimal_width b = 0
    · rw [if_pos h0, if_pos h0]
    · rw [if_neg h0, if_neg h0, hd _ (by omega)]
  refine ⟨?_, hbits, ?_⟩
  · unfold magnitude
    rw [← magnitude_prefix_minimal W a.d a.top, ← magnitude_prefix_minimal W b.d b.top]
    show words_value W ((List.range (bn_minimal_width a)).map _) =
      words_value W ((List.range (bn_minimal_width b)).map _)
    rw [hm]
    exact words_prefix_congr W a.d b.d _ hd
  · unfold BN_num_bytes
    rw [hbits]

/-- Two BigInts with the same used length and the same used words have the
same minimal width. -/
theorem same_words_same_width (a b : BIGNUM) (ht : a.top = b.top)
    (hd : ∀ i, i < b.top → a.d.getD i 0 = b.d.getD i 0) :
    bn_minimal_width a = bn_minimal_width b := by
  unfold bn_minimal_width
  rw [ht]
  exact bn_minimal_width_loop_congr _ _ _ hd

theorem same_words_same_value (W : Nat) (a b : BIGNUM) (ht : a.top = b.top)
    (hd : ∀ i, i < b.top → a.d.getD i 0 = b.d.getD i 0) :
    magnitude W a = magnitude W b ∧ BN_num_bits W a = BN_num_bits W b ∧
    BN_num_bytes W a = BN_num_bytes W b :=
  same_width_same_value W a b (same_words_same_width a b ht hd)
    (fun i hi => hd i (lt_of_lt_of_le hi (bn_minimal_width_loop_le _ _)))

/-! ## Growth keeps the data -/

/-- C11: growing capacity never loses data.  On a BigInt whose buffer holds
`dmax` words, `top ≤ dmax` of them used, a successful `bn_wexpand(bn, words)`
leaves `dmax ≥ words` and `dmax ≥` the old `dmax`, and the used length, the
sign, the flags and every word below `top` as they were; hence the magnitude,
`BN_num_bits` and `BN_num_bytes` are unchanged. -/
theorem bn_wexpand_keeps_data (W : Nat) (heap : Option (Nat → Nat)) (bn : BIGNUM)
    (words : Nat) (hlen : bn.d.length = bn.dmax) (htop : bn.top ≤ bn.dmax)
    (hok : (bn_wexpand W heap bn words).1 = Status.success) :
    words ≤ (bn_wexpand W heap bn words).2.dmax ∧
    bn.dmax ≤ (bn_wexpand W heap bn words).2.dmax ∧
    (bn_wexpand W heap bn words).2.d.length = (bn_wexpand W heap bn words).2.dmax ∧
    (bn_wexpand W heap bn words).2.top = bn.top ∧
    (bn_wexpand W heap bn words).2.neg = bn.neg ∧
    (bn_wexpand W heap bn words).2.flags = bn.flags ∧
    (∀ i, i < bn.top → (bn_wexpand W heap bn words).2.d.getD i 0 = bn.d.getD i 0) ∧
    magnitude W (bn_wexpand W heap bn words).2 = magnitude W bn ∧
    BN_num_bits W (bn_wexpand W heap bn words).2 = BN_num_bits W bn ∧
    BN_num_bytes W (bn_wexpand W heap bn words).2 = BN_num_bytes W bn := by
  obtain ⟨h1, h2, h3, h4, h5, h6, h7⟩ := bn_wexpand_success W heap bn words hlen htop hok
  obtain ⟨hm, hb, hy⟩ := same_words_same_value W (bn_wexpand W heap bn words).2 bn h4 h7
  exact ⟨h2, h3, h1, h4, h5, h6, h7, hm, hb, hy⟩

theorem bn_wexpand_keeps_data_witness :
    bn_padded.d.length = bn_padded.dmax ∧ bn_padded.top ≤ bn_padded.dmax ∧
    (bn_wexpand 64 (some (fun _ => 7)) bn_padded 5).1 = Status.success ∧
    5 ≤ (bn_wexpand 64 (some (fun _ => 7)) bn_padded 5).2.dmax ∧
    (bn_wexpand 64 (some (fun _ => 7)) bn_padded 5).2.top = bn_padded.top ∧
    magnitude 64 (bn_wexpand 64 (some (fun _ => 7)) bn_padded 5).2 =
      magnitude 64 bn_padded :=
  have h := bn_wexpand_keeps_data 64 (some (fun _ => 7)) bn_padded 5 (by decide) (by decide)
    (by decide)
  ⟨by decide, by decide, by decide, h.1, h.2.2.2.1, h.2.2.2.2.2.2.2.1⟩

/-! ## Failure leaves the BigInt alone -/

theorem bn_wexpand_failure_state (W : Nat) (heap : Option (Nat → Nat)) (bn : BIGNUM)
    (words : Nat) (e : BnError) (b : BIGNUM)
    (h : bn_wexpand W heap bn words = (Status.failure e, b)) : b = bn := by
  rcases bn_wexpand_cases W heap bn words with ⟨_, hr⟩ | ⟨_, e2, hr⟩ | ⟨_, _, _, g, _, hr⟩
  · rw [hr] at h
    cases h
  · rw [hr] at h
    cases h
    rfl
  · rw [hr] at h
    cases h

theorem bn_wexpand_atomic (W : Nat) (heap : Option (Nat → Nat)) (bn : BIGNUM) (words : Nat)
    (e : BnError) (h : (bn_wexpand W heap bn words).1 = Status.failure e) :
    (bn_wexpand W heap bn words).2 = bn := by
  rcases hr : bn_wexpand W heap bn words with ⟨st, b⟩
  rw [hr] at h
  simp only at h
  subst h
  exact bn_wexpand_failure_state W heap bn words e b hr

theorem bn_expand_atomic (W sb : Nat) (heap : Option (Nat → Nat)) (bn : BIGNUM) (bits : Nat)
    (e : BnError) (h : (bn_expand W sb heap bn bits).1 = Status.failure e) :
    (bn_expand W sb heap bn bits).2 = bn := by
  unfold bn_expand at h ⊢
  split
  · rfl
  · rename_i hc
    rw [if_neg hc] at h
    exact bn_wexpand_atomic W heap bn _ e h

theorem bn_resize_words_atomic (W : Nat) (heap : Option (Nat → Nat)) (bn : BIGNUM)
    (words : Nat) (e : BnError)
    (h : (bn_resize_words W heap bn words).1 = Status.failure e) :
    (bn_resize_words W heap bn words).2 = bn := by
  unfold bn_resize_words at h ⊢
  by_cases hle : bn.top ≤ words
  · rw [if_pos hle] at h ⊢
    rcases hr : bn_wexpand W heap bn words with ⟨st, b⟩
    rw [hr] at h
    cases st with
    | success => cases h
    | failure e2 => exact bn_wexpand_failure_state W heap bn words e2 b hr
  · rw [if_neg hle] at h ⊢
    by_cases hf : bn_fits_in_words bn words = true
    · simp [hf] at h
    · simp [hf]

theorem BN_set_word_atomic (W : Nat) (heap : Option (Nat → Nat)) (bn : BIGNUM) (w : Nat)
    (e : BnError) (h : (BN_set_word W heap bn w).1 = Status.failure e) :
    (BN_set_word W heap bn w).2 = bn := by
  unfold BN_set_word at h ⊢
  by_cases hw : w = 0
  · rw [if_pos hw] at h
    cases h
  · rw [if_neg hw] at h ⊢
    rcases hr : bn_wexpand W heap bn 1 with ⟨st, b⟩
    rw [hr] at h
    cases st with
    | success => cases h
    | failure e2 => exact bn_wexpand_failure_state W heap bn 1 e2 b hr

theorem BN_set_u64_atomic (W : Nat) (heap : Option (Nat → Nat)) (bn : BIGNUM) (v : Nat)
    (e : BnError) (h : (BN_set_u64 W heap bn v).1 = Status.failure e) :
    (BN_set_u64 W heap bn v).2 = bn := by
  unfold BN_set_u64 at h ⊢
  by_cases h64 : W = 64
  · rw [if_pos h64] at h ⊢
    exact BN_set_word_atomic W heap bn v e h
  · rw [if_neg h64] at h ⊢
    by_cases hs : v ≤ 2 ^ 32 - 1
    · rw [if_pos hs] at h ⊢
      exact BN_set_word_atomic W heap bn _ e h
    · rw [if_neg hs] at h ⊢
      rcases hr : bn_wexpand W heap bn 2 with ⟨st, b⟩
      rw [hr] at h
      cases st with
      | success => cases h
      | failure e2 => exact bn_wexpand_failure_state W heap bn 2 e2 b hr

theorem bn_set_words_atomic (W : Nat) (heap : Option (Nat → Nat)) (bn : BIGNUM)
    (v : List Nat) (n : Nat) (e : BnError)
    (h : (bn_set_words W heap bn v n).1 = Status.failure e) :
    (bn_set_words W heap bn v n).2 = bn := by
  unfold bn_set_words at h ⊢
  rcases hr : bn_wexpand W heap bn n with ⟨st, b⟩
  rw [hr] at h
  cases st with
  | success => cases h
  | failure e2 => exact bn_wexpand_failure_state W heap bn n e2 b hr

theorem BN_copy_atomic (W : Nat) (heap : Option (Nat → Nat)) (dest src : BIGNUM)
    (same : Bool) (e : BnError) (h : (BN_copy W heap dest src same).1 = Status.failure e) :
    (BN_copy W heap dest src same).2 = dest := by
  unfold BN_copy at h ⊢
  cases same with
  | true => rfl
  | false =>
    simp only [Bool.false_eq_true, if_false] at h ⊢
    rcases hr : bn_wexpand W heap dest src.top with ⟨st, b⟩
    rw [hr] at h
    cases st with
    | success => cases h
    | failure e2 => exact bn_wexpand_failure_state W heap dest src.top e2 b hr

/-- C12: failure is atomic.  Whenever `bn_wexpand`, `bn_expand`,
`bn_resize_words`, `BN_set_word`, `BN_one`, `BN_set_u64`, `bn_set_words` or
`BN_copy` returns failure, for whatever reason, the receiving BigInt (words,
used length, capacity, sign, flags) is exactly what it was before the call. -/
theorem failure_is_atomic (W sb : Nat) (heap : Option (Nat → Nat)) (bn : BIGNUM) :
    (∀ words e, (bn_wexpand W heap bn words).1 = Status.failure e →
      (bn_wexpand W heap bn words).2 = bn) ∧
    (∀ bits e, (bn_expand W sb heap bn bits).1 = Status.failure e →
      (bn_expand W sb heap bn bits).2 = bn) ∧
    (∀ words e, (bn_resize_words W heap bn words).1 = Status.failure e →
      (bn_resize_words W heap bn words).2 = bn) ∧
    (∀ w e, (BN_set_word W heap bn w).1 = Status.failure e →
      (BN_set_word W heap bn w).2 = bn) ∧
    (∀ e, (BN_one W heap bn).1 = Status.failure e → (BN_one W heap bn).2 = bn) ∧
    (∀ v e, (BN_set_u64 W heap bn v).1 = Status.failure e →
      (BN_set_u64 W heap bn v).2 = bn) ∧
    (∀ buffer n e, (bn_set_words W heap bn buffer n).1 = Status.failure e →
      (bn_set_words W heap bn buffer n).2 = bn) ∧
    (∀ src same e, (BN_copy W heap bn src same).1 = Status.failure e →
      (BN_copy W heap bn src same).2 = bn) :=
  ⟨bn_wexpand_atomic W heap bn, bn_expand_atomic W sb heap bn,
    bn_resize_words_atomic W heap bn, BN_set_word_atomic W heap bn,
    BN_set_word_atomic W heap bn 1, BN_set_u64_atomic W heap bn,
    bn_set_words_atomic W heap bn, BN_copy_atomic W heap bn⟩

/-! ## The shared constant one -/

theorem value_one_wexpand_static (W : Nat) (heap : Option (Nat → Nat)) (words : Nat)
    (h1 : 1 < words) (h2 : words ≤ INT_MAX / (4 * W)) :
    bn_wexpand W heap BN_value_one words =
      (Status.failure BnError.BN_R_EXPAND_ON_STATIC_BIGNUM_DATA, BN_value_one) := by
  unfold bn_wexpand
  have hd : ¬ words ≤ BN_value_one.dmax := by
    show ¬ words ≤ 1
    omega
  have hf : BN_value_one.flags &&& BN_FLG_STATIC_DATA ≠ 0 := by decide
  rw [if_neg hd, if_neg (by omega), if_pos hf]

theorem value_one_wexpand_too_long (W : Nat) (heap : Option (Nat → Nat)) (words : Nat)
    (h1 : 1 < words) (h2 : INT_MAX / (4 * W) < words) :
    bn_wexpand W heap BN_value_one words =
      (Status.failure BnError.BN_R_BIGNUM_TOO_LONG, BN_value_one) := by
  unfold bn_wexpand
  have hd : ¬ words ≤ BN_value_one.dmax := by
    show ¬ words ≤ 1
    omega
  rw [if_neg hd, if_pos h2]

theorem value_one_wexpand_small (W : Nat) (heap : Option (Nat → Nat)) (words : Nat)
    (h1 : words ≤ 1) : bn_wexpand W heap BN_value_one words = (Status.success, BN_value_one) := by
  unfold bn_wexpand
  have hd : words ≤ BN_value_one.dmax := h1
  rw [if_pos hd]

theorem value_one_resize_grow (W : Nat) (heap : Option (Nat → Nat)) (words : Nat)
    (e : BnError) (h1 : 1 < words)
    (hw : bn_wexpand W heap BN_value_one words = (Status.failure e, BN_value_one)) :
    bn_resize_words W heap BN_value_one words = (Status.failure e, BN_value_one) := by
  unfold bn_resize_words
  have ht : BN_value_one.top ≤ words := by
    show 1 ≤ words
    omega
  rw [if_pos ht, hw]

theorem value_one_set_words_grow (W : Nat) (heap : Option (Nat → Nat)) (v : List Nat)
    (n : Nat) (e : BnError)
    (hw : bn_wexpand W heap BN_value_one n = (Status.failure e, BN_value_one)) :
    bn_set_words W heap BN_value_one v n = (Status.failure e, BN_value_one) := by
  unfold bn_set_words
  rw [hw]

/-- C13, the claim as stated fails: a growth request against the constant one
that exceeds the ceiling `INT_MAX / (4 * BN_BITS2)` is refused with
`BN_R_BIGNUM_TOO_LONG`, not with `BN_R_EXPAND_ON_STATIC_BIGNUM_DATA`. -/
theorem value_one_growth_too_long :
    BN_value_one.dmax < 8388608 ∧
    bn_wexpand 64 none BN_value_one 8388608 =
      (Status.failure BnError.BN_R_BIGNUM_TOO_LONG, BN_value_one) ∧
    (bn_wexpand 64 none BN_value_one 8388608).1 ≠
      Status.failure BnError.BN_R_EXPAND_ON_STATIC_BIGNUM_DATA ∧
    (bn_resize_words 64 none BN_value_one 8388608).1 ≠
      Status.failure BnError.BN_R_EXPAND_ON_STATIC_BIGNUM_DATA ∧
    (bn_expand 64 64 none BN_value_one (64 * 8388608)).1 ≠
      Status.failure BnError.BN_R_EXPAND_ON_STATIC_BIGNUM_DATA := by
  decide

/-- C13, amended: every growth request against the shared constant one
(`bn_wexpand` with `words > 1`, a growing `bn_resize_words`, a `bn_expand` whose
word count exceeds 1) fails and leaves the constant as it was, `top == 1` and
`d[0] == 1`.  The reason is `BN_R_EXPAND_ON_STATIC_BIGNUM_DATA` when the request
is at most `INT_MAX / (4 * BN_BITS2)` words, and `BN_R_BIGNUM_TOO_LONG` when it
exceeds that ceiling or when the bit count of `bn_expand` wraps. -/
theorem value_one_growth (W sb : Nat) (heap : Option (Nat → Nat)) :
    (∀ words, 1 < words → words ≤ INT_MAX / (4 * W) →
      bn_wexpand W heap BN_value_one words =
        (Status.failure BnError.BN_R_EXPAND_ON_STATIC_BIGNUM_DATA, BN_value_one)) ∧
    (∀ words, 1 < words → INT_MAX / (4 * W) < words →
      bn_wexpand W heap BN_value_one words =
        (Status.failure BnError.BN_R_BIGNUM_TOO_LONG, BN_value_one)) ∧
    (∀ words, 1 < words → words ≤ INT_MAX / (4 * W) →
      bn_resize_words W heap BN_value_one words =
        (Status.failure BnError.BN_R_EXPAND_ON_STATIC_BIGNUM_DATA, BN_value_one)) ∧
    (∀ words, 1 < words → INT_MAX / (4 * W) < words →
      bn_resize_words W heap BN_value_one words =
        (Status.failure BnError.BN_R_BIGNUM_TOO_LONG, BN_value_one)) ∧
    (∀ bits, ¬ (bits + W - 1) % 2 ^ sb < bits →
      1 < (bits + W - 1) % 2 ^ sb / W → (bits + W - 1) % 2 ^ sb / W ≤ INT_MAX / (4 * W) →
      bn_expand W sb heap BN_value_one bits =
        (Status.failure BnError.BN_R_EXPAND_ON_STATIC_BIGNUM_DATA, BN_value_one)) ∧
    (∀ bits, ¬ (bits + W - 1) % 2 ^ sb < bits →
      1 < (bits + W - 1) % 2 ^ sb / W → INT_MAX / (4 * W) < (bits + W - 1) % 2 ^ sb / W →
      bn_expand W sb heap BN_value_one bits =
        (Status.failure BnError.BN_R_BIGNUM_TOO_LONG, BN_value_one)) ∧
    (∀ bits, (bits + W - 1) % 2 ^ sb < bits →
      bn_expand W sb heap BN_value_one bits =
        (Status.failure BnError.BN_R_BIGNUM_TOO_LONG, BN_value_one)) ∧
    BN_value_one.top = 1 ∧ BN_value_one.d.getD 0 0 = 1 := by
  refine ⟨fun words h1 h2 => value_one_wexpand_static W heap words h1 h2,
    fun words h1 h2 => value_one_wexpand_too_long W heap words h1 h2,
    fun words h1 h2 => value_one_resize_grow W heap words _ h1
      (value_one_wexpand_static W heap words h1 h2),
    fun words h1 h2 => value_one_resize_grow W heap words _ h1
      (value_one_wexpand_too_long W heap words h1 h2), ?_, ?_, ?_, rfl, rfl⟩
  · intro bits h0 h1 h2
    unfold bn_expand
    rw [if_neg h0]
    exact value_one_wexpand_static W heap _ h1 h2
  · intro bits h0 h1 h2
    unfold bn_expand
    rw [if_neg h0]
    exact value_one_wexpand_too_long W heap _ h1 h2
  · intro bits h0
    unfold bn_expand
    rw [if_pos h0]

/-- C14, the claim as stated fails: on the constant one `BN_zero` reports no
failure and sets `top` to 0, `BN_set_negative(one, 1)` sets the sign, and
`BN_set_word(one, 0)` and `bn_resize_words(one, 1)` return success.  These
calls write fields of the struct only; none stores through `d`. -/
theorem value_one_not_guarded :
    BN_zero BN_value_one ≠ BN_value_one ∧
    (BN_zero BN_value_one).top = 0 ∧
    (BN_set_negative BN_value_one 1).neg = 1 ∧
    BN_set_negative BN_value_one 1 ≠ BN_value_one ∧
    BN_set_word 64 none BN_value_one 0 =
      (Status.success, { BN_value_one with top := 0 }) ∧
    bn_resize_words 64 none BN_value_one 1 = (Status.success, BN_value_one) ∧
    (BN_zero BN_value_one).d = BN_value_one.d ∧
    (BN_set_negative BN_value_one 1).d = BN_value_one.d ∧
    (BN_set_word 64 none BN_value_one 0).2.d = BN_value_one.d := by
  decide

/-- C14, amended: applied to the shared constant one, an entry point fails
with `BN_R_EXPAND_ON_STATIC_BIGNUM_DATA`, leaving the constant unchanged, only
where it has to grow the capacity: `bn_set_words` and `bn_resize_words` asked
for more than 1 and at most `INT_MAX / (4 * BN_BITS2)` words (beyond that
ceiling they fail with `BN_R_BIGNUM_TOO_LONG`, the constant unchanged too).
The calls that write fields of the struct only are not guarded by the
static-data flag and leave the words alone: `BN_zero` and `BN_set_word` with
the word 0 set `top = 0`, `BN_set_negative` with a non-zero sign sets the sign
flag, `bn_set_words` of zero words succeeds and sets `top = 0`,
`bn_resize_words(one, 1)` succeeds without a change and
`bn_resize_words(one, 0)` fails with `BN_R_BIGNUM_TOO_LONG`.  Nothing is said of
the calls that store through `d` (`BN_set_word` with a non-zero word,
`BN_clear`, `bn_set_words` of one word). -/
theorem value_one_entry_points (W : Nat) (heap : Option (Nat → Nat)) :
    (∀ buffer n, 1 < n → n ≤ INT_MAX / (4 * W) →
      bn_set_words W heap BN_value_one buffer n =
        (Status.failure BnError.BN_R_EXPAND_ON_STATIC_BIGNUM_DATA, BN_value_one)) ∧
    (∀ buffer n, 1 < n → INT_MAX / (4 * W) < n →
      bn_set_words W heap BN_value_one buffer n =
        (Status.failure BnError.BN_R_BIGNUM_TOO_LONG, BN_value_one)) ∧
    (∀ words, 1 < words → words ≤ INT_MAX / (4 * W) →
      bn_resize_words W heap BN_value_one words =
        (Status.failure BnError.BN_R_EXPAND_ON_STATIC_BIGNUM_DATA, BN_value_one)) ∧
    (∀ words, 1 < words → INT_MAX / (4 * W) < words →
      bn_resize_words W heap BN_value_one words =
        (Status.failure BnError.BN_R_BIGNUM_TOO_LONG, BN_value_one)) ∧
    BN_set_word W heap BN_value_one 0 = (Status.success, { BN_value_one with top := 0 }) ∧
    BN_zero BN_value_one = { BN_value_one with top := 0 } ∧
    (∀ s, s ≠ 0 → BN_set_negative BN_value_one s = { BN_value_one with neg := 1 }) ∧
    BN_set_negative BN_value_one 0 = BN_value_one ∧
    (∀ buffer,
      bn_set_words W heap BN_value_one buffer 0 =
        (Status.success, { BN_value_one with top := 0 })) ∧
    bn_resize_words W heap BN_value_one 1 = (Status.success, BN_value_one) ∧
    bn_resize_words W heap BN_value_one 0 =
      (Status.failure BnError.BN_R_BIGNUM_TOO_LONG, BN_value_one) := by
  refine ⟨?_, ?_, ?_, ?_, ?_, rfl, ?_, rfl, ?_, ?_, ?_⟩
  · intro buffer n h1 h2
    exact value_one_set_words_grow W heap buffer n _ (value_one_wexpand_static W heap n h1 h2)
  · intro buffer n h1 h2
    exact value_one_set_words_grow W heap buffer n _
      (value_one_wexpand_too_long W heap n h1 h2)
  · intro words h1 h2
    exact value_one_resize_grow W heap words _ h1 (value_one_wexpand_static W heap words h1 h2)
  · intro words h1 h2
    exact value_one_resize_grow W heap words _ h1
      (value_one_wexpand_too_long W heap words h1 h2)
  · unfold BN_set_word
    rw [if_pos rfl]
    rfl
  · intro s hs
    unfold BN_set_negative
    have hz : BN_is_zero BN_value_one = false := by decide
    rw [if_pos ⟨hs, by rw [hz]; rfl⟩]
  · intro buffer
    unfold bn_set_words
    rw [value_one_wexpand_small W heap 0 (Nat.zero_le 1)]
    simp [OPENSSL_memmove, BN_value_one, bn_correct_top, bn_minimal_width,
      bn_minimal_width_loop]
  · unfold bn_resize_words
    have ht : BN_value_one.top ≤ 1 := le_refl 1
    rw [if_pos ht, value_one_wexpand_small W heap 1 (le_refl 1)]
    rfl
  · unfold bn_resize_words
    have ht : ¬ BN_value_one.top ≤ 0 := by decide
    have hf : bn_fits_in_words BN_value_one 0 = false := by decide
    rw [if_neg ht, hf]
    rfl

/-! ## Resizing -/

theorem bn_fits_in_words_iff_width (bn : BIGNUM) (words : Nat) (hle : words ≤ bn.top) :
    bn_fits_in_words bn words = true ↔ bn_minimal_width bn ≤ words := by
  rw [bn_fits_in_words_iff]
  constructor
  · intro h
    exact bn_minimal_width_loop_least bn.d bn.top words hle h
  · intro h i h1 h2
    exact bn_minimal_width_loop_zero_above bn.d bn.top i (le_trans h h1) h2

theorem bn_resize_words_shrink_eq (W : Nat) (heap : Option (Nat → Nat)) (bn : BIGNUM)
    (words : Nat) (hlt : words < bn.top) :
    bn_resize_words W heap bn words =
      if bn_fits_in_words bn words = true then (Status.success, { bn with top := words })
      else (Status.failure BnError.BN_R_BIGNUM_TOO_LONG, bn) := by
  unfold bn_resize_words
  rw [if_neg (by omega)]
  by_cases hf : bn_fits_in_words bn words = true
  · simp [hf]
  · simp [hf]

/-- C15: for `words < top`, `bn_resize_words(bn, words)` succeeds if and only
if every word at an index in `[words, top)` is zero, which is
`bn_fits_in_words(bn, words)` and also `bn_minimal_width(bn) ≤ words`; when
some such word is non-zero the call fails with `BN_R_BIGNUM_TOO_LONG` and `bn`
is unchanged. -/
theorem bn_resize_words_shrink (W : Nat) (heap : Option (Nat → Nat)) (bn : BIGNUM)
    (words : Nat) (hlt : words < bn.top) :
    ((bn_resize_words W heap bn words).1 = Status.success ↔
      ∀ i, words ≤ i → i < bn.top → bn.d.getD i 0 = 0) ∧
    ((∀ i, words ≤ i → i < bn.top → bn.d.getD i 0 = 0) ↔
      bn_fits_in_words bn words = true) ∧
    (bn_fits_in_words bn words = true ↔ bn_minimal_width bn ≤ words) ∧
    ((∃ i, words ≤ i ∧ i < bn.top ∧ bn.d.getD i 0 ≠ 0) →
      bn_resize_words W heap bn words = (Status.failure BnError.BN_R_BIGNUM_TOO_LONG, bn)) := by
  have heq := bn_resize_words_shrink_eq W heap bn words hlt
  refine ⟨?_, (bn_fits_in_words_iff bn words).symm,
    bn_fits_in_words_iff_width bn words (by omega), ?_⟩
  · rw [← bn_fits_in_words_iff, heq]
    by_cases hf : bn_fits_in_words bn words = true
    · simp [hf]
    · simp [hf]
  · rintro ⟨i, h1, h2, h3⟩
    have hf : ¬ bn_fits_in_words bn words = true := by
      rw [bn_fits_in_words_iff]
      intro h
      exact h3 (h i h1 h2)
    rw [heq, if_neg hf]

theorem bn_resize_words_shrink_witness :
    2 < bn_padded.top ∧
    (bn_fits_in_words bn_padded 2 = true ↔ bn_minimal_width bn_padded ≤ 2) ∧
    bn_minimal_width bn_padded ≤ 2 :=
  ⟨by decide, (bn_resize_words_shrink 64 none bn_padded 2 (by decide)).2.2.1, by decide⟩

theorem bn_resize_words_grow_eq (W : Nat) (heap : Option (Nat → Nat)) (bn : BIGNUM)
    (words : Nat) (hle : bn.top ≤ words)
    (hok : (bn_resize_words W heap bn words).1 = Status.success) :
    (bn_wexpand W heap bn words).1 = Status.success ∧
    (bn_resize_words W heap bn words).2 =
      { (bn_wexpand W heap bn words).2 with
        d := OPENSSL_memset (bn_wexpand W heap bn words).2.d (bn_wexpand W heap bn words).2.top
          0 (words - (bn_wexpand W heap bn words).2.top),
        top := words } := by
  unfold bn_resize_words at hok ⊢
  rw [if_pos hle] at hok ⊢
  rcases hr : bn_wexpand W heap bn words with ⟨st, b⟩
  rw [hr] at hok
  cases st with
  | success => exact ⟨rfl, rfl⟩
  | failure e => cases hok

/-- The state left by a successful `bn_resize_words`, word by word. -/
theorem bn_resize_words_state (W : Nat) (heap : Option (Nat → Nat)) (bn : BIGNUM)
    (words : Nat) (hlen : bn.d.length = bn.dmax) (htop : bn.top ≤ bn.dmax)
    (hok : (bn_resize_words W heap bn words).1 = Status.success) :
    (bn_resize_words W heap bn words).2.top = words ∧
    (bn_resize_words W heap bn words).2.neg = bn.neg ∧
    (bn_resize_words W heap bn words).2.flags = bn.flags ∧
    (bn_resize_words W heap bn words).2.d.length = (bn_resize_words W heap bn words).2.dmax ∧
    words ≤ (bn_resize_words W heap bn words).2.dmax ∧
    (∀ i, i < bn.top → (bn_resize_words W heap bn words).2.d.getD i 0 = bn.d.getD i 0) ∧
    (∀ i, bn.top ≤ i → i < words → (bn_resize_words W heap bn words).2.d.getD i 0 = 0) ∧
    (words < bn.top → ∀ i, words ≤ i → i < bn.top → bn.d.getD i 0 = 0) := by
  by_cases hle : bn.top ≤ words
  · obtain ⟨hw, hst⟩ := bn_resize_words_grow_eq W heap bn words hle hok
    obtain ⟨h1, h2, _, h4, h5, h6, h7⟩ := bn_wexpand_success W heap bn words hlen htop hw
    rw [hst]
    have hoff : (bn_wexpand W heap bn words).2.top ≤ (bn_wexpand W heap bn words).2.d.length := by
      omega
    refine ⟨rfl, h5, h6, ?_, h2, ?_, ?_, fun hc => by omega⟩
    · show (OPENSSL_memset _ _ _ _).length = _
      rw [memset_length _ _ _ _ (by omega)]
      exact h1
    · intro i hi
      show (OPENSSL_memset _ _ _ _).getD i 0 = _
      rw [memset_getD _ _ _ _ hoff, if_neg (by omega)]
      exact h7 i hi
    · intro i hi1 hi2
      show (OPENSSL_memset _ _ _ _).getD i 0 = _
      rw [memset_getD _ _ _ _ hoff, if_pos ⟨by omega, by omega⟩]
  · have hlt : words < bn.top := by omega
    have heq := bn_resize_words_shrink_eq W heap bn words hlt
    rw [heq] at hok ⊢
    by_cases hf : bn_fits_in_words bn words = true
    · rw [if_pos hf]
      refine ⟨rfl, rfl, rfl, hlen, by show words ≤ bn.dmax; omega, fun _ _ => rfl,
        fun i h1 h2 => by omega, fun _ => (bn_fits_in_words_iff bn words).mp hf⟩
    · rw [if_neg hf] at hok
      cases hok

theorem bn_minimal_width_loop_resized (rd d : List Nat) (top words : Nat)
    (hkeep : ∀ i, i < top → rd.getD i 0 = d.getD i 0)
    (hzero : ∀ i, top ≤ i → i < words → rd.getD i 0 = 0)
    (hshr : words < top → ∀ i, words ≤ i → i < top → d.getD i 0 = 0) :
    bn_minimal_width_loop rd words = bn_minimal_width_loop d top := by
  by_cases hle : top ≤ words
  · obtain ⟨k, hk⟩ := Nat.exists_eq_add_of_le hle
    subst hk
    rw [bn_minimal_width_loop_zero_ext rd top k (fun i h1 h2 => hzero i h1 h2)]
    exact bn_minimal_width_loop_congr _ _ _ hkeep
  · have hlt : words < top := by omega
    obtain ⟨k, hk⟩ := Nat.exists_eq_add_of_le (Nat.le_of_lt hlt)
    subst hk
    rw [bn_minimal_width_loop_zero_ext d words k (fun i h1 h2 => hshr hlt i h1 h2)]
    exact bn_minimal_width_loop_congr _ _ _ (fun i hi => hkeep i (by omega))

/-- C16: on a BigInt whose buffer holds `dmax` words, `top ≤ dmax` of them
used, a successful `bn_resize_words(bn, words)` sets `top` to `words` exactly,
keeps every word below `min(old top, words)`, zeroes the words in
`[old top, words)`, keeps the sign, and leaves the magnitude, and with it
`BN_num_bits`, `BN_num_bytes` and `bn_minimal_width`, as before the call. -/
theorem bn_resize_words_correct (W : Nat) (heap : Option (Nat → Nat)) (bn : BIGNUM)
    (words : Nat) (hlen : bn.d.length = bn.dmax) (htop : bn.top ≤ bn.dmax)
    (hok : (bn_resize_words W heap bn words).1 = Status.success) :
    (bn_resize_words W heap bn words).2.top = words ∧
    (∀ i, i < min bn.top words →
      (bn_resize_words W heap bn words).2.d.getD i 0 = bn.d.getD i 0) ∧
    (∀ i, bn.top ≤ i → i < words → (bn_resize_words W heap bn words).2.d.getD i 0 = 0) ∧
    (bn_resize_words W heap bn words).2.neg = bn.neg ∧
    magnitude W (bn_resize_words W heap bn words).2 = magnitude W bn ∧
    BN_num_bits W (bn_resize_words W heap bn words).2 = BN_num_bits W bn ∧
    BN_num_bytes W (bn_resize_words W heap bn words).2 = BN_num_bytes W bn ∧
    bn_minimal_width (bn_resize_words W heap bn words).2 = bn_minimal_width bn := by
  obtain ⟨ht, hneg, _, _, _, hkeep, hzero, hshr⟩ :=
    bn_resize_words_state W heap bn words hlen htop hok
  have hmw : bn_minimal_width (bn_resize_words W heap bn words).2 = bn_minimal_width bn := by
    unfold bn_minimal_width
    rw [ht]
    exact bn_minimal_width_loop_resized _ bn.d bn.top words hkeep hzero hshr
  have hwords : ∀ i, i < bn_minimal_width bn →
      (bn_resize_words W heap bn words).2.d.getD i 0 = bn.d.getD i 0 :=
    fun i hi => hkeep i (lt_of_lt_of_le hi (bn_minimal_width_loop_le _ _))
  obtain ⟨hm, hb, hy⟩ := same_width_same_value W _ bn hmw hwords
  exact ⟨ht, fun i hi => hkeep i (by omega), hzero, hneg, hm, hb, hy, hmw⟩

theorem bn_resize_words_correct_witness :
    bn_padded.d.length = bn_padded.dmax ∧ bn_padded.top ≤ bn_padded.dmax ∧
    (bn_resize_words 64 (some (fun _ => 7)) bn_padded 5).1 = Status.success ∧
    (bn_resize_words 64 (some (fun _ => 7)) bn_padded 5).2.top = 5 ∧
    magnitude 64 (bn_resize_words 64 (some (fun _ => 7)) bn_padded 5).2 =
      magnitude 64 bn_padded :=
  have h := bn_resize_words_correct 64 (some (fun _ => 7)) bn_padded 5 (by decide)
    (by decide) (by decide)
  ⟨by decide, by decide, by decide, h.1, h.2.2.2.2.1⟩

/-! ## Setting a word -/

/-- The state left by a successful `BN_set_word`. -/
theorem BN_set_word_state (W : Nat) (heap : Option (Nat → Nat)) (bn : BIGNUM) (w : Nat)
    (hlen : bn.d.length = bn.dmax) (htop : bn.top ≤ bn.dmax)
    (hok : (BN_set_word W heap bn w).1 = Status.success) :
    (BN_set_word W heap bn w).2.neg = 0 ∧
    (BN_set_word W heap bn w).2.flags = bn.flags ∧
    (BN_set_word W heap bn w).2.d.length = (BN_set_word W heap bn w).2.dmax ∧
    (w = 0 → (BN_set_word W heap bn w).2 = BN_zero bn) ∧
    (w ≠ 0 → (BN_set_word W heap bn w).2.top = 1 ∧
      (BN_set_word W heap bn w).2.d.getD 0 0 = w ∧
      1 ≤ (BN_set_word W heap bn w).2.d.length) := by
  unfold BN_set_word at hok ⊢
  by_cases hw : w = 0
  · rw [if_pos hw]
    exact ⟨rfl, rfl, hlen, fun _ => rfl, fun h => absurd hw h⟩
  · rw [if_neg hw] at hok ⊢
    have hx := bn_wexpand_success W heap bn 1 hlen htop
    rcases hr : bn_wexpand W heap bn 1 with ⟨st, b⟩
    rw [hr] at hok hx
    cases st with
    | failure e => cases hok
    | success =>
      obtain ⟨h1, h2, _, _, _, h6, _⟩ := hx rfl
      have hl : b.d.length = b.dmax := h1
      have hc : 1 ≤ b.dmax := h2
      have hfl : b.flags = bn.flags := h6
      refine ⟨rfl, hfl, ?_, fun h => absurd h hw, fun _ => ⟨rfl, ?_, ?_⟩⟩
      · show (b.d.set 0 w).length = b.dmax
        rw [List.length_set]
        exact hl
      · show (b.d.set 0 w).getD 0 0 = w
        exact getD_set_self _ _ _ (by omega)
      · show 1 ≤ (b.d.set 0 w).length
        rw [List.length_set]
        omega

/-- A non-negative BigInt of one used word `w ≠ 0`, or of no used word for
`w = 0`, is canonical, has magnitude `w` and the bit length of `w`. -/
theorem one_word_value (W : Nat) (r : BIGNUM) (w : Nat) (hW : W = 32 ∨ W = 64)
    (hw : w < 2 ^ W) (hneg : r.neg = 0) (h0 : w = 0 → r.top = 0)
    (h1 : w ≠ 0 → r.top = 1 ∧ r.d.getD 0 0 = w) :
    canonical r ∧ magnitude W r = w ∧ BN_num_bits W r = BN_num_bits_word W w ∧
    BN_num_bytes W r = (BN_num_bits_word W w + 7) / 8 := by
  have hle := BN_num_bits_word_le W w hW hw
  have hW64 : W ≤ 64 := by rcases hW with rfl | rfl <;> decide
  have hbits : BN_num_bits W r = BN_num_bits_word W w := by
    unfold BN_num_bits bn_minimal_width
    by_cases hz : w = 0
    · rw [h0 hz, hz, BN_num_bits_word_eq_size hW (by rw [← hz]; exact hw), Nat.size_zero]
      rfl
    · obtain ⟨ht, hd⟩ := h1 hz
      rw [ht]
      have hloop : bn_minimal_width_loop r.d 1 = 1 := by
        apply bn_minimal_width_loop_fix
        right
        show r.d.getD 0 0 ≠ 0
        rw [hd]
        exact hz
      simp only [hloop]
      rw [if_neg Nat.one_ne_zero]
      show (0 * W + BN_num_bits_word W (r.d.getD 0 0)) % 2 ^ 32 = _
      rw [hd, Nat.zero_mul, Nat.zero_add]
      apply Nat.mod_eq_of_lt
      have : (64 : Nat) < 2 ^ 32 := by decide
      omega
  refine ⟨?_, ?_, hbits, ?_⟩
  · by_cases hz : w = 0
    · exact Or.inl ⟨h0 hz, hneg⟩
    · obtain ⟨ht, hd⟩ := h1 hz
      right
      rw [ht]
      exact ⟨Nat.one_ne_zero, by show r.d.getD 0 0 ≠ 0; rw [hd]; exact hz⟩
  · unfold magnitude
    by_cases hz : w = 0
    · rw [h0 hz, hz]
      rfl
    · obtain ⟨ht, hd⟩ := h1 hz
      rw [ht]
      show r.d.getD 0 0 + 2 ^ W * 0 = w
      rw [hd]
      omega
  · unfold BN_num_bytes
    rw [hbits]
    congr 1
    apply Nat.mod_eq_of_lt
    have : (64 : Nat) + 7 < 2 ^ 32 := by decide
    omega

theorem getD_set_other (l : List Nat) (i j x : Nat) (h : i ≠ j) :
    (l.set j x).getD i 0 = l.getD i 0 := by
  simp [List.getD_eq_getElem?_getD, List.getElem?_set, Ne.symm h]

theorem take_two_eq (l : List Nat) (h : 2 ≤ l.length) :
    l.take 2 = [l.getD 0 0, l.getD 1 0] := by
  match l, h with
  | a :: b :: rest, _ => rfl

/-- The state left by a successful `BN_set_u64` of a value that needs two
32-bit words. -/
theorem BN_set_u64_large_state (heap : Option (Nat → Nat)) (bn : BIGNUM) (v : Nat)
    (hbig : ¬ v ≤ 2 ^ 32 - 1) (hlen : bn.d.length = bn.dmax) (htop : bn.top ≤ bn.dmax)
    (hok : (BN_set_u64 32 heap bn v).1 = Status.success) :
    (BN_set_u64 32 heap bn v).2.neg = 0 ∧
    (BN_set_u64 32 heap bn v).2.top = 2 ∧
    (BN_set_u64 32 heap bn v).2.d.getD 0 0 = v % 2 ^ 32 ∧
    (BN_set_u64 32 heap bn v).2.d.getD 1 0 = (v >>> 32) % 2 ^ 32 ∧
    2 ≤ (BN_set_u64 32 heap bn v).2.d.length := by
  unfold BN_set_u64 at hok ⊢
  have h64 : ¬ (32 : Nat) = 64 := by decide
  rw [if_neg h64, if_neg hbig] at hok ⊢
  have hx := bn_wexpand_success 32 heap bn 2 hlen htop
  rcases hr : bn_wexpand 32 heap bn 2 with ⟨st, b⟩
  rw [hr] at hok hx
  cases st with
  | failure e => cases hok
  | success =>
    obtain ⟨h1, h2, _, _, _, _, _⟩ := hx rfl
    have hl : b.d.length = b.dmax := h1
    have hc : 2 ≤ b.dmax := h2
    refine ⟨rfl, rfl, ?_, ?_, ?_⟩
    · show ((b.d.set 0 (v % 2 ^ 32)).set 1 ((v >>> 32) % 2 ^ 32)).getD 0 0 = _
      rw [getD_set_other _ _ _ _ (by decide), getD_set_self _ _ _ (by omega)]
    · show ((b.d.set 0 (v % 2 ^ 32)).set 1 ((v >>> 32) % 2 ^ 32)).getD 1 0 = _
      rw [getD_set_self _ _ _ (by rw [List.length_set]; omega)]
    · show 2 ≤ ((b.d.set 0 (v % 2 ^ 32)).set 1 ((v >>> 32) % 2 ^ 32)).length
      rw [List.length_set, List.length_set]
      omega

/-- A non-negative BigInt of two used 32-bit words `lo`, `hi` with `hi ≠ 0` is
canonical, has magnitude `lo + 2^32 * hi` and the bit length of that number. -/
theorem two_word_value (r : BIGNUM) (lo hi : Nat) (ht : r.top = 2)
    (h0 : r.d.getD 0 0 = lo) (h1 : r.d.getD 1 0 = hi)
    (hlo : lo < 2 ^ 32) (hhi : hi < 2 ^ 32) (hnz : hi ≠ 0) :
    canonical r ∧ magnitude 32 r = lo + 2 ^ 32 * hi ∧
    BN_num_bits 32 r = Nat.size (lo + 2 ^ 32 * hi) := by
  refine ⟨?_, ?_, ?_⟩
  · right
    rw [ht]
    exact ⟨by decide, by show r.d.getD 1 0 ≠ 0; rw [h1]; exact hnz⟩
  · unfold magnitude
    rw [ht]
    show r.d.getD 0 0 + 2 ^ 32 * (r.d.getD 1 0 + 2 ^ 32 * 0) = _
    rw [h0, h1]
    omega
  · have hloop : bn_minimal_width_loop r.d 2 = 2 := by
      apply bn_minimal_width_loop_fix
      right
      show r.d.getD 1 0 ≠ 0
      rw [h1]
      exact hnz
    have hle := BN_num_bits_word_le 32 hi (Or.inl rfl) hhi
    unfold BN_num_bits bn_minimal_width
    rw [ht]
    simp only [hloop]
    rw [if_neg (by decide)]
    show (1 * 32 + BN_num_bits_word 32 (r.d.getD 1 0)) % 2 ^ 32 = _
    rw [h1, size_add_shifted hlo hnz, BN_num_bits_word_eq_size (Or.inl rfl) hhi]
    apply Nat.mod_eq_of_lt
    have hs : Nat.size hi ≤ 32 := Nat.size_le.mpr hhi
    have : (64 : Nat) < 2 ^ 32 := by decide
    omega

theorem BN_set_u64_small_eq (heap : Option (Nat → Nat)) (bn : BIGNUM) (v : Nat)
    (hsmall : v ≤ 2 ^ 32 - 1) : BN_set_u64 32 heap bn v = BN_set_word 32 heap bn v := by
  unfold BN_set_u64
  have h64 : ¬ (32 : Nat) = 64 := by decide
  rw [if_neg h64, if_pos hsmall, Nat.mod_eq_of_lt (by omega)]

/-- C18: with a 32-bit word, on a BigInt whose buffer holds `dmax` words,
`top ≤ dmax` of them used, a successful `BN_set_u64(bn, v)` of a 64-bit value
leaves `bn` non-negative and canonical with magnitude `d[0] + 2^32 * d[1] = v`;
`top` is 0, 1 or 2 according to `v == 0`, `0 < v < 2^32`, `v ≥ 2^32`;
`BN_num_bits` is the bit length of `v`.  For `v = 0x1_0000_0001` this gives
`top == 2`, used words `[1, 1]` and 33 bits.  With a 64-bit word `BN_set_u64`
is `BN_set_word`. -/
theorem BN_set_u64_correct (heap : Option (Nat → Nat)) (bn : BIGNUM) (v : Nat)
    (hv : v < 2 ^ 64) (hlen : bn.d.length = bn.dmax) (htop : bn.top ≤ bn.dmax)
    (hok : (BN_set_u64 32 heap bn v).1 = Status.success) :
    (BN_set_u64 32 heap bn v).2.neg = 0 ∧
    canonical (BN_set_u64 32 heap bn v).2 ∧
    magnitude 32 (BN_set_u64 32 heap bn v).2 = v ∧
    (v = 0 → (BN_set_u64 32 heap bn v).2.top = 0) ∧
    (0 < v → v < 2 ^ 32 →
      (BN_set_u64 32 heap bn v).2.top = 1 ∧ (BN_set_u64 32 heap bn v).2.d.getD 0 0 = v) ∧
    (2 ^ 32 ≤ v →
      (BN_set_u64 32 heap bn v).2.top = 2 ∧
      (BN_set_u64 32 heap bn v).2.d.getD 0 0 = v % 2 ^ 32 ∧
      (BN_set_u64 32 heap bn v).2.d.getD 1 0 = v / 2 ^ 32 ∧
      (BN_set_u64 32 heap bn v).2.d.getD 0 0 +
        2 ^ 32 * (BN_set_u64 32 heap bn v).2.d.getD 1 0 = v) ∧
    BN_num_bits 32 (BN_set_u64 32 heap bn v).2 = Nat.size v ∧
    (v = 0x100000001 →
      (BN_set_u64 32 heap bn v).2.top = 2 ∧
      (BN_set_u64 32 heap bn v).2.d.take 2 = [1, 1] ∧
      BN_num_bits 32 (BN_set_u64 32 heap bn v).2 = 33) ∧
    (∀ heap2 bn2 v2, BN_set_u64 64 heap2 bn2 v2 = BN_set_word 64 heap2 bn2 v2) := by
  have hlast : ∀ heap2 bn2 v2, BN_set_u64 64 heap2 bn2 v2 = BN_set_word 64 heap2 bn2 v2 := by
    intro heap2 bn2 v2
    unfold BN_set_u64
    rw [if_pos rfl]
  by_cases hsmall : v ≤ 2 ^ 32 - 1
  · have hlt : v < 2 ^ 32 := by omega
    have heq := BN_set_u64_small_eq heap bn v hsmall
    rw [heq] at hok ⊢
    obtain ⟨hneg, _, _, hz, hnz⟩ := BN_set_word_state 32 heap bn v hlen htop hok
    have h0 : v = 0 → (BN_set_word 32 heap bn v).2.top = 0 := by
      intro h; rw [hz h]; rfl
    obtain ⟨hc, hm, hb, _⟩ := one_word_value 32 _ v (Or.inl rfl) hlt hneg h0
      (fun h => ⟨(hnz h).1, (hnz h).2.1⟩)
    refine ⟨hneg, hc, hm, h0, ?_, fun h => by omega, ?_, fun h => by omega, hlast⟩
    · intro hpos _
      exact ⟨(hnz (by omega)).1, (hnz (by omega)).2.1⟩
    · rw [hb, BN_num_bits_word_eq_size (Or.inl rfl) hlt]
  · obtain ⟨hneg, ht, hd0, hd1, hl2⟩ := BN_set_u64_large_state heap bn v hsmall hlen htop hok
    have hge : 2 ^ 32 ≤ v := by omega
    have hhi : (v >>> 32) % 2 ^ 32 = v / 2 ^ 32 := by
      rw [Nat.shiftRight_eq_div_pow]
      apply Nat.mod_eq_of_lt
      omega
    rw [hhi] at hd1
    have hsplit : v % 2 ^ 32 + 2 ^ 32 * (v / 2 ^ 32) = v := Nat.mod_add_div v (2 ^ 32)
    obtain ⟨hc, hm, hb⟩ := two_word_value (BN_set_u64 32 heap bn v).2 (v % 2 ^ 32)
      (v / 2 ^ 32) ht hd0 hd1 (Nat.mod_lt _ (by decide)) (by omega) (by omega)
    rw [hsplit] at hm hb
    refine ⟨hneg, hc, hm, fun h => by omega, fun _ h => by omega, ?_, hb, ?_, hlast⟩
    · intro _
      exact ⟨ht, hd0, hd1, by rw [hd0, hd1]; exact hsplit⟩
    · intro hval
      refine ⟨ht, ?_, ?_⟩
      · rw [take_two_eq _ hl2, hd0, hd1, hval]
        decide
      · rw [hb, hval]
        apply le_antisymm
        · exact Nat.size_le.mpr (by decide)
        · exact Nat.lt_size.mpr (by decide)

theorem BN_set_u64_correct_witness :
    4294967297 < 2 ^ 64 ∧ BN_new.d.length = BN_new.dmax ∧ BN_new.top ≤ BN_new.dmax ∧
    (BN_set_u64 32 (some (fun _ => 7)) BN_new 4294967297).1 = Status.success ∧
    (BN_set_u64 32 (some (fun _ => 7)) BN_new 4294967297).2.top = 2 ∧
    (BN_set_u64 32 (some (fun _ => 7)) BN_new 4294967297).2.d.take 2 = [1, 1] ∧
    BN_num_bits 32 (BN_set_u64 32 (some (fun _ => 7)) BN_new 4294967297).2 = 33 :=
  have h := BN_set_u64_correct (some (fun _ => 7)) BN_new 4294967297 (by decide) (by decide)
    (by decide) (by decide)
  ⟨by decide, by decide, by decide, by decide, (h.2.2.2.2.2.2.2.1 rfl).1,
    (h.2.2.2.2.2.2.2.1 rfl).2.1, (h.2.2.2.2.2.2.2.1 rfl).2.2⟩

/-! ## Loading a buffer -/

theorem take_eq_of_getD (l v : List Nat) (n : Nat) (hv : v.length = n) (hl : n ≤ l.length)
    (h : ∀ i, i < n → l.getD i 0 = v.getD i 0) : l.take n = v := by
  apply List.ext_getElem?
  intro i
  by_cases hi : i < n
  · have h1 := h i hi
    rw [List.getD_eq_getElem?_getD, List.getD_eq_getElem?_getD] at h1
    rw [List.getElem?_take_of_lt hi]
    have h2 : i < l.length := by omega
    have h3 : i < v.length := by omega
    rw [List.getElem?_eq_getElem h2] at h1 ⊢
    rw [List.getElem?_eq_getElem h3] at h1 ⊢
    simpa using h1
  · rw [List.getElem?_eq_none (by rw [List.length_take]; omega),
      List.getElem?_eq_none (by omega)]

/-- C19, the claim as stated fails: the buffer with the words 0, 0, 5 at the
indices 0, 1, 2 has a non-zero top word, so `bn_set_words` leaves `top == 3`,
not 1, and no word is discarded. -/
theorem bn_set_words_keeps_low_zero_words :
    (bn_set_words 64 (some (fun _ => 7)) BN_new [0, 0, 5] 3).1 = Status.success ∧
    (bn_set_words 64 (some (fun _ => 7)) BN_new [0, 0, 5] 3).2.top = 3 ∧
    (bn_set_words 64 (some (fun _ => 7)) BN_new [0, 0, 5] 3).2.top ≠ 1 ∧
    (bn_set_words 64 (some (fun _ => 7)) BN_new [0, 0, 5] 3).2.d = [0, 0, 5] := by
  decide

/-- C19, amended: on a BigInt whose buffer holds `dmax` words, `top ≤ dmax` of
them used, a successful `bn_set_words(bn, buffer, n)` stores the `n` words
verbatim, sets `top` to the minimal width of the loaded words and clears the
sign, leaving a canonical BigInt.  For the buffer with the words 0, 0, 5 at
the indices 0, 1, 2 that is `top == 3` with the used words 0, 0, 5; it is the
buffer 5, 0, 0 that is trimmed to `top == 1` with the single used word 5. -/
theorem bn_set_words_correct (W : Nat) (heap : Option (Nat → Nat)) (bn : BIGNUM)
    (v : List Nat) (n : Nat) (hv : v.length = n)
    (hlen : bn.d.length = bn.dmax) (htop : bn.top ≤ bn.dmax)
    (hok : (bn_set_words W heap bn v n).1 = Status.success) :
    (bn_set_words W heap bn v n).2.neg = 0 ∧
    (bn_set_words W heap bn v n).2.top = bn_minimal_width_loop v n ∧
    (∀ i, i < n → (bn_set_words W heap bn v n).2.d.getD i 0 = v.getD i 0) ∧
    (bn_set_words W heap bn v n).2.d.take n = v ∧
    canonical (bn_set_words W heap bn v n).2 ∧
    (v = [0, 0, 5] →
      (bn_set_words W heap bn v n).2.top = 3 ∧
      (bn_set_words W heap bn v n).2.d.take 3 = [0, 0, 5]) ∧
    (v = [5, 0, 0] →
      (bn_set_words W heap bn v n).2.top = 1 ∧
      (bn_set_words W heap bn v n).2.d.getD 0 0 = 5) := by
  obtain ⟨hneg, ht, _, hn, hget⟩ := bn_set_words_state W heap bn v n hv hlen htop hok
  have htake := take_eq_of_getD _ v n hv hn hget
  refine ⟨hneg, ht, hget, htake, ?_, ?_, ?_⟩
  · by_cases h0 : bn_minimal_width_loop v n = 0
    · exact Or.inl ⟨by rw [ht]; exact h0, hneg⟩
    · right
      rw [ht]
      refine ⟨h0, ?_⟩
      have hlt : bn_minimal_width_loop v n - 1 < n := by
        have := bn_minimal_width_loop_le v n
        omega
      rw [hget _ hlt]
      exact bn_minimal_width_loop_top v n h0
  · intro h
    subst h
    have hn3 : n = 3 := hv.symm
    subst hn3
    exact ⟨ht, htake⟩
  · intro h
    subst h
    have hn3 : n = 3 := hv.symm
    subst hn3
    exact ⟨ht, hget 0 (by decide)⟩

theorem bn_set_words_correct_witness :
    [0, 0, 5].length = 3 ∧ BN_new.d.length = BN_new.dmax ∧ BN_new.top ≤ BN_new.dmax ∧
    (bn_set_words 64 (some (fun _ => 7)) BN_new [0, 0, 5] 3).1 = Status.success ∧
    (bn_set_words 64 (some (fun _ => 7)) BN_new [0, 0, 5] 3).2.top = 3 ∧
    (bn_set_words 64 (some (fun _ => 7)) BN_new [0, 0, 5] 3).2.d.take 3 = [0, 0, 5] :=
  have h := bn_set_words_correct 64 (some (fun _ => 7)) BN_new [0, 0, 5] 3 rfl (by decide)
    (by decide) (by decide)
  ⟨rfl, by decide, by decide, by decide, (h.2.2.2.2.2.1 rfl).1, (h.2.2.2.2.2.1 rfl).2⟩

/-! ## Copying -/

/-- The state left by a successful `BN_copy` between distinct BigInts. -/
theorem BN_copy_state (W : Nat) (heap : Option (Nat → Nat)) (dest src : BIGNUM)
    (hlen : dest.d.length = dest.dmax) (htop : dest.top ≤ dest.dmax)
    (hsrc : src.top ≤ src.d.length)
    (hok : (BN_copy W heap dest src false).1 = Status.success) :
    (BN_copy W heap dest src false).2.top = src.top ∧
    (BN_copy W heap dest src false).2.neg = src.neg ∧
    (BN_copy W heap dest src false).2.flags = dest.flags ∧
    (BN_copy W heap dest src false).2.d.length = (BN_copy W heap dest src false).2.dmax ∧
    src.top ≤ (BN_copy W heap dest src false).2.dmax ∧
    dest.dmax ≤ (BN_copy W heap dest src false).2.dmax ∧
    (∀ i, i < src.top → (BN_copy W heap dest src false).2.d.getD i 0 = src.d.getD i 0) := by
  unfold BN_copy at hok ⊢
  simp only [Bool.false_eq_true, if_false] at hok ⊢
  have hx := bn_wexpand_success W heap dest src.top hlen htop
  rcases hr : bn_wexpand W heap dest src.top with ⟨st, b⟩
  rw [hr] at hok hx
  cases st with
  | failure e => cases hok
  | success =>
    obtain ⟨h1, h2, h3, _, _, h6, _⟩ := hx rfl
    have hl : b.d.length = b.dmax := h1
    have hc : src.top ≤ b.dmax := h2
    have hg : dest.dmax ≤ b.dmax := h3
    have hf : b.flags = dest.flags := h6
    refine ⟨rfl, rfl, hf, ?_, hc, hg, ?_⟩
    · show (OPENSSL_memcpy b.d src.d src.top).length = b.dmax
      rw [memcpy_length _ _ _ hsrc (by omega)]
      exact hl
    · intro i hi
      show (OPENSSL_memcpy b.d src.d src.top).getD i 0 = _
      rw [memcpy_getD _ _ _ _ hsrc, if_pos hi]

theorem same_words_same_canonical (a b : BIGNUM) (ht : a.top = b.top) (hn : a.neg = b.neg)
    (hd : ∀ i, i < b.top → a.d.getD i 0 = b.d.getD i 0) (hc : canonical b) : canonical a := by
  rcases hc with ⟨h0, h1⟩ | ⟨h0, h1⟩
  · exact Or.inl ⟨by rw [ht]; exact h0, by rw [hn]; exact h1⟩
  · right
    rw [ht]
    exact ⟨h0, by rw [hd _ (by omega)]; exact h1⟩

theorem bn_wexpand_ok (W : Nat) (g : Nat → Nat) (bn : BIGNUM) (words : Nat)
    (h1 : words ≤ INT_MAX / (4 * W)) (h2 : bn.flags &&& BN_FLG_STATIC_DATA = 0) :
    (bn_wexpand W (some g) bn words).1 = Status.success := by
  unfold bn_wexpand
  by_cases hc : words ≤ bn.dmax
  · rw [if_pos hc]
  · rw [if_neg hc, if_neg (by omega), if_neg (by simp [h2])]
    rfl

theorem BN_dup_some (W : Nat) (handle : Bool) (heap : Option (Nat → Nat)) (src c : BIGNUM)
    (h : BN_dup W handle heap src = some c) :
    BN_copy W heap BN_new src false = (Status.success, c) := by
  unfold BN_dup at h
  cases handle with
  | false => simp at h
  | true =>
    simp only [Bool.not_true, Bool.false_eq_true, if_false] at h
    rcases hr : BN_copy W heap BN_new src false with ⟨st, b⟩
    rw [hr] at h
    cases st with
    | failure e => simp at h
    | success =>
      simp only [Option.some.injEq] at h
      rw [h]

/-- C20: for distinct BigInts, with `dest` holding `dmax` words, `top ≤ dmax`
of them used, and `src` holding its `top` used words, a successful
`BN_copy(dest, src)` leaves `dest` with the used length, the sign and the used
words of `src`, hence the same magnitude, canonical whenever `src` is, with
`dmax ≥ src.top`; `src` is read only.  When `dest` and `src` are the same
BigInt the call succeeds and changes nothing.  `BN_dup(src)`, when it returns
a BigInt, returns a heap-owned one related to `src` in the same way; it does
return one when both allocations succeed and `src.top` is within the ceiling
of `bn_wexpand`. -/
theorem BN_copy_correct (W : Nat) (heap : Option (Nat → Nat)) (dest src : BIGNUM)
    (hlen : dest.d.length = dest.dmax) (htop : dest.top ≤ dest.dmax)
    (hsrc : src.top ≤ src.d.length) :
    ((BN_copy W heap dest src false).1 = Status.success →
      (BN_copy W heap dest src false).2.top = src.top ∧
      (BN_copy W heap dest src false).2.neg = src.neg ∧
      (∀ i, i < src.top → (BN_copy W heap dest src false).2.d.getD i 0 = src.d.getD i 0) ∧
      magnitude W (BN_copy W heap dest src false).2 = magnitude W src ∧
      (canonical src → canonical (BN_copy W heap dest src false).2) ∧
      src.top ≤ (BN_copy W heap dest src false).2.dmax ∧
      (BN_copy W heap dest src false).2.flags = dest.flags) ∧
    BN_copy W heap dest dest true = (Status.success, dest) ∧
    (∀ handle c, BN_dup W handle heap src = some c →
      c.top = src.top ∧ c.neg = src.neg ∧
      (∀ i, i < src.top → c.d.getD i 0 = src.d.getD i 0) ∧
      magnitude W c = magnitude W src ∧
      (canonical src → canonical c) ∧
      src.top ≤ c.dmax ∧
      c.flags = BN_FLG_MALLOCED) ∧
    BN_dup W false heap src = none ∧
    (∀ g, src.top ≤ INT_MAX / (4 * W) → (BN_dup W true (some g) src).isSome = true) := by
  refine ⟨?_, rfl, ?_, rfl, ?_⟩
  · intro hok
    obtain ⟨h1, h2, h3, _, h5, _, h7⟩ := BN_copy_state W heap dest src hlen htop hsrc hok
    exact ⟨h1, h2, h7, (same_words_same_value W _ src h1 h7).1,
      same_words_same_canonical _ src h1 h2 h7, h5, h3⟩
  · intro handle c hc
    have hcopy := BN_dup_some W handle heap src c hc
    have hok : (BN_copy W heap BN_new src false).1 = Status.success := by rw [hcopy]
    obtain ⟨h1, h2, h3, _, h5, _, h7⟩ :=
      BN_copy_state W heap BN_new src rfl (le_refl _) hsrc hok
    rw [hcopy] at h1 h2 h3 h5 h7
    exact ⟨h1, h2, h7, (same_words_same_value W c src h1 h7).1,
      same_words_same_canonical c src h1 h2 h7, h5, h3⟩
  · intro g hceil
    have hw := bn_wexpand_ok W g BN_new src.top hceil (by decide)
    unfold BN_dup BN_copy
    simp only [Bool.not_true, Bool.false_eq_true, if_false]
    rcases hr : bn_wexpand W (some g) BN_new src.top with ⟨st, b⟩
    rw [hr] at hw
    cases st with
    | failure e => cases hw
    | success => rfl

theorem BN_copy_correct_witness :
    BN_new.d.length = BN_new.dmax ∧ BN_new.top ≤ BN_new.dmax ∧
    bn_minus_seven.top ≤ bn_minus_seven.d.length ∧
    (BN_copy 64 (some (fun _ => 7)) BN_new bn_minus_seven false).1 = Status.success ∧
    (BN_copy 64 (some (fun _ => 7)) BN_new bn_minus_seven false).2.top = bn_minus_seven.top ∧
    (BN_copy 64 (some (fun _ => 7)) BN_new bn_minus_seven false).2.neg = bn_minus_seven.neg ∧
    BN_copy 64 (some (fun _ => 7)) BN_new BN_new true = (Status.success, BN_new) :=
  have h := BN_copy_correct 64 (some (fun _ => 7)) BN_new bn_minus_seven (by decide)
    (by decide) (by decide)
  ⟨by decide, by decide, by decide, by decide, (h.1 (by decide)).1, (h.1 (by decide)).2.1,
    h.2.1⟩

/-! ## Used length, capacity and the ceiling along sequences of calls -/

/-- What `bn_wexpand` does to the fields other than the buffer, whatever its
outcome: the used length, sign and flags stay, the capacity does not shrink and
changes only to a value within the ceiling. -/
theorem bn_wexpand_fields (W : Nat) (heap : Option (Nat → Nat)) (bn : BIGNUM) (words : Nat) :
    (bn_wexpand W heap bn words).2.top = bn.top ∧
    bn.dmax ≤ (bn_wexpand W heap bn words).2.dmax ∧
    ((bn_wexpand W heap bn words).2.dmax = bn.dmax ∨
      (bn_wexpand W heap bn words).2.dmax ≤ INT_MAX / (4 * W)) ∧
    ((bn_wexpand W heap bn words).1 = Status.success →
      words ≤ (bn_wexpand W heap bn words).2.dmax) := by
  rcases bn_wexpand_cases W heap bn words with ⟨h1, hr⟩ | ⟨_, e, hr⟩ | ⟨h1, h2, _, g, _, hr⟩
  · rw [hr]
    exact ⟨rfl, le_refl _, Or.inl rfl, fun _ => h1⟩
  · rw [hr]
    exact ⟨rfl, le_refl _, Or.inl rfl, fun h => by cases h⟩
  · rw [hr]
    exact ⟨rfl, by show bn.dmax ≤ words; omega, Or.inr h2, fun _ => le_refl _⟩

theorem keeps_bounds_after_wexpand (W : Nat) (heap : Option (Nat → Nat)) (bn : BIGNUM)
    (words newtop : Nat) (b : BIGNUM) (st : Status) (htop : bn.top ≤ bn.dmax)
    (hr : bn_wexpand W heap bn words = (st, b))
    (hnew : st = Status.success → newtop ≤ words) (hold : st ≠ Status.success → newtop = bn.top)
    (r : BIGNUM) (hrt : r.top = newtop) (hrd : r.dmax = b.dmax) : keeps_bounds W bn r := by
  have hx := bn_wexpand_fields W heap bn words
  rw [hr] at hx
  obtain ⟨_, hm, hc, hs⟩ := hx
  have hm2 : bn.dmax ≤ b.dmax := hm
  have hc2 : b.dmax = bn.dmax ∨ b.dmax ≤ INT_MAX / (4 * W) := hc
  refine ⟨?_, by rw [hrd]; exact hm2, by rw [hrd]; exact hc2⟩
  rw [hrt, hrd]
  by_cases hst : st = Status.success
  · have h1 : words ≤ b.dmax := hs hst
    have h2 := hnew hst
    omega
  · have h2 := hold hst
    omega

theorem keeps_bounds_same (W : Nat) (bn r : BIGNUM) (htop : bn.top ≤ bn.dmax)
    (hrt : r.top ≤ bn.top) (hrd : r.dmax = bn.dmax) : keeps_bounds W bn r :=
  ⟨by rw [hrd]; omega, by rw [hrd], Or.inl hrd⟩

theorem keeps_bounds_set_word (W : Nat) (heap : Option (Nat → Nat)) (bn : BIGNUM) (w : Nat)
    (htop : bn.top ≤ bn.dmax) : keeps_bounds W bn (BN_set_word W heap bn w).2 := by
  unfold BN_set_word
  by_cases hw : w = 0
  · rw [if_pos hw]
    exact keeps_bounds_same W bn _ htop (Nat.zero_le _) rfl
  · rw [if_neg hw]
    rcases hr : bn_wexpand W heap bn 1 with ⟨st, b⟩
    have ht : b.top = bn.top := by
      have := (bn_wexpand_fields W heap bn 1).1
      rw [hr] at this
      exact this
    cases st with
    | failure e =>
      exact keeps_bounds_after_wexpand W heap bn 1 bn.top b _ htop hr
        (fun h => by cases h) (fun _ => rfl) _ ht rfl
    | success =>
      exact keeps_bounds_after_wexpand W heap bn 1 1 b _ htop hr
        (fun _ => le_refl 1) (fun h => absurd rfl h) _ rfl rfl

theorem keeps_bounds_set_u64 (W : Nat) (heap : Option (Nat → Nat)) (bn : BIGNUM) (v : Nat)
    (htop : bn.top ≤ bn.dmax) : keeps_bounds W bn (BN_set_u64 W heap bn v).2 := by
  unfold BN_set_u64
  by_cases h64 : W = 64
  · rw [if_pos h64]
    exact keeps_bounds_set_word W heap bn v htop
  · rw [if_neg h64]
    by_cases hs : v ≤ 2 ^ 32 - 1
    · rw [if_pos hs]
      exact keeps_bounds_set_word W heap bn _ htop
    · rw [if_neg hs]
      rcases hr : bn_wexpand W heap bn 2 with ⟨st, b⟩
      have ht : b.top = bn.top := by
        have := (bn_wexpand_fields W heap bn 2).1
        rw [hr] at this
        exact this
      cases st with
      | failure e =>
        exact keeps_bounds_after_wexpand W heap bn 2 bn.top b _ htop hr
          (fun h => by cases h) (fun _ => rfl) _ ht rfl
      | success =>
        exact keeps_bounds_after_wexpand W heap bn 2 2 b _ htop hr
          (fun _ => le_refl 2) (fun h => absurd rfl h) _ rfl rfl

theorem keeps_bounds_set_words (W : Nat) (heap : Option (Nat → Nat)) (bn : BIGNUM)
    (v : List Nat) (n : Nat) (htop : bn.top ≤ bn.dmax) :
    keeps_bounds W bn (bn_set_words W heap bn v n).2 := by
  unfold bn_set_words
  rcases hr : bn_wexpand W heap bn n with ⟨st, b⟩
  have ht : b.top = bn.top := by
    have := (bn_wexpand_fields W heap bn n).1
    rw [hr] at this
    exact this
  cases st with
  | failure e =>
    exact keeps_bounds_after_wexpand W heap bn n bn.top b _ htop hr
      (fun h => by cases h) (fun _ => rfl) _ ht rfl
  | success =>
    refine keeps_bounds_after_wexpand W heap bn n
      (bn_minimal_width_loop (OPENSSL_memmove b.d v n) n) b _ htop hr
      (fun _ => bn_minimal_width_loop_le _ _) (fun h => absurd rfl h) _ ?_ ?_
    · show (bn_correct_top _).top = _
      rw [bn_correct_top_top]
      rfl
    · show (bn_correct_top _).dmax = _
      rw [bn_correct_top_dmax]

theorem keeps_bounds_copy (W : Nat) (heap : Option (Nat → Nat)) (dest src : BIGNUM)
    (same : Bool) (htop : dest.top ≤ dest.dmax) :
    keeps_bounds W dest (BN_copy W heap dest src same).2 := by
  unfold BN_copy
  cases same with
  | true => exact keeps_bounds_same W dest _ htop (le_refl _) rfl
  | false =>
    simp only [Bool.false_eq_true, if_false]
    rcases hr : bn_wexpand W heap dest src.top with ⟨st, b⟩
    have ht : b.top = dest.top := by
      have := (bn_wexpand_fields W heap dest src.top).1
      rw [hr] at this
      exact this
    cases st with
    | failure e =>
      exact keeps_bounds_after_wexpand W heap dest src.top dest.top b _ htop hr
        (fun h => by cases h) (fun _ => rfl) _ ht rfl
    | success =>
      exact keeps_bounds_after_wexpand W heap dest src.top src.top b _ htop hr
        (fun _ => le_refl _) (fun h => absurd rfl h) _ rfl rfl

theorem keeps_bounds_wexpand (W : Nat) (heap : Option (Nat → Nat)) (bn : BIGNUM)
    (words : Nat) (htop : bn.top ≤ bn.dmax) :
    keeps_bounds W bn (bn_wexpand W heap bn words).2 := by
  obtain ⟨ht, hm, hc, _⟩ := bn_wexpand_fields W heap bn words
  exact ⟨by rw [ht]; omega, hm, hc⟩

theorem keeps_bounds_expand (W sb : Nat) (heap : Option (Nat → Nat)) (bn : BIGNUM)
    (bits : Nat) (htop : bn.top ≤ bn.dmax) :
    keeps_bounds W bn (bn_expand W sb heap bn bits).2 := by
  unfold bn_expand
  split
  · exact keeps_bounds_same W bn _ htop (le_refl _) rfl
  · exact keeps_bounds_wexpand W heap bn _ htop

theorem keeps_bounds_resize (W : Nat) (heap : Option (Nat → Nat)) (bn : BIGNUM)
    (words : Nat) (htop : bn.top ≤ bn.dmax) :
    keeps_bounds W bn (bn_resize_words W heap bn words).2 := by
  unfold bn_resize_words
  by_cases hle : bn.top ≤ words
  · rw [if_pos hle]
    rcases hr : bn_wexpand W heap bn words with ⟨st, b⟩
    have ht : b.top = bn.top := by
      have := (bn_wexpand_fields W heap bn words).1
      rw [hr] at this
      exact this
    cases st with
    | failure e =>
      exact keeps_bounds_after_wexpand W heap bn words bn.top b _ htop hr
        (fun h => by cases h) (fun _ => rfl) _ ht rfl
    | success =>
      exact keeps_bounds_after_wexpand W heap bn words words b _ htop hr
        (fun _ => le_refl _) (fun h => absurd rfl h) _ rfl rfl
  · rw [if_neg hle]
    by_cases hf : bn_fits_in_words bn words = true
    · simp only [hf, Bool.not_true, Bool.false_eq_true, if_false]
      exact keeps_bounds_same W bn _ htop (by show words ≤ bn.top; omega) rfl
    · simp only [hf, Bool.not_false, if_true]
      exact keeps_bounds_same W bn _ htop (le_refl _) rfl

theorem keeps_bounds_set_negative (W : Nat) (bn : BIGNUM) (s : Int)
    (htop : bn.top ≤ bn.dmax) : keeps_bounds W bn (BN_set_negative bn s) := by
  unfold BN_set_negative
  split
  · exact keeps_bounds_same W bn _ htop (le_refl _) rfl
  · exact keeps_bounds_same W bn _ htop (le_refl _) rfl

theorem keeps_bounds_correct_top (W : Nat) (bn : BIGNUM) (htop : bn.top ≤ bn.dmax) :
    keeps_bounds W bn (bn_correct_top bn) :=
  keeps_bounds_same W bn _ htop
    (by rw [bn_correct_top_top]; exact bn_minimal_width_loop_le _ _) (bn_correct_top_dmax bn)

theorem keeps_bounds_apply_op (W sb : Nat) (bn : BIGNUM) (op : Op) (htop : bn.top ≤ bn.dmax) :
    keeps_bounds W bn (apply_op W sb bn op) := by
  cases op with
  | set_zero => exact keeps_bounds_same W bn _ htop (Nat.zero_le _) rfl
  | set_one heap => exact keeps_bounds_set_word W heap bn 1 htop
  | set_word heap w => exact keeps_bounds_set_word W heap bn w htop
  | set_u64 heap v => exact keeps_bounds_set_u64 W heap bn v htop
  | set_words heap buffer n => exact keeps_bounds_set_words W heap bn buffer n htop
  | set_sign s => exact keeps_bounds_set_negative W bn s htop
  | copy heap src same => exact keeps_bounds_copy W heap bn src same htop
  | clear => exact keeps_bounds_same W bn _ htop (Nat.zero_le _) rfl
  | trim => exact keeps_bounds_correct_top W bn htop
  | ensure_capacity heap words => exact keeps_bounds_wexpand W heap bn words htop
  | ensure_capacity_bits heap bits => exact keeps_bounds_expand W sb heap bn bits htop
  | resize_to heap words => exact keeps_bounds_resize W heap bn words htop

theorem keeps_bounds_run_ops (W sb : Nat) (ops : List Op) (bn : BIGNUM)
    (htop : bn.top ≤ bn.dmax) : keeps_bounds W bn (run_ops W sb bn ops) := by
  induction ops generalizing bn with
  | nil => exact keeps_bounds_same W bn _ htop (le_refl _) rfl
  | cons op ops ih =>
    obtain ⟨h1, h2, h3⟩ := keeps_bounds_apply_op W sb bn op htop
    obtain ⟨i1, i2, i3⟩ := ih (apply_op W sb bn op) h1
    have hrun : run_ops W sb bn (op :: ops) = run_ops W sb (apply_op W sb bn op) ops := rfl
    rw [hrun]
    refine ⟨i1, le_trans h2 i2, ?_⟩
    rcases i3 with i3 | i3
    · rcases h3 with h3 | h3
      · exact Or.inl (i3.trans h3)
      · exact Or.inr (by rw [i3]; exact h3)
    · exact Or.inr i3

/-- C22: `top ≤ dmax` is an invariant of the core.  It holds for the states
written by `BN_new` and `BN_init` (used 0, capacity 0, non-negative) and for
the constant built by `BN_value_one`; each of `BN_zero`, `BN_one`,
`BN_set_word`, `BN_set_u64`, `bn_set_words`, `BN_set_negative`, `BN_copy`,
`BN_clear`, `bn_correct_top`, `bn_wexpand`, `bn_expand` and `bn_resize_words`,
successful or failed, preserves it and does not decrease `dmax`; and so does
every sequence of such calls. -/
theorem used_within_capacity (W sb : Nat) (bn : BIGNUM) (htop : bn.top ≤ bn.dmax) :
    (BN_new.top = 0 ∧ BN_new.dmax = 0 ∧ BN_new.neg = 0) ∧
    (BN_init.top = 0 ∧ BN_init.dmax = 0 ∧ BN_init.neg = 0) ∧
    BN_new.top ≤ BN_new.dmax ∧ BN_init.top ≤ BN_init.dmax ∧
    BN_value_one.top ≤ BN_value_one.dmax ∧
    ((BN_zero bn).top ≤ (BN_zero bn).dmax ∧ bn.dmax ≤ (BN_zero bn).dmax) ∧
    (∀ heap, (BN_one W heap bn).2.top ≤ (BN_one W heap bn).2.dmax ∧
      bn.dmax ≤ (BN_one W heap bn).2.dmax) ∧
    (∀ heap w, (BN_set_word W heap bn w).2.top ≤ (BN_set_word W heap bn w).2.dmax ∧
      bn.dmax ≤ (BN_set_word W heap bn w).2.dmax) ∧
    (∀ heap v, (BN_set_u64 W heap bn v).2.top ≤ (BN_set_u64 W heap bn v).2.dmax ∧
      bn.dmax ≤ (BN_set_u64 W heap bn v).2.dmax) ∧
    (∀ heap buffer n,
      (bn_set_words W heap bn buffer n).2.top ≤ (bn_set_words W heap bn buffer n).2.dmax ∧
      bn.dmax ≤ (bn_set_words W heap bn buffer n).2.dmax) ∧
    (∀ s, (BN_set_negative bn s).top ≤ (BN_set_negative bn s).dmax ∧
      bn.dmax ≤ (BN_set_negative bn s).dmax) ∧
    (∀ heap src same,
      (BN_copy W heap bn src same).2.top ≤ (BN_copy W heap bn src same).2.dmax ∧
      bn.dmax ≤ (BN_copy W heap bn src same).2.dmax) ∧
    ((BN_clear bn).top ≤ (BN_clear bn).dmax ∧ bn.dmax ≤ (BN_clear bn).dmax) ∧
    ((bn_correct_top bn).top ≤ (bn_correct_top bn).dmax ∧
      bn.dmax ≤ (bn_correct_top bn).dmax) ∧
    (∀ heap words,
      (bn_wexpand W heap bn words).2.top ≤ (bn_wexpand W heap bn words).2.dmax ∧
      bn.dmax ≤ (bn_wexpand W heap bn words).2.dmax) ∧
    (∀ heap bits,
      (bn_expand W sb heap bn bits).2.top ≤ (bn_expand W sb heap bn bits).2.dmax ∧
      bn.dmax ≤ (bn_expand W sb heap bn bits).2.dmax) ∧
    (∀ heap words,
      (bn_resize_words W heap bn words).2.top ≤ (bn_resize_words W heap bn words).2.dmax ∧
      bn.dmax ≤ (bn_resize_words W heap bn words).2.dmax) ∧
    (∀ ops, (run_ops W sb bn ops).top ≤ (run_ops W sb bn ops).dmax ∧
      bn.dmax ≤ (run_ops W sb bn ops).dmax) := by
  have two : ∀ r, keeps_bounds W bn r → r.top ≤ r.dmax ∧ bn.dmax ≤ r.dmax :=
    fun r h => ⟨h.1, h.2.1⟩
  refine ⟨⟨rfl, rfl, rfl⟩, ⟨rfl, rfl, rfl⟩, le_refl _, le_refl _, le_refl _, ?_, ?_, ?_, ?_,
    ?_, ?_, ?_, ?_, ?_, ?_, ?_, ?_, ?_⟩
  · exact two _ (keeps_bounds_same W bn _ htop (Nat.zero_le _) rfl)
  · exact fun heap => two _ (keeps_bounds_set_word W heap bn 1 htop)
  · exact fun heap w => two _ (keeps_bounds_set_word W heap bn w htop)
  · exact fun heap v => two _ (keeps_bounds_set_u64 W heap bn v htop)
  · exact fun heap buffer n => two _ (keeps_bounds_set_words W heap bn buffer n htop)
  · exact fun s => two _ (keeps_bounds_set_negative W bn s htop)
  · exact fun heap src same => two _ (keeps_bounds_copy W heap bn src same htop)
  · exact two _ (keeps_bounds_same W bn _ htop (Nat.zero_le _) rfl)
  · exact two _ (keeps_bounds_correct_top W bn htop)
  · exact fun heap words => two _ (keeps_bounds_wexpand W heap bn words htop)
  · exact fun heap bits => two _ (keeps_bounds_expand W sb heap bn bits htop)
  · exact fun heap words => two _ (keeps_bounds_resize W heap bn words htop)
  · exact fun ops => two _ (keeps_bounds_run_ops W sb ops bn htop)

theorem used_within_capacity_witness :
    BN_new.top ≤ BN_new.dmax ∧
    (run_ops 64 64 BN_new ops_growth).top ≤ (run_ops 64 64 BN_new ops_growth).dmax ∧
    BN_new.dmax ≤ (run_ops 64 64 BN_new ops_growth).dmax ∧
    (run_ops 64 64 BN_new ops_growth).dmax = 16 :=
  have h := (used_within_capacity 64 64 BN_new (by decide)).2.2.2.2.2.2.2.2.2.2.2.2.2.2.2.2.2
    ops_growth
  ⟨by decide, h.1, h.2, by decide⟩

/-! ## The ceiling and the absence of overflow -/

theorem halving_step_bits_le (W k : Nat) (s : Nat × Nat) :
    (halving_step W k s).1 ≤ s.1 + k := by
  unfold halving_step
  simp only []
  have := @Nat.and_le_left k (halving_mask W (s.2 >>> k))
  omega

/-- Whatever the argument, the count returned by `BN_num_bits_word` is at most
the word width: it starts at 0 or 1 and each block adds at most its shift. -/
theorem BN_num_bits_word_le_width (W l : Nat) (hW : W = 32 ∨ W = 64) :
    BN_num_bits_word W l ≤ W := by
  have hb : (if l ≠ 0 then 1 else 0) ≤ 1 := by split <;> omega
  have hlast : ∀ m, (1 &&& m) ≤ 1 := fun m => Nat.and_le_left
  unfold BN_num_bits_word
  simp only []
  rcases hW with rfl | rfl
  · simp only [gt_iff_lt, lt_irrefl, if_false]
    have h16 := halving_step_bits_le 32 16 (if l ≠ 0 then 1 else 0, l)
    have h8 := halving_step_bits_le 32 8 (halving_step 32 16 (if l ≠ 0 then 1 else 0, l))
    have h4 := halving_step_bits_le 32 4
      (halving_step 32 8 (halving_step 32 16 (if l ≠ 0 then 1 else 0, l)))
    have h2 := halving_step_bits_le 32 2
      (halving_step 32 4 (halving_step 32 8 (halving_step 32 16 (if l ≠ 0 then 1 else 0, l))))
    have h1 := hlast (halving_mask 32 ((halving_step 32 2 (halving_step 32 4
      (halving_step 32 8 (halving_step 32 16 (if l ≠ 0 then 1 else 0, l))))).2 >>> 1))
    simp only at h16
    omega
  · have hgt : (64 : Nat) > 32 := by decide
    simp only [if_pos hgt]
    have h32 := halving_step_bits_le 64 32 (if l ≠ 0 then 1 else 0, l)
    have h16 := halving_step_bits_le 64 16 (halving_step 64 32 (if l ≠ 0 then 1 else 0, l))
    have h8 := halving_step_bits_le 64 8
      (halving_step 64 16 (halving_step 64 32 (if l ≠ 0 then 1 else 0, l)))
    have h4 := halving_step_bits_le 64 4 (halving_step 64 8
      (halving_step 64 16 (halving_step 64 32 (if l ≠ 0 then 1 else 0, l))))
    have h2 := halving_step_bits_le 64 2 (halving_step 64 4 (halving_step 64 8
      (halving_step 64 16 (halving_step 64 32 (if l ≠ 0 then 1 else 0, l)))))
    have h1 := hlast (halving_mask 64 ((halving_step 64 2 (halving_step 64 4
      (halving_step 64 8 (halving_step 64 16
        (halving_step 64 32 (if l ≠ 0 then 1 else 0, l)))))).2 >>> 1))
    simp only at h32
    omega

/-- The own test of `bn_expand` on `size_t` values. -/
theorem bn_expand_wraps_iff (W sb bits : Nat) (hW : 1 ≤ W) (hsb : W ≤ 2 ^ sb)
    (hbits : bits < 2 ^ sb) :
    (bits + W - 1) % 2 ^ sb < bits ↔ 2 ^ sb ≤ bits + W - 1 := by
  constructor
  · intro h
    by_contra hc
    rw [Nat.mod_eq_of_lt (by omega)] at h
    omega
  · intro h
    have hsub : (bits + W - 1) % 2 ^ sb = bits + W - 1 - 2 ^ sb := by
      rw [Nat.mod_eq_sub_mod h, Nat.mod_eq_of_lt (by omega)]
    rw [hsub]
    omega

/-- On a BigInt with `top ≤ dmax` and `dmax` within the ceiling, the sums formed
by `BN_num_bits` and `BN_num_bytes` stay within `INT_MAX`, so the reductions
modulo `2 ^ 32` in them change nothing. -/
theorem no_overflow_of_bounds (W : Nat) (hW : W = 32 ∨ W = 64) (r : BIGNUM)
    (h1 : r.top ≤ r.dmax) (h2 : r.dmax ≤ INT_MAX / (4 * W)) :
    4 * r.top * W ≤ INT_MAX ∧
    (bn_minimal_width r - 1) * W +
      BN_num_bits_word W (r.d.getD (bn_minimal_width r - 1) 0) ≤ INT_MAX ∧
    BN_num_bits W r + 7 ≤ INT_MAX ∧
    (bn_minimal_width r ≠ 0 →
      BN_num_bits W r = (bn_minimal_width r - 1) * W +
        BN_num_bits_word W (r.d.getD (bn_minimal_width r - 1) 0)) ∧
    BN_num_bytes W r = (BN_num_bits W r + 7) / 8 := by
  have hmw : bn_minimal_width r ≤ r.top := bn_minimal_width_loop_le _ _
  have hnb := BN_num_bits_word_le_width W (r.d.getD (bn_minimal_width r - 1) 0) hW
  have hpos : 0 < 4 * W := by rcases hW with rfl | rfl <;> decide
  have htw : r.top * (4 * W) ≤ INT_MAX :=
    (Nat.le_div_iff_mul_le hpos).mp (le_trans h1 h2)
  have hmul : (bn_minimal_width r - 1) * W + W ≤ r.top * W + W := by
    have : (bn_minimal_width r - 1) * W ≤ r.top * W := Nat.mul_le_mul_right W (by omega)
    omega
  have hmul2 : bn_minimal_width r ≠ 0 → (bn_minimal_width r - 1) * W + W ≤ r.top * W := by
    intro h
    have : (bn_minimal_width r - 1 + 1) * W ≤ r.top * W := Nat.mul_le_mul_right W (by omega)
    rw [Nat.add_mul, Nat.one_mul] at this
    exact this
  have h4 : r.top * (4 * W) = 4 * (r.top * W) := by ring
  have h4b : 4 * r.top * W = 4 * (r.top * W) := by ring
  have hW64 : W ≤ 64 := by rcases hW with rfl | rfl <;> decide
  unfold INT_MAX at htw ⊢
  have hsum : (bn_minimal_width r - 1) * W +
      BN_num_bits_word W (r.d.getD (bn_minimal_width r - 1) 0) ≤ 536870911 + 64 := by
    omega
  have hbits : BN_num_bits W r ≤ (bn_minimal_width r - 1) * W +
      BN_num_bits_word W (r.d.getD (bn_minimal_width r - 1) 0) := by
    unfold BN_num_bits
    simp only []
    split
    · exact Nat.zero_le _
    · exact Nat.mod_le _ _
  refine ⟨by omega, by omega, by omega, ?_, ?_⟩
  · intro h
    unfold BN_num_bits
    simp only []
    rw [if_neg h]
    apply Nat.mod_eq_of_lt
    have : (536870911 : Nat) + 64 < 2 ^ 32 := by decide
    omega
  · unfold BN_num_bytes
    congr 1
    apply Nat.mod_eq_of_lt
    have : (536870911 : Nat) + 64 + 7 < 2 ^ 32 := by decide
    omega

theorem bn_wexpand_too_long_iff (W : Nat) (heap : Option (Nat → Nat)) (bn : BIGNUM)
    (words : Nat) :
    (bn_wexpand W heap bn words).1 = Status.failure BnError.BN_R_BIGNUM_TOO_LONG ↔
      bn.dmax < words ∧ INT_MAX / (4 * W) < words := by
  unfold bn_wexpand
  by_cases h1 : words ≤ bn.dmax
  · rw [if_pos h1]
    constructor
    · intro h; cases h
    · intro h; omega
  · rw [if_neg h1]
    by_cases h2 : words > INT_MAX / (4 * W)
    · rw [if_pos h2]
      exact ⟨fun _ => ⟨by omega, h2⟩, fun _ => rfl⟩
    · rw [if_neg h2]
      constructor
      · intro h
        exfalso
        by_cases h3 : bn.flags &&& BN_FLG_STATIC_DATA ≠ 0
        · rw [if_pos h3] at h
          cases h
        · rw [if_neg h3] at h
          cases heap with
          | none => cases h
          | some g => cases h
      · intro h
        exact absurd h.2 h2

/-- C23, the claim as stated fails in its last part: `bn_expand` answers
`BN_R_BIGNUM_TOO_LONG` also for a bit count that does not wrap, when the word
count it hands to `bn_wexpand` is above the ceiling.  On a 64-bit build that
is the case for `536870912 = 64 * 8388608` bits. -/
theorem bn_expand_too_long_without_wrap :
    536870912 + 64 - 1 < 2 ^ 64 ∧
    ¬ (536870912 + 64 - 1) % 2 ^ 64 < 536870912 ∧
    (536870912 + 64 - 1) / 64 = 8388608 ∧
    INT_MAX / (4 * 64) = 8388607 ∧
    bn_expand 64 64 (some (fun _ => 7)) BN_new 536870912 =
      (Status.failure BnError.BN_R_BIGNUM_TOO_LONG, BN_new) := by
  decide

/-- C23, amended: the ceiling rules out overflow.  Every BigInt reached from the state
of `BN_new` or `BN_init`, or from the constant of `BN_value_one`, by a sequence
of calls of the core has `dmax ≤ INT_MAX / (4 * BN_BITS2)` and `top ≤ dmax`,
hence `4 * top * BN_BITS2 ≤ INT_MAX`; the sum
`(width - 1) * BN_BITS2 + BN_num_bits_word(top word)` of `BN_num_bits` and the
`bits + 7` of `BN_num_bytes` are at most `INT_MAX`, so neither wraps.  And
`bn_expand(bn, bits)` answers `BN_R_BIGNUM_TOO_LONG` on its own test exactly
when `bits + BN_BITS2 - 1` wraps around `size_t`; otherwise it is
`bn_wexpand` asked for `ceil(bits / BN_BITS2)` words, whose answer it returns
(`BN_R_BIGNUM_TOO_LONG` again when that word count is above the capacity and
above the ceiling). -/
theorem ceiling_rules_out_overflow (W sb : Nat) (hW : W = 32 ∨ W = 64) (bn0 : BIGNUM)
    (h0 : bn0 = BN_new ∨ bn0 = BN_init ∨ bn0 = BN_value_one) (ops : List Op) :
    (run_ops W sb bn0 ops).dmax ≤ INT_MAX / (4 * W) ∧
    (run_ops W sb bn0 ops).top ≤ (run_ops W sb bn0 ops).dmax ∧
    4 * (run_ops W sb bn0 ops).top * W ≤ INT_MAX ∧
    (bn_minimal_width (run_ops W sb bn0 ops) - 1) * W +
      BN_num_bits_word W ((run_ops W sb bn0 ops).d.getD
        (bn_minimal_width (run_ops W sb bn0 ops) - 1) 0) ≤ INT_MAX ∧
    BN_num_bits W (run_ops W sb bn0 ops) + 7 ≤ INT_MAX ∧
    (bn_minimal_width (run_ops W sb bn0 ops) ≠ 0 →
      BN_num_bits W (run_ops W sb bn0 ops) =
        (bn_minimal_width (run_ops W sb bn0 ops) - 1) * W +
          BN_num_bits_word W ((run_ops W sb bn0 ops).d.getD
            (bn_minimal_width (run_ops W sb bn0 ops) - 1) 0)) ∧
    BN_num_bytes W (run_ops W sb bn0 ops) = (BN_num_bits W (run_ops W sb bn0 ops) + 7) / 8 ∧
    (∀ heap bn bits, bits < 2 ^ sb → W ≤ 2 ^ sb →
      ((bits + W - 1) % 2 ^ sb < bits ↔ 2 ^ sb ≤ bits + W - 1) ∧
      (2 ^ sb ≤ bits + W - 1 →
        bn_expand W sb heap bn bits = (Status.failure BnError.BN_R_BIGNUM_TOO_LONG, bn)) ∧
      (bits + W - 1 < 2 ^ sb →
        bn_expand W sb heap bn bits = bn_wexpand W heap bn ((bits + W - 1) / W) ∧
        bits ≤ W * ((bits + W - 1) / W) ∧ W * ((bits + W - 1) / W) < bits + W ∧
        ((bn_expand W sb heap bn bits).1 = Status.failure BnError.BN_R_BIGNUM_TOO_LONG ↔
          bn.dmax < (bits + W - 1) / W ∧ INT_MAX / (4 * W) < (bits + W - 1) / W))) := by
  have hWpos : 1 ≤ W := by rcases hW with rfl | rfl <;> decide
  have hinit : bn0.top ≤ bn0.dmax ∧ bn0.dmax ≤ INT_MAX / (4 * W) := by
    rcases h0 with rfl | rfl | rfl <;> rcases hW with rfl | rfl <;> decide
  obtain ⟨k1, _, k3⟩ := keeps_bounds_run_ops W sb ops bn0 hinit.1
  have hcap : (run_ops W sb bn0 ops).dmax ≤ INT_MAX / (4 * W) := by
    rcases k3 with k3 | k3
    · rw [k3]; exact hinit.2
    · exact k3
  obtain ⟨n1, n2, n3, n4, n5⟩ := no_overflow_of_bounds W hW _ k1 hcap
  refine ⟨hcap, k1, n1, n2, n3, n4, n5, ?_⟩
  intro heap bn bits hbits hsb
  have hiff := bn_expand_wraps_iff W sb bits hWpos hsb hbits
  refine ⟨hiff, ?_, ?_⟩
  · intro hwrap
    unfold bn_expand
    rw [if_pos (hiff.mpr hwrap)]
  · intro hno
    have hnot : ¬ (bits + W - 1) % 2 ^ sb < bits := by
      rw [hiff]
      omega
    have heq : bn_expand W sb heap bn bits = bn_wexpand W heap bn ((bits + W - 1) / W) := by
      unfold bn_expand
      rw [if_neg hnot, Nat.mod_eq_of_lt hno]
    refine ⟨heq, ?_, ?_, ?_⟩
    · have := Nat.div_add_mod (bits + W - 1) W
      have hm : (bits + W - 1) % W < W := Nat.mod_lt _ (by omega)
      omega
    · have := Nat.div_add_mod (bits + W - 1) W
      omega
    · rw [heq]
      exact bn_wexpand_too_long_iff W heap bn _

theorem ceiling_rules_out_overflow_witness :
    (64 = 32 ∨ 64 = 64) ∧ (BN_new = BN_new ∨ BN_new = BN_init ∨ BN_new = BN_value_one) ∧
    (run_ops 64 64 BN_new ops_growth).dmax ≤ INT_MAX / (4 * 64) ∧
    4 * (run_ops 64 64 BN_new ops_growth).top * 64 ≤ INT_MAX ∧
    BN_num_bits 64 (run_ops 64 64 BN_new ops_growth) + 7 ≤ INT_MAX :=
  have h := ceiling_rules_out_overflow 64 64 (Or.inr rfl) BN_new (Or.inl rfl) ops_growth
  ⟨Or.inr rfl, Or.inl rfl, h.1, h.2.2.1, h.2.2.2.2.1⟩

/-! ## The operations executed by the bit count -/

theorem halving_step_traced_val (W k : Nat) (s : Nat × Nat) :
    (halving_step_traced W k s).val = halving_step W k s := rfl

theorem halving_step_traced_trace (W k : Nat) (s : Nat × Nat) :
    (halving_step_traced W k s).trace = block_events W k := rfl

theorem BN_num_bits_word_traced_val (W l : Nat) :
    (BN_num_bits_word_traced W l).val = BN_num_bits_word W l := by
  unfold BN_num_bits_word_traced BN_num_bits_word
  by_cases h : W > 32
  · simp only [if_pos h]
    rfl
  · simp only [if_neg h]
    rfl

theorem BN_num_bits_word_traced_trace (W l : Nat) :
    (BN_num_bits_word_traced W l).trace =
      [Event.compare_zero] ++ (if W > 32 then block_events W 32 else []) ++
        block_events W 16 ++ block_events W 8 ++ block_events W 4 ++ block_events W 2 ++
        mask_events W 1 ++ [Event.bit_and, Event.add] := by
  unfold BN_num_bits_word_traced
  by_cases h : W > 32
  · simp only [if_pos h]
    rfl
  · simp only [if_neg h]
    rfl

theorem halving_mask_values (W k l : Nat) (hk : 1 ≤ k) (hkW : k < W) (hl : l < 2 ^ W) :
    halving_mask W (l >>> k) = if l >>> k = 0 then 0 else 2 ^ W - 1 := by
  by_cases h : l >>> k = 0
  · rw [if_pos h, h, halving_mask_zero]
  · rw [if_neg h]
    have hkpos : 0 < 2 ^ k := Nat.pow_pos (by decide)
    have hx : l >>> k ≤ 2 ^ (W - 1) := by
      rw [Nat.shiftRight_eq_div_pow]
      have h1 : l / 2 ^ k < 2 ^ (W - k) := by
        rw [Nat.div_lt_iff_lt_mul hkpos, ← pow_add]
        have : W - k + k = W := by omega
        rw [this]; exact hl
      have h2 : 2 ^ (W - k) ≤ 2 ^ (W - 1) := Nat.pow_le_pow_right (by decide) (by omega)
      omega
    exact halving_mask_of_pos (by omega) (Nat.pos_of_ne_zero h) hx

theorem halving_step_remainder_le (W k b l : Nat) (hk : 1 ≤ k) (hkW : k < W)
    (hl : l < 2 ^ W) : (halving_step W k (b, l)).2 ≤ l := by
  rw [halving_step_eq hk hkW hl]
  split
  · exact le_refl _
  · exact Nat.div_le_self _ _

/-- C21: `BN_num_bits_word` is constant-time in the value of the word.  Run
operation by operation it returns the value of `BN_num_bits_word`, and the
sequence of operations executed is the same for every input word of a given
width: one comparison with zero, then the blocks for the shifts (32,) 16, 8, 4,
2 and the mask of the shift 1, each mask formed by shift, subtract from zero,
shift the sign bit down, subtract from zero; the sequence holds no branch and
no table index.  In every block the mask is 0 when the tested upper part
`l >> k` of a word is zero and all-ones otherwise, and the remainder handed to
the next block is again a word. -/
theorem BN_num_bits_word_constant_time (W : Nat) (hW : W = 32 ∨ W = 64) :
    (∀ l, (BN_num_bits_word_traced W l).val = BN_num_bits_word W l) ∧
    (∀ l1 l2, (BN_num_bits_word_traced W l1).trace = (BN_num_bits_word_traced W l2).trace) ∧
    (∀ l e, e ∈ (BN_num_bits_word_traced W l).trace → Event.data_dependent e = false) ∧
    (∀ l, (BN_num_bits_word_traced W l).trace =
      [Event.compare_zero] ++ (if W > 32 then block_events W 32 else []) ++
        block_events W 16 ++ block_events W 8 ++ block_events W 4 ++ block_events W 2 ++
        mask_events W 1 ++ [Event.bit_and, Event.add]) ∧
    (∀ k l, 1 ≤ k → k < W → l < 2 ^ W →
      halving_mask W (l >>> k) = if l >>> k = 0 then 0 else 2 ^ W - 1) ∧
    (∀ k b l, 1 ≤ k → k < W → l < 2 ^ W → (halving_step W k (b, l)).2 ≤ l) := by
  refine ⟨BN_num_bits_word_traced_val W, ?_, ?_, BN_num_bits_word_traced_trace W,
    halving_mask_values W, halving_step_remainder_le W⟩
  · intro l1 l2
    rw [BN_num_bits_word_traced_trace, BN_num_bits_word_traced_trace]
  · intro l e he
    rw [BN_num_bits_word_traced_trace] at he
    rcases hW with rfl | rfl
    · revert e
      decide
    · revert e
      decide

theorem BN_num_bits_word_constant_time_witness :
    (64 = 32 ∨ 64 = 64) ∧
    (BN_num_bits_word_traced 64 0).trace = (BN_num_bits_word_traced 64 (2 ^ 64 - 1)).trace ∧
    (BN_num_bits_word_traced 64 (2 ^ 64 - 1)).val = BN_num_bits_word 64 (2 ^ 64 - 1) ∧
    (BN_num_bits_word_traced 64 5).trace.length = 52 :=
  have h := BN_num_bits_word_constant_time 64 (Or.inr rfl)
  ⟨Or.inr rfl, h.2.1 0 (2 ^ 64 - 1), h.1 (2 ^ 64 - 1), by decide⟩

end BN
